import Mathlib

/-!
# Content scheduling and publication engine

A shallow embedding of `src/server/services/schedulerService.js`:

* `checkScheduledPosts` (the due-post sweep, lines 44–116),
* `recycleEvergreenContent` (the evergreen sweep, lines 121–174),
* `analyzeEngagementPatterns` (the engagement analyzer, lines 179–275),
* `determineOptimalPostingTime` (the optimal-time selector, lines 282–354).

The eligibility check of the route `POST /recycle-evergreen`
(`src/server/routes/posts.js`, lines 265–301) is embedded as well, to compare
it with the query of the evergreen sweep.

Modelling conventions.

* The SQLite store is a record of tables, each table a list of rows in
  insertion order.  Only the columns the scheduler reads or writes are kept.
* Timestamps stored as ISO-8601 text by `toISOString()` are kept as the
  instant they denote, in epoch milliseconds; on such text SQLite's text
  comparison is the comparison of instants.  Column `last_recycled` is written
  in two text formats, so a `Stamp` keeps the format with the instant.
* A JavaScript `Date` is represented by its local time value in milliseconds
  (ECMAScript `LocalTime(t)`, for a zone with a constant offset), and the
  `Date` methods are the ECMAScript abstract operations `Day`, `TimeWithinDay`,
  `WeekDay`, `HourFromTime`, `MakeTime`, `MakeDate` on it.
* The outside world (the clock, the LinkedIn calls, and whether a store write
  resolves or rejects) is an explicit argument: one `Outcomes` record for each
  record of the batch.
-/

namespace SchedulerService

/-! ## Data model (`server.js`, `setupDatabase`) -/

/-- A row of table `users`, restricted to the credential columns. -/
structure User where
  id : Nat
  linkedin_token : Option String
  linkedin_refresh_token : Option String
  linkedin_expires_at : Option Int
  deriving DecidableEq, Repr

/-- The text of a timestamp as the repository writes it into column
`last_recycled`: SQLite `datetime("now")` writes `YYYY-MM-DD HH:MM:SS` (UTC,
whole seconds since the epoch), and `toISOString()` writes
`YYYY-MM-DDTHH:MM:SS.sssZ` (milliseconds since the epoch). -/
inductive Stamp where
  | sqlite (seconds : Int)
  | iso (ms : Int)
  deriving DecidableEq, Repr

/-- A row of table `posts`. -/
structure Post where
  id : Nat
  user_id : Nat
  title : String
  content : String
  scheduled_date : Option Int
  status : Option String
  ai_optimized : Bool
  engagement : Option String
  is_evergreen : Bool
  recycle_frequency : Option String
  last_recycled : Option Stamp
  deriving DecidableEq, Repr

/-- One entry of a stored slot table: `{ day, hour, averageEngagement }`. -/
structure Slot where
  day : Int
  hour : Int
  averageEngagement : Rat
  deriving DecidableEq, Repr

/-- A row of table `user_optimal_times`; the JSON text of column
`optimal_times` is kept as the slot list it encodes. -/
structure OptimalTimesRow where
  id : Nat
  user_id : Nat
  optimal_times : List Slot
  deriving DecidableEq, Repr

/-- The persisted store.  Table `user_optimal_times` is created lazily by the
analyzer, so it may not exist (`none`). -/
structure Database where
  users : List User
  posts : List Post
  user_optimal_times : Option (List OptimalTimesRow)
  deriving DecidableEq, Repr

/-! ## JavaScript values -/

/-- JavaScript truthiness of a nullable string, returning the string when it
is truthy: `null` and `""` are falsy.  Also the value of `x || null`. -/
def truthy : Option String → Option String
  | some s => if s = "" then none else some s
  | none => none

/-- JavaScript `ToNumber` on a nullable integer column: `null` converts to `0`. -/
def toNumber : Option Int → Int
  | some n => n
  | none => 0

/-! ## Dates (ECMAScript time values, local time) -/

def msPerDay : Int := 86400000
def msPerHour : Int := 3600000
def msPerMinute : Int := 60000
def msPerSecond : Int := 1000

/-- ECMAScript `Day(t)`: the day number of a time value. -/
def Day (t : Int) : Int := t / msPerDay

/-- ECMAScript `TimeWithinDay(t)`. -/
def TimeWithinDay (t : Int) : Int := t % msPerDay

/-- ECMAScript `WeekDay(t)`: 0 is Sunday, 6 is Saturday (day 0 was a Thursday). -/
def WeekDay (t : Int) : Int := (Day t + 4) % 7

/-- ECMAScript `HourFromTime(t)`. -/
def HourFromTime (t : Int) : Int := (t / msPerHour) % 24

/-- ECMAScript `MakeTime(hour, min, sec, ms)`. -/
def MakeTime (hour min sec ms : Int) : Int :=
  hour * msPerHour + min * msPerMinute + sec * msPerSecond + ms

/-- ECMAScript `MakeDate(day, time)`. -/
def MakeDate (day time : Int) : Int := day * msPerDay + time

/-- The method `Date.prototype.getDay()`. -/
def getDay (d : Int) : Int := WeekDay d

/-- The method `Date.prototype.getHours()`. -/
def getHours (d : Int) : Int := HourFromTime d

/-- The statement `d.setDate(d.getDate() + n)`: `MakeDay` of the same year and
month with date `DateFromTime(t) + n` is `Day(t) + n`, and the time within the
day is kept. -/
def addDays (d n : Int) : Int := MakeDate (Day d + n) (TimeWithinDay d)

/-- The method `Date.prototype.setHours(hour, min, sec, ms)`. -/
def setHours (d hour min sec ms : Int) : Int :=
  MakeDate (Day d) (MakeTime hour min sec ms)

/-! ## `checkScheduledPosts` (lines 44–116) -/

/-- A row of the result of the query of lines 51–58: the columns `p.*` of the
post and the three credential columns of its owner, as read by the query. -/
structure DueRow where
  post : Post
  linkedin_token : Option String
  linkedin_refresh_token : Option String
  linkedin_expires_at : Option Int
  deriving DecidableEq, Repr

/-- The `WHERE` clause `p.status = 'scheduled' AND p.scheduled_date <= ?`; a
`NULL` date never satisfies the comparison. -/
def isDue (now : Int) (p : Post) : Bool :=
  p.status = some "scheduled" &&
    (match p.scheduled_date with
     | some d => decide (d ≤ now)
     | none => false)

/-- The clause `JOIN users u ON p.user_id = u.id` for one post. -/
def joinUsers (users : List User) (p : Post) : List DueRow :=
  (users.filter (fun u => u.id = p.user_id)).map
    (fun u => ⟨p, u.linkedin_token, u.linkedin_refresh_token, u.linkedin_expires_at⟩)

/-- The order of `ORDER BY p.scheduled_date ASC` (`NULL` sorts first). -/
def dateLE (a b : DueRow) : Prop :=
  match a.post.scheduled_date, b.post.scheduled_date with
  | some x, some y => x ≤ y
  | none, _ => True
  | some _, none => False

instance : DecidableRel dateLE := fun a b => by
  unfold dateLE
  cases a.post.scheduled_date <;> cases b.post.scheduled_date <;> infer_instance

instance : IsTotal DueRow dateLE := ⟨fun a b => by
  unfold dateLE
  cases a.post.scheduled_date <;> cases b.post.scheduled_date <;> simp
  exact le_total _ _⟩

instance : IsTrans DueRow dateLE := ⟨fun a b c => by
  unfold dateLE
  cases a.post.scheduled_date <;> cases b.post.scheduled_date <;>
    cases c.post.scheduled_date <;> simp
  exact le_trans⟩

/-- The query of lines 51–58: the due posts joined with their owner, sorted by
scheduled date (ties keep table order). -/
def dueRows (now : Int) (db : Database) : List DueRow :=
  List.insertionSort dateLE
    (((db.posts.filter (isDue now)).map (joinUsers db.users)).flatten)

/-- The response of the token endpoint that `refreshAccessToken` returns. -/
structure RefreshResponse where
  access_token : String
  refresh_token : Option String
  expires_in : Int
  deriving DecidableEq, Repr

/-- What the outside world does while one record of the batch is handled. -/
structure Outcomes where
  /-- The value of `Date.now()` at line 73. -/
  dateNow : Int
  /-- The result of `linkedinService.refreshAccessToken`; `none` when it raises. -/
  refreshAccessToken : Option RefreshResponse
  /-- The value of `Date.now()` at line 85. -/
  dateNowStore : Int
  /-- Whether the `UPDATE users` of line 80 resolves. -/
  updateUsers : Bool
  /-- Whether `linkedinService.createPost` resolves. -/
  createPost : Bool
  /-- Whether the `UPDATE posts` of line 106 resolves. -/
  updatePosts : Bool
  deriving DecidableEq, Repr

/-- A call to the external platform, tagged with the id of the post that was
being handled and with whether the call returned (`true`) or raised. -/
inductive Event where
  | refreshAccessToken (postId : Nat) (refreshToken : String) (returned : Bool)
  | createPost (postId : Nat) (accessToken content : String) (returned : Bool)
  deriving DecidableEq, Repr

/-- The state threaded through the loop: the store and the calls made so far. -/
structure SweepState where
  db : Database
  trace : List Event
  deriving DecidableEq, Repr

/-- Lines 80–88: `UPDATE users SET linkedin_token = ?, linkedin_refresh_token = ?,
linkedin_expires_at = ? WHERE id = ?`. -/
def updateUserTokens (userId : Nat) (newTokens : RefreshResponse) (dateNow : Int)
    (users : List User) : List User :=
  users.map (fun u =>
    if u.id = userId then
      { u with
        linkedin_token := some newTokens.access_token
        linkedin_refresh_token := truthy newTokens.refresh_token
        linkedin_expires_at := some (dateNow + newTokens.expires_in * 1000) }
    else u)

/-- Lines 106–109: `UPDATE posts SET status = "published" WHERE id = ?`. -/
def markPublished (postId : Nat) (posts : List Post) : List Post :=
  posts.map (fun p => if p.id = postId then { p with status := some "published" } else p)

/-- Lines 65–100 of the loop body: the token to publish with and the state
reached, or `none` when the body ends in a `continue`. -/
def acquireToken (o : Outcomes) (post : DueRow) (st : SweepState) :
    Option String × SweepState :=
  match truthy post.linkedin_token with
  | none => (none, st)
  | some storedToken =>
    if toNumber post.linkedin_expires_at < o.dateNow then
      match truthy post.linkedin_refresh_token with
      | some refreshToken =>
        match o.refreshAccessToken with
        | some newTokens =>
          let st1 : SweepState :=
            { st with trace := st.trace ++ [Event.refreshAccessToken post.post.id refreshToken true] }
          if o.updateUsers then
            (some newTokens.access_token,
              { st1 with db := { st1.db with
                  users := updateUserTokens post.post.user_id newTokens o.dateNowStore st1.db.users } })
          else (none, st1)
        | none =>
          (none, { st with
            trace := st.trace ++ [Event.refreshAccessToken post.post.id refreshToken false] })
      | none => (none, st)
    else (some storedToken, st)

/-- Lines 102–114 of the loop body: the call to `createPost` and the status
update, inside the `try` whose `catch` only logs. -/
def publishPost (o : Outcomes) (post : DueRow) (accessToken : String) (st : SweepState) :
    SweepState :=
  let st1 : SweepState :=
    { st with trace :=
        st.trace ++ [Event.createPost post.post.id accessToken post.post.content o.createPost] }
  if o.createPost then
    if o.updatePosts then
      { st1 with db := { st1.db with posts := markPublished post.post.id st1.db.posts } }
    else st1
  else st1

/-- The body of the loop of lines 63–115 for one record. -/
def processPost (o : Outcomes) (post : DueRow) (st : SweepState) : SweepState :=
  match acquireToken o post st with
  | (none, st1) => st1
  | (some accessToken, st1) => publishPost o post accessToken st1

/-- The loop `for (const post of posts)`; `env i` is what the outside world
does during iteration `i`. -/
def sweep (env : Nat → Outcomes) : Nat → List DueRow → SweepState → SweepState
  | _, [], st => st
  | i, post :: rest, st => sweep env (i + 1) rest (processPost (env i) post st)

/-- The state of the sweep after its first `n` iterations. -/
def sweepUpTo (env : Nat → Outcomes) (now : Int) (db : Database) (n : Nat) : SweepState :=
  sweep env 0 ((dueRows now db).take n) ⟨db, []⟩

/-- The function `checkScheduledPosts()`, run at time `now` on store `db`. -/
def checkScheduledPosts (env : Nat → Outcomes) (now : Int) (db : Database) : SweepState :=
  sweep env 0 (dueRows now db) ⟨db, []⟩

/-! ## `determineOptimalPostingTime` (lines 282–354) -/

/-- What lines 285–291 yield: the store read or `JSON.parse` raised, or the read
returned no usable row (`optimalTimesRecord && optimalTimesRecord.optimal_times`
is falsy), or the parsed slot list. -/
inductive Lookup where
  | raised
  | absent
  | table (optimalTimes : List Slot)
  deriving DecidableEq, Repr

/-- Lines 285–291 on a reachable store: the read raises when table
`user_optimal_times` does not exist, `db.get` yields the first row of the user
if there is one, and the stored text is parsed. -/
def lookupOptimalTimes (db : Database) (userId : Nat) : Lookup :=
  match db.user_optimal_times with
  | none => Lookup.raised
  | some rows =>
    match rows.find? (fun row => row.user_id = userId) with
    | none => Lookup.absent
    | some row => Lookup.table row.optimal_times

/-- Lines 302–316: the loop over the ranked slots; `none` when the loop ends
without returning.  JavaScript `%` is the truncating remainder `Int.tmod`. -/
def findFutureSlot (now : Int) : List Slot → Option Int
  | [] => none
  | s :: rest =>
    let daysToAdd := Int.tmod (s.day - getDay now + 7) 7
    if daysToAdd = 0 ∧ s.hour ≤ getHours now then
      findFutureSlot now rest
    else
      some (setHours (addDays now daysToAdd) s.hour 0 0 0)

/-- Lines 330–343: the default policy of the `try` block. -/
def defaultSchedule (now : Int) : Int :=
  let defaultDate := setHours (addDays now 1) 10 0 0 0
  let dayOfWeek := getDay defaultDate
  if dayOfWeek = 0 then addDays defaultDate 1
  else if dayOfWeek = 6 then addDays defaultDate 2
  else defaultDate

/-- Lines 347–352: the default of the `catch` block. -/
def catchSchedule (now : Int) : Int :=
  setHours (addDays now 1) 10 0 0 0

/-- The function `determineOptimalPostingTime(userId)`, as a function of the
outcome of the slot-table lookup for `userId` and of the clock. -/
def determineOptimalPostingTime (lookup : Lookup) (now : Int) : Int :=
  match lookup with
  | Lookup.raised => catchSchedule now
  | Lookup.absent => defaultSchedule now
  | Lookup.table [] => defaultSchedule now
  | Lookup.table (first :: rest) =>
    match findFutureSlot now (first :: rest) with
    | some optimalDate => optimalDate
    | none =>
      let m := Int.tmod (first.day - getDay now + 7) 7
      let daysToAdd := if m = 0 then 7 else m
      setHours (addDays now daysToAdd) first.hour 0 0 0

/-! ## `recycleEvergreenContent` (lines 121–174) -/

/-- ECMAScript `LocalTime(t)` in a zone whose offset from UTC is the constant
`localTZA` milliseconds. -/
def LocalTime (localTZA t : Int) : Int := t + localTZA

/-- ECMAScript `UTC(t)` in a zone whose offset from UTC is the constant
`localTZA` milliseconds; `toISOString()` prints this instant. -/
def UTC (localTZA t : Int) : Int := t - localTZA

/-- SQLite `datetime('now', '-N days')` when the clock shows `now` (epoch
milliseconds): the text `YYYY-MM-DD HH:MM:SS` of the whole second, `N` days
earlier. -/
def datetimeNow (now days : Int) : Stamp := Stamp.sqlite (now / 1000 - days * 86400)

/-- SQLite `a <= b` on two timestamp texts (columns without a numeric value
are compared as text, byte by byte; years 0000–9999).  Two texts of the same
format compare as their instants.  Texts of different formats agree on the
first ten characters `YYYY-MM-DD` exactly when they fall on the same UTC day,
and then differ at the eleventh, where the blank of the SQLite format is
smaller than the `T` of the ISO format. -/
def Stamp.textLE : Stamp → Stamp → Bool
  | Stamp.sqlite a, Stamp.sqlite b => decide (a ≤ b)
  | Stamp.iso a, Stamp.iso b => decide (a ≤ b)
  | Stamp.iso a, Stamp.sqlite b => decide (a / 86400000 < b / 86400)
  | Stamp.sqlite a, Stamp.iso b => decide (a / 86400 ≤ b / 86400000)

/-- The `WHERE` clause of lines 127–134.  A `NULL` frequency makes every
frequency comparison `NULL`, so the row is selected only through
`last_recycled IS NULL`. -/
def isRecyclable (now : Int) (p : Post) : Bool :=
  p.is_evergreen && p.status = some "published" &&
    (match p.last_recycled with
     | none => true
     | some lr =>
       (p.recycle_frequency = some "weekly" && lr.textLE (datetimeNow now 7))
         || (p.recycle_frequency = some "biweekly" && lr.textLE (datetimeNow now 14))
         || (p.recycle_frequency = some "monthly" && lr.textLE (datetimeNow now 30)))

/-- The id that `INTEGER PRIMARY KEY AUTOINCREMENT` gives to the next row: one
more than the largest id in use (no row is ever deleted by the engine). -/
def nextId (ids : List Nat) : Nat := ids.foldr max 0 + 1

/-- The row inserted by lines 146–161; the columns not listed in the `INSERT`
take their defaults (`engagement` and `last_recycled` are `NULL`). -/
def recycledCopy (newId : Nat) (post : Post) (scheduledDate : Int) : Post :=
  { id := newId
    user_id := post.user_id
    title := post.title ++ " (Recycled)"
    content := post.content
    scheduled_date := some scheduledDate
    status := some "scheduled"
    ai_optimized := post.ai_optimized
    engagement := none
    is_evergreen := true
    recycle_frequency := post.recycle_frequency
    last_recycled := none }

/-- Lines 164–167: `UPDATE posts SET last_recycled = datetime("now") WHERE id = ?`. -/
def stampRecycled (postId : Nat) (stamp : Stamp) (posts : List Post) : List Post :=
  posts.map (fun p => if p.id = postId then { p with last_recycled := some stamp } else p)

/-- What the outside world does while one record of the evergreen sweep is
handled. -/
structure RecycleOutcomes where
  /-- Whether the store read inside `determineOptimalPostingTime` rejects
  although the table exists. -/
  lookupRaises : Bool
  /-- The value of `new Date()` inside `determineOptimalPostingTime` (epoch ms). -/
  dateNow : Int
  /-- Whether the `INSERT INTO posts` of line 146 resolves. -/
  insertPost : Bool
  /-- The clock of SQLite at the `UPDATE` of line 164 (epoch ms). -/
  sqliteNow : Int
  /-- Whether the `UPDATE posts` of line 164 resolves. -/
  updatePost : Bool
  deriving DecidableEq, Repr

/-- Line 143: the call `determineOptimalPostingTime(post.user_id)` and the
conversion `optimalTime.toISOString()` of line 155. -/
def optimalTimeFor (localTZA : Int) (o : RecycleOutcomes) (db : Database) (userId : Nat) : Int :=
  UTC localTZA
    (determineOptimalPostingTime
      (if o.lookupRaises then Lookup.raised else lookupOptimalTimes db userId)
      (LocalTime localTZA o.dateNow))

/-- The body of the loop of lines 140–173 for one record. -/
def recyclePost (localTZA : Int) (o : RecycleOutcomes) (post : Post) (db : Database) :
    Database :=
  let optimalTime := optimalTimeFor localTZA o db post.user_id
  if o.insertPost then
    let db1 : Database :=
      { db with
        posts := db.posts
          ++ [recycledCopy (nextId (db.posts.map Post.id)) post optimalTime] }
    if o.updatePost then
      { db1 with
        posts := stampRecycled post.id (Stamp.sqlite (o.sqliteNow / 1000)) db1.posts }
    else db1
  else db

/-- The loop `for (const post of evergreenPosts)`; `env i` is what the outside
world does during iteration `i`. -/
def recycleLoop (localTZA : Int) (env : Nat → RecycleOutcomes) :
    Nat → List Post → Database → Database
  | _, [], db => db
  | i, post :: rest, db =>
    recycleLoop localTZA env (i + 1) rest (recyclePost localTZA (env i) post db)

/-- The query of lines 125–135, in table order. -/
def evergreenPosts (now : Int) (db : Database) : List Post :=
  db.posts.filter (isRecyclable now)

/-- The store after the first `n` iterations of the evergreen sweep. -/
def recycleUpTo (localTZA : Int) (env : Nat → RecycleOutcomes) (now : Int) (db : Database)
    (n : Nat) : Database :=
  recycleLoop localTZA env 0 ((evergreenPosts now db).take n) db

/-- The function `recycleEvergreenContent()`, run when the clock of SQLite
shows `now` (epoch ms) on store `db`. -/
def recycleEvergreenContent (localTZA : Int) (env : Nat → RecycleOutcomes) (now : Int)
    (db : Database) : Database :=
  recycleLoop localTZA env 0 (evergreenPosts now db) db

/-! ## The selector as the specification words it -/

/-- The specification's `daysAhead = (weekday − today.weekday + 7) mod 7`, with
the mathematical remainder. -/
def specDaysAhead (now : Int) (s : Slot) : Int := (s.day - WeekDay now + 7) % 7

/-- The specification's skip rule: `daysAhead == 0 AND hour ≤ current hour`. -/
def specSkipped (now : Int) (s : Slot) : Prop :=
  specDaysAhead now s = 0 ∧ s.hour ≤ HourFromTime now

instance (now : Int) (s : Slot) : Decidable (specSkipped now s) := by
  unfold specSkipped; infer_instance

/-- The entries of a slot table are weekdays 0–6 and hours 0–23. -/
def SlotInRange (s : Slot) : Prop := 0 ≤ s.day ∧ s.day ≤ 6 ∧ 0 ≤ s.hour ∧ s.hour ≤ 23

instance (s : Slot) : Decidable (SlotInRange s) := by
  unfold SlotInRange; infer_instance

/-- The specification's weekend shift of the default policy, from the weekday of
tomorrow: `+2` days on a Saturday, `+1` day on a Sunday. -/
def specWeekendShift (now : Int) : Int :=
  if WeekDay (addDays now 1) = 6 then 2
  else if WeekDay (addDays now 1) = 0 then 1
  else 0

/-! ## Auxiliary definitions for the sweep -/

/-- The id of the post that was being handled when the call was made. -/
def Event.postId : Event → Nat
  | Event.refreshAccessToken postId _ _ => postId
  | Event.createPost postId _ _ _ => postId

/-- The ids of the posts for which `createPost` was called, in call order. -/
def publishAttempts (trace : List Event) : List Nat :=
  trace.filterMap (fun e =>
    match e with
    | Event.createPost postId _ _ _ => some postId
    | Event.refreshAccessToken _ _ _ => none)

/-- The claim's unavailable credential: no access token; or expiry in the past
and no refresh token; or expiry in the past and the refresh call fails. -/
def CredentialUnavailable (o : Outcomes) (r : DueRow) : Prop :=
  truthy r.linkedin_token = none
    ∨ (toNumber r.linkedin_expires_at < o.dateNow ∧ truthy r.linkedin_refresh_token = none)
    ∨ (toNumber r.linkedin_expires_at < o.dateNow ∧ o.refreshAccessToken = none)

instance (o : Outcomes) (r : DueRow) : Decidable (CredentialUnavailable o r) := by
  unfold CredentialUnavailable; infer_instance

/-- A valid credential: an access token that is not expired, or one that is
expired and is refreshed (refresh token present, refresh call returns, and the
new tokens are stored). -/
def CredentialUsable (o : Outcomes) (r : DueRow) : Prop :=
  truthy r.linkedin_token ≠ none
    ∧ (¬ toNumber r.linkedin_expires_at < o.dateNow
        ∨ (truthy r.linkedin_refresh_token ≠ none ∧ o.refreshAccessToken ≠ none
            ∧ o.updateUsers = true))

instance (o : Outcomes) (r : DueRow) : Decidable (CredentialUsable o r) := by
  unfold CredentialUsable; infer_instance

/-- A store and an outside world used to instantiate the statements: user 1
holds a live token, user 2 an expired one with a refresh token, user 3 none,
user 4 an expired one without a refresh token. -/
def sampleDb : Database :=
  { users :=
      [⟨1, some "tokA", none, some 5000⟩, ⟨2, some "tokB", some "refB", some 100⟩,
       ⟨3, none, none, none⟩, ⟨4, some "tokD", none, some 100⟩]
    posts :=
      [⟨10, 1, "t10", "c10", some 50, some "scheduled", false, none, false, none, none⟩,
       ⟨11, 2, "t11", "c11", some 40, some "scheduled", false, none, false, none, none⟩,
       ⟨12, 3, "t12", "c12", some 30, some "scheduled", false, none, false, none, none⟩,
       ⟨13, 1, "t13", "c13", some 5000, some "scheduled", false, none, false, none, none⟩,
       ⟨14, 4, "t14", "c14", some 60, some "scheduled", false, none, false, none, none⟩,
       ⟨15, 1, "t15", "c15", some 70, some "scheduled", false, none, false, none, none⟩]
    user_optimal_times := none }

/-- The outside world of the sample run at time 1000: every call and store
write succeeds, except that `createPost` raises during iteration 4. -/
def sampleEnv : Nat → Outcomes := fun i =>
  { dateNow := 1000
    refreshAccessToken := some ⟨"tokB2", none, 60⟩
    dateNowStore := 1001
    updateUsers := true
    createPost := decide (i ≠ 4)
    updatePosts := true }

/-! ## Auxiliary definitions for the evergreen sweep -/

/-- The specification's threshold of a recycle frequency, in days. -/
def specThresholdDays (frequency : String) : Option Int :=
  if frequency = "weekly" then some 7
  else if frequency = "biweekly" then some 14
  else if frequency = "monthly" then some 30
  else none

/-- The clock of the sample evergreen run: Monday 2024-01-08 12:00:00 UTC. -/
def sampleNow : Int := 19730 * 86400000 + 43200000

/-- A store used to instantiate the statements on the evergreen sweep.  Posts
20 and 21 were stamped by the sweep 8 and 6 days before `sampleNow`; post 22 is
not evergreen; posts 23 and 24 have frequency `none`, without and with a stamp;
post 25 was stamped by `toISOString()` 7 days and 1 hour before `sampleNow`. -/
def sampleRecycleDb : Database :=
  { users := [⟨1, none, none, none⟩, ⟨2, none, none, none⟩]
    posts :=
      [⟨20, 1, "t20", "c20", some 0, some "published", false, none, true, some "weekly",
          some (Stamp.sqlite (19722 * 86400 + 43200))⟩,
       ⟨21, 1, "t21", "c21", some 0, some "published", false, none, true, some "weekly",
          some (Stamp.sqlite (19724 * 86400 + 43200))⟩,
       ⟨22, 2, "t22", "c22", some 0, some "published", false, none, false, some "none", none⟩,
       ⟨23, 2, "t23", "c23", some 0, some "published", true, none, true, some "none", none⟩,
       ⟨24, 2, "t24", "c24", some 0, some "published", false, none, true, some "none",
          some (Stamp.sqlite 0)⟩,
       ⟨25, 1, "t25", "c25", some 0, some "published", false, none, true, some "weekly",
          some (Stamp.iso (19723 * 86400000 + 39600000))⟩]
    user_optimal_times := some [⟨1, 1, [⟨2, 9, 40⟩, ⟨4, 10, 30⟩]⟩] }

/-- The outside world of the sample evergreen run: every store statement
resolves. -/
def sampleRecycleEnv : Nat → RecycleOutcomes := fun _ =>
  { lookupRaises := false
    dateNow := sampleNow + 5
    insertPost := true
    sqliteNow := sampleNow + 7
    updatePost := true }

/-! ## `analyzeEngagementPatterns` (lines 179–275) -/

/-- The white space and line terminators that `parseInt` skips (ECMAScript
`StrWhiteSpaceChar`), by code point. -/
def isStrWhiteSpace (c : Char) : Bool :=
  c.toNat = 9 || c.toNat = 10 || c.toNat = 11 || c.toNat = 12 || c.toNat = 13
    || c.toNat = 32 || c.toNat = 160 || c.toNat = 5760
    || (8192 ≤ c.toNat && c.toNat ≤ 8202)
    || c.toNat = 8232 || c.toNat = 8233 || c.toNat = 8239 || c.toNat = 8287
    || c.toNat = 12288 || c.toNat = 65279

/-- A decimal digit, by code point. -/
def isDecimalDigit (c : Char) : Bool := 48 ≤ c.toNat && c.toNat ≤ 57

/-- The value of the longest run of decimal digits at the head of the text. -/
def digitsValue : List Char → Nat → Nat
  | [], acc => acc
  | c :: cs, acc =>
    if isDecimalDigit c then digitsValue cs (acc * 10 + (c.toNat - 48)) else acc

/-- The builtin `parseInt(text, 10)`: leading white space is skipped, a sign is
read, then the longest run of digits; `none` is `NaN`. -/
def parseInt10 (text : String) : Option Int :=
  let trimmed := text.toList.dropWhile isStrWhiteSpace
  let negative : Bool := (trimmed.head?.map Char.toNat) = some 45
  let signed : Bool := negative || (trimmed.head?.map Char.toNat) = some 43
  let body := if signed then trimmed.tail else trimmed
  match body with
  | [] => none
  | c :: _ =>
    if isDecimalDigit c then
      some (if negative then - (digitsValue body 0 : Int) else (digitsValue body 0 : Int))
    else none

/-- Line 221: `parseInt(post.engagement, 10) || 0`. -/
def engagementValue (engagement : String) : Int :=
  match parseInt10 engagement with
  | some n => n
  | none => 0

/-- An entry of the object `engagementByDayAndHour`: the key `day-hour` and the
value `{ count, totalEngagement, averageEngagement }`.  The quotient of line
222 is kept as a rational number. -/
structure Bucket where
  day : Int
  hour : Int
  count : Int
  totalEngagement : Int
  averageEngagement : Rat
  deriving DecidableEq, Repr

/-- Lines 220–223: the update of one entry. -/
def Bucket.add (b : Bucket) (score : Int) : Bucket :=
  { b with
    count := b.count + 1
    totalEngagement := b.totalEngagement + score
    averageEngagement := ((b.totalEngagement + score : Int) : Rat) / ((b.count + 1 : Int) : Rat) }

/-- Lines 210–223 for one post: the entry of the key is created if it is
missing (at the end: an object keeps insertion order) and updated. -/
def recordEngagement (day hour score : Int) : List Bucket → List Bucket
  | [] => [Bucket.add ⟨day, hour, 0, 0, 0⟩ score]
  | b :: rest =>
    if b.day = day ∧ b.hour = hour then Bucket.add b score :: rest
    else b :: recordEngagement day hour score rest

/-- The loop of lines 201–224.  A post without scheduled date or with a falsy
engagement text is skipped; the day and hour are those of local time. -/
def engagementByDayAndHour (localTZA : Int) : List Post → List Bucket → List Bucket
  | [], acc => acc
  | post :: rest, acc =>
    match post.scheduled_date, truthy post.engagement with
    | some date, some engagement =>
      engagementByDayAndHour localTZA rest
        (recordEngagement (getDay (LocalTime localTZA date)) (getHours (LocalTime localTZA date))
          (engagementValue engagement) acc)
    | _, _ => engagementByDayAndHour localTZA rest acc

/-- The comparator of line 228, `b.averageEngagement - a.averageEngagement`:
`a` may stay before `b`. -/
def engagementGE (a b : Bucket) : Prop := b.averageEngagement ≤ a.averageEngagement

instance : DecidableRel engagementGE := fun a b => by
  unfold engagementGE; infer_instance

instance : IsTotal Bucket engagementGE :=
  ⟨fun a b => le_total b.averageEngagement a.averageEngagement⟩

instance : IsTrans Bucket engagementGE :=
  ⟨fun _ _ _ hab hbc => le_trans (α := Rat) hbc hab⟩

/-- Line 228: the entries sorted by the comparator (the sort is stable). -/
def rankedBuckets (buckets : List Bucket) : List Bucket :=
  List.insertionSort engagementGE buckets

/-- Lines 227–233: the entries sorted, the first five kept and turned into
`{ day, hour, averageEngagement }`. -/
def optimalTimesOf (buckets : List Bucket) : List Slot :=
  ((rankedBuckets buckets).take 5).map (fun b => ⟨b.day, b.hour, b.averageEngagement⟩)

/-- The query of lines 189–192 for one user. -/
def qualifyingPosts (db : Database) (userId : Nat) : List Post :=
  db.posts.filter (fun p =>
    p.user_id = userId && p.status = some "published" && p.engagement.isSome)

/-- The slot list that the analyzer computes for one user (lines 198–233). -/
def computedOptimalTimes (localTZA : Int) (db : Database) (userId : Nat) : List Slot :=
  optimalTimesOf (engagementByDayAndHour localTZA (qualifyingPosts db userId) [])

/-- Lines 244–268 on an existing table: `UPDATE ... WHERE user_id = ?` when the
user has a row, `INSERT` otherwise. -/
def storeOptimalTimes (userId : Nat) (optimalTimes : List Slot)
    (rows : List OptimalTimesRow) : List OptimalTimesRow :=
  if rows.any (fun row => row.user_id = userId) then
    rows.map (fun row =>
      if row.user_id = userId then { row with optimal_times := optimalTimes } else row)
  else rows ++ [⟨nextId (rows.map OptimalTimesRow.id), userId, optimalTimes⟩]

/-- What the store does while one user is analyzed. -/
structure AnalysisOutcomes where
  /-- Whether the `SELECT` of line 189 resolves. -/
  selectPosts : Bool
  /-- Whether the `SELECT` of line 239 resolves when the table exists. -/
  selectExisting : Bool
  /-- Whether the `UPDATE` of line 246, or the `CREATE TABLE` and `INSERT` of
  lines 252–267, resolve. -/
  write : Bool
  deriving DecidableEq, Repr

/-- The body of the loop of lines 186–274 for one user.  When table
`user_optimal_times` does not exist the `SELECT` of line 239 raises, and the
`catch` of line 271 ends the iteration. -/
def analyzeUser (localTZA : Int) (o : AnalysisOutcomes) (user : User) (db : Database) :
    Database :=
  if o.selectPosts then
    if (qualifyingPosts db user.id).isEmpty then db
    else
      match db.user_optimal_times with
      | none => db
      | some rows =>
        if o.selectExisting && o.write then
          { db with
            user_optimal_times :=
              some (storeOptimalTimes user.id (computedOptimalTimes localTZA db user.id) rows) }
        else db
  else db

/-- The loop `for (const user of users)`. -/
def analyzeLoop (localTZA : Int) (env : Nat → AnalysisOutcomes) :
    Nat → List User → Database → Database
  | _, [], db => db
  | i, user :: rest, db =>
    analyzeLoop localTZA env (i + 1) rest (analyzeUser localTZA (env i) user db)

/-- The function `analyzeEngagementPatterns()` on store `db`. -/
def analyzeEngagementPatterns (localTZA : Int) (env : Nat → AnalysisOutcomes)
    (db : Database) : Database :=
  analyzeLoop localTZA env 0 db.users db

/-! ## The analyzer as the specification words it -/

/-- The posts that count for the slot `(day, hour)` of a user: the user's
published posts with an engagement score (a non-null, non-empty text) whose
scheduled time falls, in local time, on that weekday and hour. -/
def slotPosts (localTZA : Int) (db : Database) (userId : Nat) (day hour : Int) : List Post :=
  db.posts.filter (fun p =>
    p.user_id = userId && p.status = some "published" && (truthy p.engagement).isSome
      && (match p.scheduled_date with
          | some date =>
            decide (WeekDay (LocalTime localTZA date) = day)
              && decide (HourFromTime (LocalTime localTZA date) = hour)
          | none => false))

/-- The engagement score of a post: the integer that its engagement text
starts with, `0` when it starts with none. -/
def engagementScore (p : Post) : Int :=
  match truthy p.engagement with
  | some engagement => engagementValue engagement
  | none => 0

/-- The arithmetic mean of the engagement scores of a list of posts. -/
def specMean (posts : List Post) : Rat :=
  (((posts.map engagementScore).sum : Int) : Rat) / ((posts.length : Int) : Rat)

/-- The scores that the loop of lines 201–224 adds to the entry of key
`(day, hour)` when it runs over `posts`. -/
def slotScores (localTZA : Int) (day hour : Int) : List Post → List Int
  | [] => []
  | post :: rest =>
    match post.scheduled_date, truthy post.engagement with
    | some date, some engagement =>
      if getDay (LocalTime localTZA date) = day ∧ getHours (LocalTime localTZA date) = hour then
        engagementValue engagement :: slotScores localTZA day hour rest
      else slotScores localTZA day hour rest
    | _, _ => slotScores localTZA day hour rest

/-- A store used to instantiate the statements on the analyzer: user 1 has
published posts with scores on Tuesday 9h (10 and 5), Thursday 10h (42) and
Friday 11h (a text that is not a number), one with an empty score and one
without a date; user 2 has a draft only and a stored table. -/
def sampleAnalysisDb : Database :=
  { users := [⟨1, none, none, none⟩, ⟨2, none, none, none⟩]
    posts :=
      [⟨30, 1, "t30", "c30", some (MakeDate 19731 (MakeTime 9 15 0 0)), some "published", false,
          some "10", false, none, none⟩,
       ⟨31, 1, "t31", "c31", some (MakeDate 19738 (MakeTime 9 45 0 0)), some "published", false,
          some "5", false, none, none⟩,
       ⟨32, 1, "t32", "c32", some (MakeDate 19733 (MakeTime 10 0 0 0)), some "published", false,
          some " 42abc", false, none, none⟩,
       ⟨33, 1, "t33", "c33", some (MakeDate 19733 (MakeTime 10 0 0 0)), some "published", false,
          some "", false, none, none⟩,
       ⟨34, 1, "t34", "c34", none, some "published", false, some "7", false, none, none⟩,
       ⟨35, 1, "t35", "c35", some (MakeDate 19734 (MakeTime 11 0 0 0)), some "published", false,
          some "high", false, none, none⟩,
       ⟨36, 2, "t36", "c36", some (MakeDate 19734 (MakeTime 11 0 0 0)), some "draft", false,
          some "9", false, none, none⟩]
    user_optimal_times := some [⟨1, 2, [⟨1, 8, 3⟩]⟩] }

/-- The outside world of the sample analysis: every store statement resolves. -/
def sampleAnalysisEnv : Nat → AnalysisOutcomes := fun _ => ⟨true, true, true⟩

/-- The invariant of the loop of lines 201–224: after the loop has run over
`done`, the table has one entry for each key met, and the entry holds the
number, the sum and the mean of the scores added for its key. -/
def Tallies (localTZA : Int) (done : List Post) (acc : List Bucket) : Prop :=
  acc.Pairwise (fun x y => ¬ (x.day = y.day ∧ x.hour = y.hour))
    ∧ (∀ b ∈ acc,
        1 ≤ b.count
          ∧ b.count = ((slotScores localTZA b.day b.hour done).length : Int)
          ∧ b.totalEngagement = (slotScores localTZA b.day b.hour done).sum
          ∧ b.averageEngagement = (b.totalEngagement : Rat) / (b.count : Rat))
    ∧ ∀ day hour : Int, (∀ b ∈ acc, ¬ (b.day = day ∧ b.hour = hour)) →
        slotScores localTZA day hour done = []

/-! ## Auxiliary definitions for the selector -/

/-- ECMAScript `MinFromTime(t)`. -/
def MinFromTime (t : Int) : Int := (t / msPerMinute) % 60

/-- ECMAScript `SecFromTime(t)`. -/
def SecFromTime (t : Int) : Int := (t / msPerSecond) % 60

/-- ECMAScript `msFromTime(t)`. -/
def msFromTime (t : Int) : Int := t % msPerSecond

/-! ## Further sample runs of the due-post sweep -/

/-- The outside world of `sampleEnv` with the clock of line 73 showing 100, the
expiry of the credentials of users 2 and 4 of `sampleDb`. -/
def sampleBoundaryEnv : Nat → Outcomes := fun i => { sampleEnv i with dateNow := 100 }

/-- A store in which user 2, whose credential is expired and has a refresh
token, owns two due posts. -/
def sampleBatchDb : Database :=
  { users := [⟨2, some "tokB", some "refB", some 100⟩]
    posts :=
      [⟨16, 2, "t16", "c16", some 40, some "scheduled", false, none, false, none, none⟩,
       ⟨17, 2, "t17", "c17", some 45, some "scheduled", false, none, false, none, none⟩]
    user_optimal_times := none }

/-- An outside world in which every call and store write succeeds; the token
endpoint answers the first refresh with `tokB2`/`refB2` and every later one
with `tokB3`/`refB3`, each valid for an hour. -/
def sampleBatchEnv : Nat → Outcomes := fun i =>
  { dateNow := 1000 + i
    refreshAccessToken :=
      some (if i = 0 then ⟨"tokB2", some "refB2", 3600⟩ else ⟨"tokB3", some "refB3", 3600⟩)
    dateNowStore := 1001 + i
    updateUsers := true
    createPost := true
    updatePosts := true }

/-- The store `sampleDb` after the owner of post 10 has moved it back to
`draft`. -/
def sampleWithdrawnDb : Database :=
  { sampleDb with
    posts := sampleDb.posts.map (fun p => if p.id = 10 then { p with status := some "draft" } else p) }

/-! ## Further sample stores for the analyzer -/

/-- The store `sampleAnalysisDb` as `setupDatabase` leaves the schema: table
`user_optimal_times` does not exist. -/
def sampleFreshDb : Database := { sampleAnalysisDb with user_optimal_times := none }

/-- A store in which the only published, scored post of user 1 has no
scheduled date, and user 1 has a stored slot table. -/
def sampleUndatedDb : Database :=
  { users := [⟨1, none, none, none⟩]
    posts := [⟨34, 1, "t34", "c34", none, some "published", false, some "7", false, none, none⟩]
    user_optimal_times := some [⟨1, 1, [⟨1, 8, 3⟩]⟩] }

/-! ## The route `POST /recycle-evergreen` (`routes/posts.js`, lines 265–301) -/

/-- The instant (epoch ms) of `new Date(post.last_recycled)`: an ISO text ends
in `Z` and denotes its instant; the SQLite text `YYYY-MM-DD HH:MM:SS` carries
no zone and is read as local time (the date parser of V8, the engine of
Node.js). -/
def Stamp.toInstant (localTZA : Int) : Stamp → Int
  | Stamp.iso ms => ms
  | Stamp.sqlite seconds => UTC localTZA (seconds * 1000)

/-- The query of lines 268–271 of the route, for the user of the request. -/
def routeEvergreenPosts (db : Database) (userId : Nat) : List Post :=
  db.posts.filter (fun p => p.user_id = userId && p.is_evergreen && p.status = some "published")

/-- Lines 278–301 of the route: the value of `shouldRecycle` for one post when
`new Date()` is the instant `now`. -/
def shouldRecycle (localTZA now : Int) (post : Post) : Bool :=
  match post.last_recycled with
  | none => true
  | some lastRecycled =>
    if post.recycle_frequency = some "weekly" then
      decide (now - lastRecycled.toInstant localTZA ≥ 7 * 24 * 60 * 60 * 1000)
    else if post.recycle_frequency = some "biweekly" then
      decide (now - lastRecycled.toInstant localTZA ≥ 14 * 24 * 60 * 60 * 1000)
    else if post.recycle_frequency = some "monthly" then
      decide (now - lastRecycled.toInstant localTZA ≥ 30 * 24 * 60 * 60 * 1000)
    else false

/-! ## Lemmas on dates -/

theorem weekDay_range (t : Int) : 0 ≤ WeekDay t ∧ WeekDay t ≤ 6 := by
  unfold WeekDay
  omega

theorem tmod_seven_eq (s : Slot) (now : Int) (h : 0 ≤ s.day) :
    Int.tmod (s.day - getDay now + 7) 7 = specDaysAhead now s := by
  have hw := weekDay_range now
  unfold specDaysAhead getDay
  exact Int.tmod_eq_emod (by omega) (by decide)

theorem specDaysAhead_range (now : Int) (s : Slot) :
    0 ≤ specDaysAhead now s ∧ specDaysAhead now s ≤ 6 := by
  unfold specDaysAhead
  omega

theorem day_setHours_addDays (now n hour : Int) (h0 : 0 ≤ hour) (h1 : hour ≤ 23) :
    Day (setHours (addDays now n) hour 0 0 0) = Day now + n := by
  unfold setHours addDays MakeDate MakeTime Day TimeWithinDay msPerDay msPerHour msPerMinute
    msPerSecond
  omega

theorem setHours_addDays (now n hour : Int) :
    setHours (addDays now n) hour 0 0 0 = MakeDate (Day now + n) (MakeTime hour 0 0 0) := by
  unfold setHours addDays MakeDate MakeTime Day TimeWithinDay msPerDay msPerHour msPerMinute
    msPerSecond
  omega

/-! ## Lemmas on the slot loop -/

theorem findFutureSlot_skip (now : Int) (pre rest : List Slot)
    (hday : ∀ x ∈ pre, 0 ≤ x.day) (hpre : ∀ x ∈ pre, specSkipped now x) :
    findFutureSlot now (pre ++ rest) = findFutureSlot now rest := by
  induction pre with
  | nil => rfl
  | cons x xs ih =>
    have hx := hpre x (List.mem_cons_self x xs)
    have hd := hday x (List.mem_cons_self x xs)
    have ih1 := ih (fun y hy => hday y (List.mem_cons_of_mem x hy))
      (fun y hy => hpre y (List.mem_cons_of_mem x hy))
    simp only [List.cons_append, findFutureSlot, tmod_seven_eq x now hd]
    rw [if_pos ⟨hx.1, hx.2⟩]
    exact ih1

theorem findFutureSlot_take (now : Int) (s : Slot) (rest : List Slot) (hday : 0 ≤ s.day)
    (hs : ¬ specSkipped now s) :
    findFutureSlot now (s :: rest)
      = some (setHours (addDays now (specDaysAhead now s)) s.hour 0 0 0) := by
  simp only [findFutureSlot, tmod_seven_eq s now hday]
  rw [if_neg (fun h => hs ⟨h.1, h.2⟩)]

/-! ## The selector: ranked table -/

/-- C7. For a non-empty slot table with weekdays 0–6 and hours 0–23 in which
some slot is not skipped, `determineOptimalPostingTime` returns the timestamp
of the first slot in table order that is not skipped: the date
`daysAhead = (weekday − today's weekday + 7) mod 7` days after today, at
`hour:00:00.000`; a slot is skipped exactly when `daysAhead = 0` and its hour
is at most the current hour. -/
theorem determineOptimalPostingTime_first_unskipped (now : Int) (pre : List Slot) (s : Slot)
    (post : List Slot) (hrange : ∀ x ∈ pre ++ s :: post, SlotInRange x)
    (hpre : ∀ x ∈ pre, specSkipped now x) (hs : ¬ specSkipped now s) :
    determineOptimalPostingTime (Lookup.table (pre ++ s :: post)) now
        = MakeDate (Day now + specDaysAhead now s) (MakeTime s.hour 0 0 0)
      ∧ Day (determineOptimalPostingTime (Lookup.table (pre ++ s :: post)) now)
        = Day now + specDaysAhead now s
      ∧ WeekDay (determineOptimalPostingTime (Lookup.table (pre ++ s :: post)) now) = s.day
      ∧ TimeWithinDay (determineOptimalPostingTime (Lookup.table (pre ++ s :: post)) now)
        = s.hour * msPerHour := by
  have hsr : SlotInRange s := hrange s (by simp)
  have hfind : findFutureSlot now (pre ++ s :: post)
      = some (setHours (addDays now (specDaysAhead now s)) s.hour 0 0 0) := by
    rw [findFutureSlot_skip now pre (s :: post)
      (fun x hx => (hrange x (List.mem_append_left _ hx)).1) hpre]
    exact findFutureSlot_take now s post hsr.1 hs
  have hval : determineOptimalPostingTime (Lookup.table (pre ++ s :: post)) now
      = setHours (addDays now (specDaysAhead now s)) s.hour 0 0 0 := by
    cases hl : pre ++ s :: post with
    | nil => simp at hl
    | cons a l =>
      rw [hl] at hfind
      simp only [determineOptimalPostingTime, hfind]
  rw [hval, setHours_addDays]
  have hw := weekDay_range now
  obtain ⟨h0, h6, hh0, hh23⟩ := hsr
  refine ⟨rfl, ?_, ?_, ?_⟩
  · unfold MakeDate MakeTime Day msPerDay msPerHour msPerMinute msPerSecond
    omega
  · unfold specDaysAhead WeekDay MakeDate MakeTime Day msPerDay msPerHour msPerMinute
      msPerSecond at *
    omega
  · unfold MakeDate MakeTime TimeWithinDay msPerDay msPerHour msPerMinute msPerSecond
    omega

theorem determineOptimalPostingTime_first_unskipped_witness :
    determineOptimalPostingTime
        (Lookup.table ([⟨2, 9, 40⟩] ++ (⟨4, 10, 30⟩ : Slot) :: [⟨2, 11, 20⟩]))
        (MakeDate 19731 (MakeTime 10 30 0 0))
      = MakeDate (Day (MakeDate 19731 (MakeTime 10 30 0 0))
          + specDaysAhead (MakeDate 19731 (MakeTime 10 30 0 0)) ⟨4, 10, 30⟩)
          (MakeTime 10 0 0 0) :=
  (determineOptimalPostingTime_first_unskipped (MakeDate 19731 (MakeTime 10 30 0 0))
    [⟨2, 9, 40⟩] ⟨4, 10, 30⟩ [⟨2, 11, 20⟩] (by decide) (by decide) (by decide)).1

/-- C8. For a non-empty slot table in which every slot is skipped,
`determineOptimalPostingTime` returns the first slot's hour at `:00` on the
date `daysAhead` days after today, where `daysAhead` is
`(weekday − today's weekday + 7) mod 7` replaced by 7 when it is 0; so
`daysAhead` is never 0 (here it is 7) and the result lies in the following
week. -/
theorem determineOptimalPostingTime_all_skipped (now : Int) (first : Slot) (rest : List Slot)
    (hrange : ∀ x ∈ first :: rest, SlotInRange x)
    (hall : ∀ x ∈ first :: rest, specSkipped now x) :
    determineOptimalPostingTime (Lookup.table (first :: rest)) now
        = MakeDate
            (Day now + (if specDaysAhead now first = 0 then 7 else specDaysAhead now first))
            (MakeTime first.hour 0 0 0)
      ∧ (if specDaysAhead now first = 0 then 7 else specDaysAhead now first) ≠ 0
      ∧ (if specDaysAhead now first = 0 then 7 else specDaysAhead now first) = 7
      ∧ Day (determineOptimalPostingTime (Lookup.table (first :: rest)) now) = Day now + 7
      ∧ TimeWithinDay (determineOptimalPostingTime (Lookup.table (first :: rest)) now)
        = first.hour * msPerHour := by
  have hfr : SlotInRange first := hrange first (List.mem_cons_self _ _)
  have hfs : specSkipped now first := hall first (List.mem_cons_self _ _)
  have hfind : findFutureSlot now (first :: rest) = none := by
    have h := findFutureSlot_skip now (first :: rest) [] (fun x hx => (hrange x hx).1) hall
    simpa [findFutureSlot] using h
  have hval : determineOptimalPostingTime (Lookup.table (first :: rest)) now
      = setHours (addDays now
          (if specDaysAhead now first = 0 then 7 else specDaysAhead now first))
          first.hour 0 0 0 := by
    simp only [determineOptimalPostingTime, hfind, tmod_seven_eq first now hfr.1]
  rw [hval, setHours_addDays, if_pos hfs.1]
  obtain ⟨h0, h6, hh0, hh23⟩ := hfr
  refine ⟨rfl, by decide, rfl, ?_, ?_⟩
  · unfold MakeDate MakeTime Day msPerDay msPerHour msPerMinute msPerSecond
    omega
  · unfold MakeDate MakeTime TimeWithinDay msPerDay msPerHour msPerMinute msPerSecond
    omega

theorem determineOptimalPostingTime_all_skipped_witness :
    Day (determineOptimalPostingTime (Lookup.table [⟨2, 9, 40⟩, ⟨2, 10, 30⟩])
        (MakeDate 19731 (MakeTime 10 30 0 0)))
      = Day (MakeDate 19731 (MakeTime 10 30 0 0)) + 7 :=
  (determineOptimalPostingTime_all_skipped (MakeDate 19731 (MakeTime 10 30 0 0))
    ⟨2, 9, 40⟩ [⟨2, 10, 30⟩] (by decide) (by decide)).2.2.2.1

/-! ## The selector: default policy -/

/-- C9. When the user has no slot table or an empty one,
`determineOptimalPostingTime` returns tomorrow at 10:00:00.000, shifted by
`+2` days if tomorrow is a Saturday and by `+1` day if tomorrow is a Sunday;
the result is at 10:00 on a Monday-to-Friday date, never on a weekend day. -/
theorem determineOptimalPostingTime_default (now : Int) (lookup : Lookup)
    (h : lookup = Lookup.absent ∨ lookup = Lookup.table []) :
    determineOptimalPostingTime lookup now
        = MakeDate (Day now + 1 + specWeekendShift now) (MakeTime 10 0 0 0)
      ∧ 1 ≤ WeekDay (determineOptimalPostingTime lookup now)
      ∧ WeekDay (determineOptimalPostingTime lookup now) ≤ 5
      ∧ HourFromTime (determineOptimalPostingTime lookup now) = 10
      ∧ TimeWithinDay (determineOptimalPostingTime lookup now) = 10 * msPerHour := by
  have hval : determineOptimalPostingTime lookup now = defaultSchedule now := by
    rcases h with h | h <;> subst h <;> rfl
  rw [hval]
  unfold defaultSchedule specWeekendShift
  simp only [getDay]
  unfold WeekDay HourFromTime TimeWithinDay setHours addDays MakeDate MakeTime Day TimeWithinDay
    msPerDay msPerHour msPerMinute msPerSecond
  split_ifs <;> omega

theorem determineOptimalPostingTime_default_witness :
    determineOptimalPostingTime (Lookup.table []) (MakeDate 19727 (MakeTime 12 0 0 0))
      = MakeDate (Day (MakeDate 19727 (MakeTime 12 0 0 0)) + 1
          + specWeekendShift (MakeDate 19727 (MakeTime 12 0 0 0))) (MakeTime 10 0 0 0) :=
  (determineOptimalPostingTime_default (MakeDate 19727 (MakeTime 12 0 0 0)) (Lookup.table [])
    (Or.inr rfl)).1

/-- C10. When the slot-table lookup raises (here: table `user_optimal_times`
does not exist), `determineOptimalPostingTime` returns tomorrow at 10:00
without the weekend shift of the default policy: on Friday 2024-01-05 at 12:00
(day 19727) it returns Saturday 2024-01-06 at 10:00, where a missing row gives
Monday 2024-01-08 at 10:00. -/
theorem determineOptimalPostingTime_raised_on_friday :
    lookupOptimalTimes sampleDb 1 = Lookup.raised
      ∧ WeekDay (MakeDate 19727 (MakeTime 12 0 0 0)) = 5
      ∧ determineOptimalPostingTime Lookup.raised (MakeDate 19727 (MakeTime 12 0 0 0))
        = MakeDate 19728 (MakeTime 10 0 0 0)
      ∧ WeekDay (determineOptimalPostingTime Lookup.raised (MakeDate 19727 (MakeTime 12 0 0 0)))
        = 6
      ∧ determineOptimalPostingTime Lookup.absent (MakeDate 19727 (MakeTime 12 0 0 0))
        = MakeDate 19730 (MakeTime 10 0 0 0) := by
  decide


/-! ## Lemmas on the loop -/

theorem sweep_append (env : Nat → Outcomes) (xs ys : List DueRow) (i : Nat) (st : SweepState) :
    sweep env i (xs ++ ys) st = sweep env (i + xs.length) ys (sweep env i xs st) := by
  induction xs generalizing i st with
  | nil => simp [sweep]
  | cons x xs ih =>
    show sweep env (i + 1) (xs ++ ys) (processPost (env i) x st)
      = sweep env (i + (xs.length + 1)) ys (sweep env (i + 1) xs (processPost (env i) x st))
    rw [ih, Nat.add_assoc, Nat.add_comm 1]

theorem sweepUpTo_succ (env : Nat → Outcomes) (now : Int) (db : Database) (i : Nat) (r : DueRow)
    (hr : (dueRows now db)[i]? = some r) :
    sweepUpTo env now db (i + 1) = processPost (env i) r (sweepUpTo env now db i) := by
  have hlt : i < (dueRows now db).length := by
    by_contra hge
    rw [List.getElem?_eq_none (by omega)] at hr
    cases hr
  have hget : (dueRows now db)[i] = r := by
    rw [List.getElem?_eq_getElem hlt] at hr
    exact Option.some.inj hr
  unfold sweepUpTo
  rw [List.take_succ, hr, sweep_append]
  simp [sweep, List.length_take, Nat.min_eq_left (Nat.le_of_lt hlt)]

theorem checkScheduledPosts_eq_sweep_drop (env : Nat → Outcomes) (now : Int) (db : Database)
    (i : Nat) :
    checkScheduledPosts env now db
      = sweep env (min i (dueRows now db).length) ((dueRows now db).drop i)
          (sweepUpTo env now db i) := by
  unfold checkScheduledPosts sweepUpTo
  conv_lhs => rw [← List.take_append_drop i (dueRows now db)]
  rw [sweep_append]
  simp [List.length_take]

theorem acquireToken_posts (o : Outcomes) (r : DueRow) (st : SweepState) :
    (acquireToken o r st).2.db.posts = st.db.posts := by
  unfold acquireToken
  repeat' split
  all_goals rfl

theorem acquireToken_trace (o : Outcomes) (r : DueRow) (st : SweepState) :
    ∃ evs, (acquireToken o r st).2.trace = st.trace ++ evs
      ∧ ∀ e ∈ evs, ∃ rt b, e = Event.refreshAccessToken r.post.id rt b := by
  unfold acquireToken
  repeat' split
  all_goals first
    | (refine ⟨[], ?_, ?_⟩ <;> simp <;> done)
    | (refine ⟨[_], rfl, ?_⟩; simp)

theorem publishPost_trace (o : Outcomes) (r : DueRow) (tok : String) (st : SweepState) :
    (publishPost o r tok st).trace
      = st.trace ++ [Event.createPost r.post.id tok r.post.content o.createPost] := by
  unfold publishPost
  repeat' split
  all_goals rfl

theorem publishPost_posts (o : Outcomes) (r : DueRow) (tok : String) (st : SweepState) :
    (publishPost o r tok st).db.posts
      = if o.createPost = true ∧ o.updatePosts = true then markPublished r.post.id st.db.posts
        else st.db.posts := by
  unfold publishPost
  cases o.createPost <;> cases o.updatePosts <;> simp

theorem publishPost_users (o : Outcomes) (r : DueRow) (tok : String) (st : SweepState) :
    (publishPost o r tok st).db.users = st.db.users := by
  unfold publishPost
  repeat' split
  all_goals rfl

theorem processPost_effect (o : Outcomes) (r : DueRow) (st : SweepState) :
    ∃ evs, (processPost o r st).trace = st.trace ++ evs
      ∧ (∀ e ∈ evs, Event.postId e = r.post.id)
      ∧ ((processPost o r st).db.posts = st.db.posts
          ∨ ((processPost o r st).db.posts = markPublished r.post.id st.db.posts
              ∧ ∃ tok, Event.createPost r.post.id tok r.post.content true ∈ evs)) := by
  obtain ⟨evs, hevs, htag⟩ := acquireToken_trace o r st
  have hp := acquireToken_posts o r st
  unfold processPost
  split
  next st1 heq =>
    refine ⟨evs, by rw [← hevs, heq], ?_, Or.inl (by rw [← hp, heq])⟩
    intro e he
    obtain ⟨rt, b, rfl⟩ := htag e he
    rfl
  next tok st1 heq =>
    have h1 : st1.db.posts = st.db.posts := by rw [← hp, heq]
    have h2 : st1.trace = st.trace ++ evs := by rw [← hevs, heq]
    refine ⟨evs ++ [Event.createPost r.post.id tok r.post.content o.createPost], ?_, ?_, ?_⟩
    · rw [publishPost_trace, h2, List.append_assoc]
    · intro e he
      rcases List.mem_append.mp he with he | he
      · obtain ⟨rt, b, rfl⟩ := htag e he
        rfl
      · rw [List.mem_singleton.mp he]
        rfl
    · rw [publishPost_posts, h1]
      by_cases hc : o.createPost = true ∧ o.updatePosts = true
      · right
        rw [if_pos hc]
        exact ⟨rfl, tok, by simp [hc.1]⟩
      · left
        rw [if_neg hc]

/-- The effect of a sweep: the posts whose id is in some list `ids` are set to
`published`; each such id is the id of a handled record for which a
`createPost` call returned; every call made is tagged with the id of a handled
record. -/
theorem sweep_effect (env : Nat → Outcomes) (rows : List DueRow) (k : Nat) (st : SweepState) :
    ∃ (ids : List Nat) (evs : List Event),
      (sweep env k rows st).db.posts
          = st.db.posts.map
              (fun p => if p.id ∈ ids then { p with status := some "published" } else p)
        ∧ (sweep env k rows st).trace = st.trace ++ evs
        ∧ (∀ id ∈ ids, (∃ r ∈ rows, r.post.id = id)
            ∧ ∃ tok content, Event.createPost id tok content true ∈ evs)
        ∧ ∀ e ∈ evs, ∃ r ∈ rows, Event.postId e = r.post.id := by
  induction rows generalizing k st with
  | nil => exact ⟨[], [], by simp [sweep], by simp [sweep], by simp, by simp⟩
  | cons r rest ih =>
    obtain ⟨ids, evs, hposts, htrace, hids, hevs⟩ := ih (k + 1) (processPost (env k) r st)
    obtain ⟨evs0, htrace0, htag0, hstep⟩ := processPost_effect (env k) r st
    have hevs' : ∀ e ∈ evs0 ++ evs, ∃ r' ∈ r :: rest, Event.postId e = r'.post.id := by
      intro e he
      rcases List.mem_append.mp he with he | he
      · exact ⟨r, List.mem_cons_self _ _, htag0 e he⟩
      · obtain ⟨r', hr', h⟩ := hevs e he
        exact ⟨r', List.mem_cons_of_mem _ hr', h⟩
    have htrace' : (sweep env k (r :: rest) st).trace = st.trace ++ (evs0 ++ evs) := by
      simp only [sweep]
      rw [htrace, htrace0, List.append_assoc]
    have hids' : ∀ id ∈ ids, (∃ r' ∈ r :: rest, r'.post.id = id)
        ∧ ∃ tok content, Event.createPost id tok content true ∈ evs0 ++ evs := by
      intro id hid
      obtain ⟨⟨r', hr', h⟩, tok, content, hev⟩ := hids id hid
      exact ⟨⟨r', List.mem_cons_of_mem _ hr', h⟩, tok, content, List.mem_append_right _ hev⟩
    rcases hstep with h | ⟨h, tok, htok⟩
    · exact ⟨ids, evs0 ++ evs, by simp only [sweep]; rw [hposts, h], htrace', hids', hevs'⟩
    · refine ⟨r.post.id :: ids, evs0 ++ evs, ?_, htrace', ?_, hevs'⟩
      · simp only [sweep]
        rw [hposts, h, markPublished, List.map_map]
        apply List.map_congr_left
        intro p _
        by_cases h1 : p.id = r.post.id
        · by_cases h2 : r.post.id ∈ ids <;> simp [h1, h2]
        · by_cases h2 : p.id ∈ ids <;> simp [h1, h2]
      · intro id hid
        rcases List.mem_cons.mp hid with rfl | hid
        · exact ⟨⟨r, List.mem_cons_self _ _, rfl⟩, tok, r.post.content,
            List.mem_append_left _ htok⟩
        · exact hids' id hid

/-! ## Lemmas on the query -/

theorem mem_dueRows (now : Int) (db : Database) (r : DueRow) :
    r ∈ dueRows now db ↔
      r.post ∈ db.posts ∧ isDue now r.post = true
        ∧ ∃ u ∈ db.users, u.id = r.post.user_id
            ∧ r = ⟨r.post, u.linkedin_token, u.linkedin_refresh_token, u.linkedin_expires_at⟩ := by
  unfold dueRows
  rw [(List.perm_insertionSort dateLE _).mem_iff]
  simp only [List.mem_flatten, List.mem_map, List.mem_filter, joinUsers]
  constructor
  · rintro ⟨l, ⟨p, ⟨hp, hdue⟩, rfl⟩, hr⟩
    simp only [List.mem_map, List.mem_filter, decide_eq_true_eq] at hr
    obtain ⟨u, ⟨hu, hid⟩, rfl⟩ := hr
    exact ⟨hp, hdue, u, hu, hid, rfl⟩
  · rintro ⟨hp, hdue, u, hu, hid, hr⟩
    refine ⟨_, ⟨r.post, ⟨hp, hdue⟩, rfl⟩, ?_⟩
    simp only [List.mem_map, List.mem_filter, decide_eq_true_eq]
    exact ⟨u, ⟨hu, hid⟩, hr.symm⟩

theorem isDue_iff (now : Int) (p : Post) :
    isDue now p = true ↔ p.status = some "scheduled" ∧ ∃ d, p.scheduled_date = some d ∧ d ≤ now := by
  unfold isDue
  cases p.scheduled_date <;> simp

theorem dueRows_sorted (now : Int) (db : Database) : List.Sorted dateLE (dueRows now db) :=
  List.sorted_insertionSort dateLE _

theorem joinUsers_post (users : List User) (p : Post) (r : DueRow) (hr : r ∈ joinUsers users p) :
    r.post = p := by
  unfold joinUsers at hr
  obtain ⟨u, -, rfl⟩ := List.mem_map.mp hr
  rfl

theorem joinUsers_length (users : List User) (p : Post) (hu : (users.map User.id).Nodup) :
    (joinUsers users p).length ≤ 1 := by
  unfold joinUsers
  rw [List.length_map]
  induction users with
  | nil => simp
  | cons u us ih =>
    rw [List.map_cons, List.nodup_cons] at hu
    by_cases h : u.id = p.user_id
    · have hnone : us.filter (fun v => decide (v.id = p.user_id)) = [] := by
        rw [List.filter_eq_nil_iff]
        intro v hv hvid
        apply hu.1
        rw [h, ← of_decide_eq_true hvid]
        exact List.mem_map_of_mem _ hv
      simp [List.filter_cons, h, hnone]
    · simpa [List.filter_cons, h] using ih hu.2

theorem joined_ids_nodup (users : List User) (ps : List Post)
    (hu : (users.map User.id).Nodup) (hp : (ps.map Post.id).Nodup) :
    (((ps.map (joinUsers users)).flatten).map (fun r => r.post.id)).Nodup := by
  induction ps with
  | nil => simp
  | cons p ps ih =>
    rw [List.map_cons, List.nodup_cons] at hp
    rw [List.map_cons, List.flatten_cons, List.map_append, List.nodup_append]
    refine ⟨?_, ih hp.2, ?_⟩
    · have hlen := joinUsers_length users p hu
      match hj : joinUsers users p with
      | [] => simp
      | [a] => simp
      | a :: b :: l => rw [hj] at hlen; simp at hlen
    · intro k hk1 hk2
      obtain ⟨r1, hr1, rfl⟩ := List.mem_map.mp hk1
      obtain ⟨r2, hr2, h2⟩ := List.mem_map.mp hk2
      obtain ⟨l, hl, hr2l⟩ := List.mem_flatten.mp hr2
      obtain ⟨q, hq, rfl⟩ := List.mem_map.mp hl
      apply hp.1
      have e1 := joinUsers_post users p r1 hr1
      have e2 := joinUsers_post users q r2 hr2l
      rw [← e1, ← h2, e2]
      exact List.mem_map_of_mem _ hq

theorem dueRows_ids_nodup (now : Int) (db : Database)
    (hp : (db.posts.map Post.id).Nodup) (hu : (db.users.map User.id).Nodup) :
    ((dueRows now db).map (fun r => r.post.id)).Nodup := by
  unfold dueRows
  rw [((List.perm_insertionSort dateLE _).map _).nodup_iff]
  exact joined_ids_nodup db.users _ hu
    (hp.sublist ((List.filter_sublist db.posts).map Post.id))

theorem processPost_attempts (o : Outcomes) (r : DueRow) (st : SweepState) :
    ∃ evs, (processPost o r st).trace = st.trace ++ evs
      ∧ (publishAttempts evs).Sublist [r.post.id] := by
  obtain ⟨evs, hevs, htag⟩ := acquireToken_trace o r st
  have hnone : publishAttempts evs = [] := by
    unfold publishAttempts
    rw [List.filterMap_eq_nil_iff]
    intro e he
    obtain ⟨rt, b, rfl⟩ := htag e he
    rfl
  unfold processPost
  split
  next st1 heq =>
    refine ⟨evs, by rw [← hevs, heq], ?_⟩
    rw [hnone]
    exact List.nil_sublist _
  next tok st1 heq =>
    have h2 : st1.trace = st.trace ++ evs := by rw [← hevs, heq]
    refine ⟨evs ++ [Event.createPost r.post.id tok r.post.content o.createPost], ?_, ?_⟩
    · rw [publishPost_trace, h2, List.append_assoc]
    · have : publishAttempts
          (evs ++ [Event.createPost r.post.id tok r.post.content o.createPost])
          = publishAttempts evs ++ [r.post.id] := by
        unfold publishAttempts
        rw [List.filterMap_append]
        rfl
      rw [this, hnone]
      exact List.Sublist.refl _

theorem sweep_attempts (env : Nat → Outcomes) (rows : List DueRow) (k : Nat) (st : SweepState) :
    ∃ evs, (sweep env k rows st).trace = st.trace ++ evs
      ∧ (publishAttempts evs).Sublist (rows.map (fun r => r.post.id)) := by
  induction rows generalizing k st with
  | nil => exact ⟨[], by simp [sweep], by simp [publishAttempts]⟩
  | cons r rest ih =>
    obtain ⟨evs, htrace, hsub⟩ := ih (k + 1) (processPost (env k) r st)
    obtain ⟨evs0, htrace0, hsub0⟩ := processPost_attempts (env k) r st
    refine ⟨evs0 ++ evs, ?_, ?_⟩
    · simp only [sweep]
      rw [htrace, htrace0, List.append_assoc]
    · have : publishAttempts (evs0 ++ evs) = publishAttempts evs0 ++ publishAttempts evs := by
        unfold publishAttempts
        exact List.filterMap_append _ _ _
      rw [this, List.map_cons]
      exact List.Sublist.append hsub0 hsub

theorem sweep_other (env : Nat → Outcomes) (rows : List DueRow) (k : Nat) (st : SweepState)
    (id : Nat) (h : ∀ r ∈ rows, r.post.id ≠ id) :
    (∀ q : Post, q.id = id → (q ∈ (sweep env k rows st).db.posts ↔ q ∈ st.db.posts))
      ∧ ∀ e, Event.postId e = id → (e ∈ (sweep env k rows st).trace ↔ e ∈ st.trace) := by
  obtain ⟨ids, evs, hposts, htrace, hids, hevs⟩ := sweep_effect env rows k st
  have hnot : id ∉ ids := by
    intro hmem
    obtain ⟨⟨r, hr, hrid⟩, -⟩ := hids id hmem
    exact h r hr hrid
  constructor
  · intro q hq
    rw [hposts, List.mem_map]
    constructor
    · rintro ⟨p, hp, hpq⟩
      by_cases hmem : p.id ∈ ids
      · rw [if_pos hmem] at hpq
        have : p.id = id := by rw [← hq, ← hpq]
        exact absurd (this ▸ hmem) hnot
      · rw [if_neg hmem] at hpq
        exact hpq ▸ hp
    · intro hmem
      exact ⟨q, hmem, by rw [if_neg (hq ▸ hnot)]⟩
  · intro e he
    rw [htrace, List.mem_append]
    constructor
    · rintro (h1 | h1)
      · exact h1
      · obtain ⟨r, hr, hrid⟩ := hevs e h1
        exact absurd (hrid.symm.trans he) (h r hr)
    · exact Or.inl

theorem index_lt_length (rows : List DueRow) (i : Nat) (r : DueRow)
    (hr : rows[i]? = some r) : i < rows.length := by
  by_contra hge
  rw [List.getElem?_eq_none (by omega)] at hr
  cases hr

theorem rows_split (rows : List DueRow) (i : Nat) (r : DueRow) (hr : rows[i]? = some r) :
    rows = rows.take i ++ r :: rows.drop (i + 1) := by
  have hlt := index_lt_length rows i r hr
  have hget : rows[i] = r := by
    rw [List.getElem?_eq_getElem hlt] at hr
    exact Option.some.inj hr
  conv_lhs => rw [← List.take_append_drop i rows]
  rw [List.drop_eq_getElem_cons hlt, hget]

theorem others_ne (rows : List DueRow) (i : Nat) (r : DueRow) (hr : rows[i]? = some r)
    (hn : (rows.map (fun x => x.post.id)).Nodup) :
    (∀ x ∈ rows.take i, x.post.id ≠ r.post.id)
      ∧ ∀ x ∈ rows.drop (i + 1), x.post.id ≠ r.post.id := by
  rw [rows_split rows i r hr, List.map_append, List.map_cons, List.nodup_append,
    List.nodup_cons] at hn
  obtain ⟨-, ⟨hnot, -⟩, hdisj⟩ := hn
  constructor
  · intro x hx hid
    exact hdisj (List.mem_map_of_mem _ hx) (hid ▸ List.mem_cons_self _ _)
  · intro x hx hid
    exact hnot (hid ▸ List.mem_map_of_mem (fun x => x.post.id) hx)

theorem checkScheduledPosts_split (env : Nat → Outcomes) (now : Int) (db : Database) (i : Nat)
    (r : DueRow) (hr : (dueRows now db)[i]? = some r) :
    checkScheduledPosts env now db
      = sweep env (i + 1) ((dueRows now db).drop (i + 1)) (sweepUpTo env now db (i + 1)) := by
  have hlt := index_lt_length _ i r hr
  have h := checkScheduledPosts_eq_sweep_drop env now db (i + 1)
  rwa [Nat.min_eq_left (by omega)] at h

/-! ## The due-post sweep -/

/-- C1. For every store and every outcome of the credential, refresh, publish
and store operations, after `checkScheduledPosts` each due record (status
`scheduled`, scheduled date at most `now`) is the same record with status
either `scheduled` or `published`, and it is `published` only if a `createPost`
call made for that record returned. -/
theorem checkScheduledPosts_status (env : Nat → Outcomes) (now : Int) (db : Database)
    (i : Nat) (p : Post) (hp : db.posts[i]? = some p) (hdue : isDue now p = true) :
    ∃ q, (checkScheduledPosts env now db).db.posts[i]? = some q
      ∧ q = { p with status := q.status }
      ∧ (q.status = some "scheduled" ∨ q.status = some "published")
      ∧ (q.status = some "published" →
          ∃ tok content,
            Event.createPost p.id tok content true ∈ (checkScheduledPosts env now db).trace) := by
  obtain ⟨ids, evs, hposts, htrace, hids, -⟩ := sweep_effect env (dueRows now db) 0 ⟨db, []⟩
  have hst : p.status = some "scheduled" := ((isDue_iff now p).mp hdue).1
  unfold checkScheduledPosts
  rw [hposts, htrace]
  simp only [List.getElem?_map, hp, Option.map_some', List.nil_append]
  by_cases hmem : p.id ∈ ids
  · obtain ⟨-, tok, content, hev⟩ := hids p.id hmem
    refine ⟨_, rfl, ?_, ?_, ?_⟩
    · simp [hmem]
    · simp [hmem]
    · intro _
      exact ⟨tok, content, hev⟩
  · refine ⟨_, rfl, ?_, ?_, ?_⟩
    · simp [hmem]
    · simp [hmem, hst]
    · intro h
      simp [hmem, hst] at h

theorem checkScheduledPosts_status_witness :
    ∃ q, (checkScheduledPosts sampleEnv 1000 sampleDb).db.posts[1]? = some q
      ∧ q = { (⟨11, 2, "t11", "c11", some 40, some "scheduled", false, none, false, none, none⟩
                : Post) with status := q.status }
      ∧ (q.status = some "scheduled" ∨ q.status = some "published")
      ∧ (q.status = some "published" →
          ∃ tok content,
            Event.createPost 11 tok content true
              ∈ (checkScheduledPosts sampleEnv 1000 sampleDb).trace) :=
  checkScheduledPosts_status sampleEnv 1000 sampleDb 1
    ⟨11, 2, "t11", "c11", some 40, some "scheduled", false, none, false, none, none⟩
    (by decide) (by decide)

/-- C2. `checkScheduledPosts` handles the due records in non-decreasing order
of scheduled timestamp: in the list the loop iterates over, whenever record `a`
comes before record `b`, the timestamp of `a` is not later than that of `b`;
and the publish attempts (`createPost` calls) are made in the order of that
list. -/
theorem checkScheduledPosts_order (env : Nat → Outcomes) (now : Int) (db : Database) :
    List.Pairwise
        (fun a b => ∃ ta tb, a.post.scheduled_date = some ta ∧ b.post.scheduled_date = some tb
          ∧ ta ≤ tb)
        (dueRows now db)
      ∧ (publishAttempts (checkScheduledPosts env now db).trace).Sublist
          ((dueRows now db).map (fun r => r.post.id)) := by
  constructor
  · have hs : List.Pairwise dateLE (dueRows now db) := dueRows_sorted now db
    refine List.Pairwise.imp_of_mem ?_ hs
    intro a b ha hb hab
    obtain ⟨-, ta, hta, -⟩ := (isDue_iff now a.post).mp ((mem_dueRows now db a).mp ha).2.1
    obtain ⟨-, tb, htb, -⟩ := (isDue_iff now b.post).mp ((mem_dueRows now db b).mp hb).2.1
    refine ⟨ta, tb, hta, htb, ?_⟩
    unfold dateLE at hab
    rw [hta, htb] at hab
    exact hab
  · obtain ⟨evs, htrace, hsub⟩ := sweep_attempts env (dueRows now db) 0 ⟨db, []⟩
    unfold checkScheduledPosts
    rw [htrace]
    simpa using hsub

theorem processPost_unavailable (o : Outcomes) (r : DueRow) (st : SweepState)
    (hun : CredentialUnavailable o r) :
    ∃ evs, processPost o r st = { st with trace := st.trace ++ evs }
      ∧ ∀ e ∈ evs, ∃ rt, e = Event.refreshAccessToken r.post.id rt false := by
  unfold processPost acquireToken
  rcases hun with h | ⟨hexp, h⟩ | ⟨hexp, h⟩
  · exact ⟨[], by simp [h], by simp⟩
  · cases ht : truthy r.linkedin_token with
    | none => exact ⟨[], by simp, by simp⟩
    | some tok => exact ⟨[], by simp [hexp, h], by simp⟩
  · cases ht : truthy r.linkedin_token with
    | none => exact ⟨[], by simp, by simp⟩
    | some tok =>
      cases hrt : truthy r.linkedin_refresh_token with
      | none => exact ⟨[], by simp [hexp], by simp⟩
      | some rt =>
        exact ⟨[Event.refreshAccessToken r.post.id rt false], by simp [hexp, h], by simp⟩

/-- C3. For a due record whose owner's credential is unavailable (no access
token; or expiry in the past and no refresh token; or expiry in the past and
the refresh call fails), handling the record leaves the store unchanged, the
sweep goes on with the remaining records, and at the end of the sweep the
record is unchanged with status `scheduled` and no `createPost` call was made
for it.  Ids are primary keys. -/
theorem checkScheduledPosts_credential_unavailable (env : Nat → Outcomes) (now : Int)
    (db : Database) (hpk : (db.posts.map Post.id).Nodup) (huk : (db.users.map User.id).Nodup)
    (i : Nat) (r : DueRow) (hr : (dueRows now db)[i]? = some r)
    (hun : CredentialUnavailable (env i) r) :
    (sweepUpTo env now db (i + 1)).db = (sweepUpTo env now db i).db
      ∧ checkScheduledPosts env now db
          = sweep env (i + 1) ((dueRows now db).drop (i + 1)) (sweepUpTo env now db (i + 1))
      ∧ r.post ∈ (checkScheduledPosts env now db).db.posts
      ∧ r.post.status = some "scheduled"
      ∧ ∀ tok content b,
          Event.createPost r.post.id tok content b ∉ (checkScheduledPosts env now db).trace := by
  have hsplit := checkScheduledPosts_split env now db i r hr
  have hstep := sweepUpTo_succ env now db i r hr
  obtain ⟨evs, hproc, hevs⟩ := processPost_unavailable (env i) r (sweepUpTo env now db i) hun
  obtain ⟨hpre, hsuf⟩ := others_ne (dueRows now db) i r hr (dueRows_ids_nodup now db hpk huk)
  obtain ⟨hmem, hdue, -⟩ := (mem_dueRows now db r).mp (List.getElem?_mem hr)
  obtain ⟨hpre1, hpre2⟩ := sweep_other env ((dueRows now db).take i) 0 ⟨db, []⟩ r.post.id hpre
  obtain ⟨hsuf1, hsuf2⟩ := sweep_other env ((dueRows now db).drop (i + 1)) (i + 1)
    (sweepUpTo env now db (i + 1)) r.post.id hsuf
  have hdb : (sweepUpTo env now db (i + 1)).db = (sweepUpTo env now db i).db := by
    rw [hstep, hproc]
  refine ⟨hdb, hsplit, ?_, ((isDue_iff now r.post).mp hdue).1, ?_⟩
  · rw [hsplit, hsuf1 r.post rfl, hdb]
    exact (hpre1 r.post rfl).mpr hmem
  · intro tok content b hin
    rw [hsplit, hsuf2 (Event.createPost r.post.id tok content b) rfl, hstep, hproc] at hin
    rcases List.mem_append.mp hin with h1 | h1
    · have := (hpre2 (Event.createPost r.post.id tok content b) rfl).mp h1
      simp at this
    · obtain ⟨rt, hrt⟩ := hevs _ h1
      cases hrt

theorem checkScheduledPosts_credential_unavailable_witness :
    (⟨14, 4, "t14", "c14", some 60, some "scheduled", false, none, false, none, none⟩ : Post)
        ∈ (checkScheduledPosts sampleEnv 1000 sampleDb).db.posts
      ∧ ∀ tok content b,
          Event.createPost 14 tok content b ∉ (checkScheduledPosts sampleEnv 1000 sampleDb).trace :=
  have h := checkScheduledPosts_credential_unavailable sampleEnv 1000 sampleDb
    (by decide) (by decide) 3
    ⟨⟨14, 4, "t14", "c14", some 60, some "scheduled", false, none, false, none, none⟩,
      some "tokD", none, some 100⟩
    (by decide) (by decide)
  ⟨h.2.2.1, h.2.2.2.2⟩

theorem truthy_some (x : Option String) (s : String) (h : x = some s) (hne : s ≠ "") :
    truthy x = some s := by
  subst h
  simp [truthy, hne]

theorem acquireToken_live (o : Outcomes) (r : DueRow) (st : SweepState) (tok : String)
    (htok : truthy r.linkedin_token = some tok)
    (hlive : ¬ toNumber r.linkedin_expires_at < o.dateNow) :
    acquireToken o r st = (some tok, st) := by
  unfold acquireToken
  simp [htok, hlive]

theorem acquireToken_refreshed (o : Outcomes) (r : DueRow) (st : SweepState)
    (tok rt : String) (nt : RefreshResponse)
    (htok : truthy r.linkedin_token = some tok)
    (hexp : toNumber r.linkedin_expires_at < o.dateNow)
    (hrt : truthy r.linkedin_refresh_token = some rt)
    (href : o.refreshAccessToken = some nt) (hstore : o.updateUsers = true) :
    acquireToken o r st
      = (some nt.access_token,
          { db := { st.db with
              users := updateUserTokens r.post.user_id nt o.dateNowStore st.db.users }
            trace := st.trace ++ [Event.refreshAccessToken r.post.id rt true] }) := by
  unfold acquireToken
  simp [htok, hexp, hrt, href, hstore]

theorem processPost_users_ids (o : Outcomes) (r : DueRow) (st : SweepState) :
    (processPost o r st).db.users.map User.id = st.db.users.map User.id := by
  have hacq : (acquireToken o r st).2.db.users.map User.id = st.db.users.map User.id := by
    unfold acquireToken
    repeat' split
    all_goals first
      | rfl
      | (simp only [updateUserTokens, List.map_map]
         apply List.map_congr_left
         intro u _
         by_cases h : u.id = r.post.user_id <;> simp [h])
  unfold processPost
  split
  next st1 heq => rw [← hacq, heq]
  next tok st1 heq => rw [publishPost_users, ← hacq, heq]

theorem sweep_users_ids (env : Nat → Outcomes) (rows : List DueRow) (k : Nat) (st : SweepState) :
    (sweep env k rows st).db.users.map User.id = st.db.users.map User.id := by
  induction rows generalizing k st with
  | nil => rfl
  | cons r rest ih =>
    simp only [sweep]
    rw [ih, processPost_users_ids]

/-- C4. For a due record whose owner's credential, as read by the sweep's
query, has an access token and an expiry later than the clock, handling the
record makes exactly one external call, `createPost` with the owner's stored
access token (so no refresh call), and leaves table `users` (every credential
record) unchanged. -/
theorem checkScheduledPosts_live_token (env : Nat → Outcomes) (now : Int) (db : Database)
    (i : Nat) (r : DueRow) (hr : (dueRows now db)[i]? = some r)
    (tok : String) (e : Int) (htok : r.linkedin_token = some tok) (hne : tok ≠ "")
    (hexp : r.linkedin_expires_at = some e) (hlive : (env i).dateNow < e) :
    (∃ u ∈ db.users, u.id = r.post.user_id ∧ u.linkedin_token = some tok
        ∧ u.linkedin_expires_at = some e)
      ∧ (sweepUpTo env now db (i + 1)).trace
          = (sweepUpTo env now db i).trace
              ++ [Event.createPost r.post.id tok r.post.content (env i).createPost]
      ∧ (sweepUpTo env now db (i + 1)).db.users = (sweepUpTo env now db i).db.users := by
  have hstep := sweepUpTo_succ env now db i r hr
  have hacq := acquireToken_live (env i) r (sweepUpTo env now db i) tok
    (truthy_some _ _ htok hne) (by rw [hexp]; simp only [toNumber]; omega)
  have hproc : processPost (env i) r (sweepUpTo env now db i)
      = publishPost (env i) r tok (sweepUpTo env now db i) := by
    unfold processPost
    rw [hacq]
  obtain ⟨-, -, u, hu, huid, hrow⟩ := (mem_dueRows now db r).mp (List.getElem?_mem hr)
  refine ⟨⟨u, hu, huid, ?_, ?_⟩, ?_, ?_⟩
  · rw [← htok, hrow]
  · rw [← hexp, hrow]
  · rw [hstep, hproc, publishPost_trace]
  · rw [hstep, hproc, publishPost_users]

theorem checkScheduledPosts_live_token_witness :
    (sweepUpTo sampleEnv 1000 sampleDb 3).trace
        = (sweepUpTo sampleEnv 1000 sampleDb 2).trace
            ++ [Event.createPost 10 "tokA" "c10" (sampleEnv 2).createPost]
      ∧ (sweepUpTo sampleEnv 1000 sampleDb 3).db.users
        = (sweepUpTo sampleEnv 1000 sampleDb 2).db.users :=
  (checkScheduledPosts_live_token sampleEnv 1000 sampleDb 2
    ⟨⟨10, 1, "t10", "c10", some 50, some "scheduled", false, none, false, none, none⟩,
      some "tokA", none, some 5000⟩
    (by decide) "tokA" 5000 rfl (by decide) rfl (by decide)).2

/-- C5. For a due record whose owner's credential has an access token, an
expiry earlier than the clock and a refresh token, if the refresh call returns
`{access_token, refresh_token?, expires_in}` and the store accepts the write,
handling the record overwrites the owner's credential record with the new
access token, the response's refresh token (`null` when the response carries
none) and expiry `Date.now() + expires_in * 1000`, and then calls `createPost`
with the new access token. -/
theorem checkScheduledPosts_refreshed_token (env : Nat → Outcomes) (now : Int) (db : Database)
    (i : Nat) (r : DueRow) (hr : (dueRows now db)[i]? = some r)
    (tok rt : String) (e : Int) (nt : RefreshResponse)
    (htok : r.linkedin_token = some tok) (hne : tok ≠ "")
    (hexp : r.linkedin_expires_at = some e) (hpast : e < (env i).dateNow)
    (hrt : r.linkedin_refresh_token = some rt) (hrne : rt ≠ "")
    (href : (env i).refreshAccessToken = some nt) (hstore : (env i).updateUsers = true) :
    (sweepUpTo env now db (i + 1)).db.users
        = updateUserTokens r.post.user_id nt (env i).dateNowStore
            (sweepUpTo env now db i).db.users
      ∧ (∃ u ∈ (sweepUpTo env now db (i + 1)).db.users, u.id = r.post.user_id)
      ∧ (∀ u ∈ (sweepUpTo env now db (i + 1)).db.users, u.id = r.post.user_id →
          u.linkedin_token = some nt.access_token
            ∧ (nt.refresh_token = none → u.linkedin_refresh_token = none)
            ∧ (∀ s, nt.refresh_token = some s → s ≠ "" → u.linkedin_refresh_token = some s)
            ∧ u.linkedin_expires_at = some ((env i).dateNowStore + nt.expires_in * 1000))
      ∧ (sweepUpTo env now db (i + 1)).trace
          = (sweepUpTo env now db i).trace
              ++ [Event.refreshAccessToken r.post.id rt true,
                  Event.createPost r.post.id nt.access_token r.post.content
                    (env i).createPost] := by
  have hstep := sweepUpTo_succ env now db i r hr
  have hacq := acquireToken_refreshed (env i) r (sweepUpTo env now db i) tok rt nt
    (truthy_some _ _ htok hne) (by rw [hexp]; simpa only [toNumber] using hpast)
    (truthy_some _ _ hrt hrne) href hstore
  have hproc : processPost (env i) r (sweepUpTo env now db i)
      = publishPost (env i) r nt.access_token
          { db := { (sweepUpTo env now db i).db with
              users := updateUserTokens r.post.user_id nt (env i).dateNowStore
                (sweepUpTo env now db i).db.users }
            trace := (sweepUpTo env now db i).trace
              ++ [Event.refreshAccessToken r.post.id rt true] } := by
    unfold processPost
    rw [hacq]
  have husers : (sweepUpTo env now db (i + 1)).db.users
      = updateUserTokens r.post.user_id nt (env i).dateNowStore
          (sweepUpTo env now db i).db.users := by
    rw [hstep, hproc, publishPost_users]
  obtain ⟨-, -, u0, hu0, hu0id, -⟩ := (mem_dueRows now db r).mp (List.getElem?_mem hr)
  refine ⟨husers, ?_, ?_, ?_⟩
  · have hids : (sweepUpTo env now db (i + 1)).db.users.map User.id = db.users.map User.id :=
      sweep_users_ids env _ 0 ⟨db, []⟩
    have : r.post.user_id ∈ (sweepUpTo env now db (i + 1)).db.users.map User.id := by
      rw [hids, ← hu0id]
      exact List.mem_map_of_mem _ hu0
    obtain ⟨u, hu, huid⟩ := List.mem_map.mp this
    exact ⟨u, hu, huid⟩
  · intro u hu huid
    rw [husers, updateUserTokens, List.mem_map] at hu
    obtain ⟨v, -, hv⟩ := hu
    by_cases hvid : v.id = r.post.user_id
    · rw [if_pos hvid] at hv
      subst hv
      refine ⟨rfl, ?_, ?_, rfl⟩
      · intro hnone
        simp [hnone, truthy]
      · intro s hs hsne
        simp [hs, truthy, hsne]
    · rw [if_neg hvid] at hv
      subst hv
      exact absurd huid hvid
  · rw [hstep, hproc, publishPost_trace, List.append_assoc]
    rfl

theorem checkScheduledPosts_refreshed_token_witness :
    (sweepUpTo sampleEnv 1000 sampleDb 2).db.users
      = updateUserTokens 2 ⟨"tokB2", none, 60⟩ (sampleEnv 1).dateNowStore
          (sweepUpTo sampleEnv 1000 sampleDb 1).db.users :=
  (checkScheduledPosts_refreshed_token sampleEnv 1000 sampleDb 1
    ⟨⟨11, 2, "t11", "c11", some 40, some "scheduled", false, none, false, none, none⟩,
      some "tokB", some "refB", some 100⟩
    (by decide) "tokB" "refB" 100 ⟨"tokB2", none, 60⟩ rfl (by decide) rfl (by decide) rfl
    (by decide) rfl rfl).1

theorem processPost_posts_of_fail (o : Outcomes) (r : DueRow) (st : SweepState)
    (hfail : o.createPost = false) : (processPost o r st).db.posts = st.db.posts := by
  have hp := acquireToken_posts o r st
  unfold processPost
  split
  next st1 heq => rw [← hp, heq]
  next tok st1 heq =>
    rw [publishPost_posts, if_neg (by simp [hfail]), ← hp, heq]

theorem acquireToken_usable (o : Outcomes) (r : DueRow) (st : SweepState)
    (h : CredentialUsable o r) : ∃ tok, (acquireToken o r st).1 = some tok := by
  obtain ⟨htok, hrest⟩ := h
  obtain ⟨tok, htok⟩ := Option.ne_none_iff_exists'.mp htok
  by_cases hexp : toNumber r.linkedin_expires_at < o.dateNow
  · rcases hrest with hlive | ⟨hrt, href, hstore⟩
    · exact absurd hexp hlive
    · obtain ⟨rt, hrt⟩ := Option.ne_none_iff_exists'.mp hrt
      obtain ⟨nt, href⟩ := Option.ne_none_iff_exists'.mp href
      exact ⟨nt.access_token, by
        rw [acquireToken_refreshed o r st tok rt nt htok hexp hrt href hstore]⟩
  · exact ⟨tok, by rw [acquireToken_live o r st tok htok hexp]⟩

theorem processPost_posts_of_success (o : Outcomes) (r : DueRow) (st : SweepState)
    (h : CredentialUsable o r) (hcreate : o.createPost = true) (hstore : o.updatePosts = true) :
    (processPost o r st).db.posts = markPublished r.post.id st.db.posts := by
  have hp := acquireToken_posts o r st
  obtain ⟨tok, htok⟩ := acquireToken_usable o r st h
  unfold processPost
  split
  next st1 heq => rw [heq] at htok; cases htok
  next tok1 st1 heq =>
    rw [publishPost_posts, if_pos ⟨hcreate, hstore⟩, ← hp, heq]

/-- C6. In every batch of due records (ids are primary keys): if `createPost`
fails for a record, handling it leaves table `posts` unchanged, the record is
still `scheduled` at the end of the sweep, and the sweep goes on with all later
records; and every record whose credential is valid, whose `createPost` call
returns and whose status update is stored is `published` at the end of the
sweep, whatever happens to the other records of the batch. -/
theorem checkScheduledPosts_isolation (env : Nat → Outcomes) (now : Int) (db : Database)
    (hpk : (db.posts.map Post.id).Nodup) (huk : (db.users.map User.id).Nodup) :
    (∀ i r, (dueRows now db)[i]? = some r → (env i).createPost = false →
        (sweepUpTo env now db (i + 1)).db.posts = (sweepUpTo env now db i).db.posts
          ∧ r.post ∈ (checkScheduledPosts env now db).db.posts
          ∧ r.post.status = some "scheduled"
          ∧ checkScheduledPosts env now db
              = sweep env (i + 1) ((dueRows now db).drop (i + 1))
                  (sweepUpTo env now db (i + 1)))
      ∧ ∀ j r, (dueRows now db)[j]? = some r → CredentialUsable (env j) r →
          (env j).createPost = true → (env j).updatePosts = true →
          ({ r.post with status := some "published" } : Post)
              ∈ (checkScheduledPosts env now db).db.posts
            ∧ ∀ q ∈ (checkScheduledPosts env now db).db.posts, q.id = r.post.id →
                q.status = some "published" := by
  constructor
  · intro i r hr hfail
    have hsplit := checkScheduledPosts_split env now db i r hr
    have hstep := sweepUpTo_succ env now db i r hr
    obtain ⟨hpre, hsuf⟩ := others_ne (dueRows now db) i r hr (dueRows_ids_nodup now db hpk huk)
    obtain ⟨hmem, hdue, -⟩ := (mem_dueRows now db r).mp (List.getElem?_mem hr)
    obtain ⟨hpre1, -⟩ := sweep_other env ((dueRows now db).take i) 0 ⟨db, []⟩ r.post.id hpre
    obtain ⟨hsuf1, -⟩ := sweep_other env ((dueRows now db).drop (i + 1)) (i + 1)
      (sweepUpTo env now db (i + 1)) r.post.id hsuf
    have hposts : (sweepUpTo env now db (i + 1)).db.posts = (sweepUpTo env now db i).db.posts := by
      rw [hstep, processPost_posts_of_fail _ _ _ hfail]
    refine ⟨hposts, ?_, ((isDue_iff now r.post).mp hdue).1, hsplit⟩
    rw [hsplit, hsuf1 r.post rfl, hposts]
    exact (hpre1 r.post rfl).mpr hmem
  · intro j r hr huse hcreate hstore
    have hsplit := checkScheduledPosts_split env now db j r hr
    have hstep := sweepUpTo_succ env now db j r hr
    obtain ⟨hmem, -, -⟩ := (mem_dueRows now db r).mp (List.getElem?_mem hr)
    obtain ⟨ids1, -, hposts1, -, -, -⟩ :=
      sweep_effect env ((dueRows now db).take j) 0 ⟨db, []⟩
    obtain ⟨ids2, -, hposts2, -, -, -⟩ :=
      sweep_effect env ((dueRows now db).drop (j + 1)) (j + 1) (sweepUpTo env now db (j + 1))
    have hbefore : (sweepUpTo env now db j).db.posts
        = db.posts.map
            (fun p => if p.id ∈ ids1 then { p with status := some "published" } else p) :=
      hposts1
    have hfinal : (checkScheduledPosts env now db).db.posts
        = db.posts.map (fun p =>
            if p.id = r.post.id then ({ p with status := some "published" } : Post)
            else if p.id ∈ ids2 then { p with status := some "published" }
            else if p.id ∈ ids1 then { p with status := some "published" }
            else p) := by
      rw [hsplit, hposts2, hstep, processPost_posts_of_success _ _ _ huse hcreate hstore,
        hbefore, markPublished, List.map_map, List.map_map]
      apply List.map_congr_left
      intro p _
      by_cases h0 : p.id = r.post.id
      · by_cases h1 : r.post.id ∈ ids1 <;> by_cases h2 : r.post.id ∈ ids2 <;> simp [h0, h1, h2]
      · by_cases h1 : p.id ∈ ids1 <;> by_cases h2 : p.id ∈ ids2 <;> simp [h0, h1, h2]
    rw [hfinal]
    constructor
    · exact List.mem_map.mpr ⟨r.post, hmem, by simp⟩
    · intro q hq hqid
      obtain ⟨p, -, rfl⟩ := List.mem_map.mp hq
      by_cases h0 : p.id = r.post.id
      · simp [h0]
      · exfalso
        apply h0
        rw [← hqid]
        by_cases h1 : p.id ∈ ids1 <;> by_cases h2 : p.id ∈ ids2 <;> simp [h0, h1, h2]

theorem checkScheduledPosts_isolation_witness :
    ((⟨15, 1, "t15", "c15", some 70, some "scheduled", false, none, false, none, none⟩ : Post)
        ∈ (checkScheduledPosts sampleEnv 1000 sampleDb).db.posts)
      ∧ ((⟨10, 1, "t10", "c10", some 50, some "published", false, none, false, none, none⟩
            : Post)
          ∈ (checkScheduledPosts sampleEnv 1000 sampleDb).db.posts) :=
  have h := checkScheduledPosts_isolation sampleEnv 1000 sampleDb (by decide) (by decide)
  ⟨(h.1 4
      ⟨⟨15, 1, "t15", "c15", some 70, some "scheduled", false, none, false, none, none⟩,
        some "tokA", none, some 5000⟩ (by decide) (by decide)).2.1,
   (h.2 2
      ⟨⟨10, 1, "t10", "c10", some 50, some "scheduled", false, none, false, none, none⟩,
        some "tokA", none, some 5000⟩ (by decide) (by decide) (by decide) (by decide)).1⟩

/-! ## The selector: the worked example -/

/-- C11. With the ranked slot table `[(Tuesday, 9), (Thursday, 10)]`: on a
Tuesday (day number `D`) at 08:00, `determineOptimalPostingTime` returns that
same Tuesday at 09:00; on a Tuesday at 10:00 the first slot is skipped and it
returns the Thursday of the same week (day `D + 2`) at 10:00. -/
theorem determineOptimalPostingTime_tuesday_example (D : Int) (a b : Rat)
    (hD : WeekDay (MakeDate D 0) = 2) :
    determineOptimalPostingTime (Lookup.table [⟨2, 9, a⟩, ⟨4, 10, b⟩])
        (MakeDate D (MakeTime 8 0 0 0))
      = MakeDate D (MakeTime 9 0 0 0)
    ∧ specSkipped (MakeDate D (MakeTime 10 0 0 0)) ⟨2, 9, a⟩
    ∧ determineOptimalPostingTime (Lookup.table [⟨2, 9, a⟩, ⟨4, 10, b⟩])
        (MakeDate D (MakeTime 10 0 0 0))
      = MakeDate (D + 2) (MakeTime 10 0 0 0)
    ∧ WeekDay (MakeDate (D + 2) (MakeTime 10 0 0 0)) = 4 := by
  have hw : (D + 4) % 7 = 2 := by
    unfold WeekDay Day MakeDate msPerDay at hD
    omega
  have day8 : Day (MakeDate D (MakeTime 8 0 0 0)) = D := by
    unfold Day MakeDate MakeTime msPerDay msPerHour msPerMinute msPerSecond
    omega
  have day10 : Day (MakeDate D (MakeTime 10 0 0 0)) = D := by
    unfold Day MakeDate MakeTime msPerDay msPerHour msPerMinute msPerSecond
    omega
  have wd8 : getDay (MakeDate D (MakeTime 8 0 0 0)) = 2 := by
    unfold getDay WeekDay
    rw [day8]
    exact hw
  have wd10 : getDay (MakeDate D (MakeTime 10 0 0 0)) = 2 := by
    unfold getDay WeekDay
    rw [day10]
    exact hw
  have h8 : getHours (MakeDate D (MakeTime 8 0 0 0)) = 8 := by
    unfold getHours HourFromTime MakeDate MakeTime msPerDay msPerHour msPerMinute msPerSecond
    omega
  have h10 : getHours (MakeDate D (MakeTime 10 0 0 0)) = 10 := by
    unfold getHours HourFromTime MakeDate MakeTime msPerDay msPerHour msPerMinute msPerSecond
    omega
  have t0 : Int.tmod (2 - 2 + 7) 7 = 0 := by decide
  have t2 : Int.tmod (4 - 2 + 7) 7 = 2 := by decide
  refine ⟨?_, ?_, ?_, ?_⟩
  · simp only [determineOptimalPostingTime, findFutureSlot, wd8, h8, t0]
    rw [if_neg (by decide), setHours_addDays, day8, add_zero]
  · unfold specSkipped specDaysAhead
    unfold getDay at wd10
    unfold getHours at h10
    rw [wd10, h10]
    exact ⟨show ((2 : Int) - 2 + 7) % 7 = 0 by decide, show (9 : Int) ≤ 10 by decide⟩
  · simp only [determineOptimalPostingTime, findFutureSlot, wd10, h10, t0, t2]
    rw [if_pos (by decide), if_neg (by decide), setHours_addDays, day10]
  · unfold WeekDay Day MakeDate MakeTime msPerDay msPerHour msPerMinute msPerSecond
    omega

theorem determineOptimalPostingTime_tuesday_example_witness :
    determineOptimalPostingTime (Lookup.table [⟨2, 9, 40⟩, ⟨4, 10, 30⟩])
        (MakeDate 19731 (MakeTime 8 0 0 0))
      = MakeDate 19731 (MakeTime 9 0 0 0)
    ∧ determineOptimalPostingTime (Lookup.table [⟨2, 9, 40⟩, ⟨4, 10, 30⟩])
        (MakeDate 19731 (MakeTime 10 0 0 0))
      = MakeDate (19731 + 2) (MakeTime 10 0 0 0) :=
  have h := determineOptimalPostingTime_tuesday_example 19731 40 30 (by decide)
  ⟨h.1, h.2.2.1⟩

/-! ## The evergreen sweep: selection -/

/-- For a published evergreen record whose last-recycled stamp was written by
the sweep itself (`datetime("now")`), the selection of `recycleEvergreenContent`
is the specification's rule: the record is selected exactly when
`now - last_recycled` is at least the threshold of its frequency; and a record
without a stamp is selected. -/
theorem isRecyclable_sqlite_stamp (now : Int) (p : Post) (f : String) (days : Int)
    (hf : specThresholdDays f = some days) (hev : p.is_evergreen = true)
    (hst : p.status = some "published") (hfreq : p.recycle_frequency = some f) :
    (p.last_recycled = none → isRecyclable now p = true)
      ∧ ∀ s, p.last_recycled = some (Stamp.sqlite s) →
          (isRecyclable now p = true ↔ days * 86400000 ≤ now - s * 1000) := by
  have hcases : (f = "weekly" ∧ days = 7) ∨ (f = "biweekly" ∧ days = 14)
      ∨ (f = "monthly" ∧ days = 30) := by
    unfold specThresholdDays at hf
    split_ifs at hf with h1 h2 h3
    · exact Or.inl ⟨h1, (Option.some.inj hf).symm⟩
    · exact Or.inr (Or.inl ⟨h2, (Option.some.inj hf).symm⟩)
    · exact Or.inr (Or.inr ⟨h3, (Option.some.inj hf).symm⟩)
  constructor
  · intro hnone
    simp [isRecyclable, hev, hst, hnone]
  · intro s hs
    rcases hcases with ⟨rfl, rfl⟩ | ⟨rfl, rfl⟩ | ⟨rfl, rfl⟩ <;>
      simp [isRecyclable, hev, hst, hs, hfreq, Stamp.textLE, datetimeNow] <;> omega

/-- C12. A published evergreen `weekly` record whose stamp was written by
`toISOString()` on 2024-01-01 at 11:00:00.000 UTC is, on 2024-01-08 at 12:00:00
UTC, 7 days and 1 hour old, yet `recycleEvergreenContent` does not select it:
the text `2024-01-01T11:00:00.000Z` is larger than `2024-01-01 12:00:00`.  The
records stamped by the sweep itself 8 and 6 days earlier are selected and not
selected. -/
theorem isRecyclable_iso_stamp_same_day :
    isRecyclable sampleNow
        ⟨25, 1, "t25", "c25", some 0, some "published", false, none, true, some "weekly",
          some (Stamp.iso (19723 * 86400000 + 39600000))⟩ = false
      ∧ 7 * 86400000 ≤ sampleNow - (19723 * 86400000 + 39600000)
      ∧ isRecyclable sampleNow
          ⟨20, 1, "t20", "c20", some 0, some "published", false, none, true, some "weekly",
            some (Stamp.sqlite (19722 * 86400 + 43200))⟩ = true
      ∧ isRecyclable sampleNow
          ⟨21, 1, "t21", "c21", some 0, some "published", false, none, true, some "weekly",
            some (Stamp.sqlite (19724 * 86400 + 43200))⟩ = false
      ∧ (evergreenPosts sampleNow sampleRecycleDb).map Post.id = [20, 23] := by
  decide
/-! ## Lemmas on the evergreen loop -/

theorem lt_nextId (ids : List Nat) : ∀ i ∈ ids, i < nextId ids := by
  induction ids with
  | nil => simp
  | cons a l ih =>
    intro i hi
    have hstep : nextId (a :: l) = max a (l.foldr max 0) + 1 := rfl
    rcases List.mem_cons.mp hi with rfl | hi
    · rw [hstep]
      omega
    · have := ih i hi
      unfold nextId at this
      rw [hstep]
      omega

theorem stampRecycled_ids (postId : Nat) (stamp : Stamp) (posts : List Post) :
    (stampRecycled postId stamp posts).map Post.id = posts.map Post.id := by
  unfold stampRecycled
  rw [List.map_map]
  apply List.map_congr_left
  intro p _
  by_cases h : p.id = postId <;> simp [h]

theorem recyclePost_posts (localTZA : Int) (o : RecycleOutcomes) (post : Post) (db : Database)
    (hJ : post.id ∈ db.posts.map Post.id) :
    (recyclePost localTZA o post db).posts
      = if o.insertPost = true then
          (if o.updatePost = true then
              stampRecycled post.id (Stamp.sqlite (o.sqliteNow / 1000)) db.posts
            else db.posts)
            ++ [recycledCopy (nextId (db.posts.map Post.id)) post
                  (optimalTimeFor localTZA o db post.user_id)]
        else db.posts := by
  have hne : ¬ nextId (db.posts.map Post.id) = post.id := by
    have := lt_nextId _ _ hJ
    omega
  unfold recyclePost
  cases o.insertPost <;> cases o.updatePost <;>
    simp [stampRecycled, recycledCopy, hne]

theorem recyclePost_frame (localTZA : Int) (o : RecycleOutcomes) (post : Post) (db : Database) :
    (recyclePost localTZA o post db).users = db.users
      ∧ (recyclePost localTZA o post db).user_optimal_times = db.user_optimal_times := by
  unfold recyclePost
  cases o.insertPost <;> cases o.updatePost <;> simp

theorem recycleLoop_frame (localTZA : Int) (env : Nat → RecycleOutcomes) (rows : List Post)
    (k : Nat) (db : Database) :
    (recycleLoop localTZA env k rows db).users = db.users
      ∧ (recycleLoop localTZA env k rows db).user_optimal_times = db.user_optimal_times := by
  induction rows generalizing k db with
  | nil => exact ⟨rfl, rfl⟩
  | cons r rest ih =>
    obtain ⟨h1, h2⟩ := ih (k + 1) (recyclePost localTZA (env k) r db)
    obtain ⟨h3, h4⟩ := recyclePost_frame localTZA (env k) r db
    exact ⟨h1.trans h3, h2.trans h4⟩

theorem recyclePost_ids_subset (localTZA : Int) (o : RecycleOutcomes) (post : Post)
    (db : Database) (hJ : post.id ∈ db.posts.map Post.id) :
    ∀ i ∈ db.posts.map Post.id, i ∈ (recyclePost localTZA o post db).posts.map Post.id := by
  intro i hi
  rw [recyclePost_posts localTZA o post db hJ]
  cases o.insertPost <;> cases o.updatePost <;>
    simp [stampRecycled_ids, List.mem_map.mp hi]

/-- The effect of the evergreen loop on table `posts`: every record present
before the loop is kept in place, changed at most in `last_recycled` and only
if it has the id of a handled record; the records added at the end are the
copies of handled records. -/
theorem recycleLoop_effect (localTZA : Int) (env : Nat → RecycleOutcomes) (rows : List Post)
    (k : Nat) (db : Database) (hJ : ∀ r ∈ rows, r.id ∈ db.posts.map Post.id) :
    ∃ (F : Post → Post) (copies : List Post),
      (recycleLoop localTZA env k rows db).posts = db.posts.map F ++ copies
        ∧ (∀ p, F p = p
            ∨ ((∃ r ∈ rows, r.id = p.id)
                ∧ ∃ s, F p = { p with last_recycled := some (Stamp.sqlite s) }))
        ∧ ∀ c ∈ copies, ∃ src ∈ rows, ∃ newId t, c = recycledCopy newId src t := by
  induction rows generalizing k db with
  | nil => exact ⟨id, [], by simp [recycleLoop], fun p => Or.inl rfl, by simp⟩
  | cons r rest ih =>
    have hr : r.id ∈ db.posts.map Post.id := hJ r (List.mem_cons_self _ _)
    have hJ1 : ∀ x ∈ rest, x.id ∈ (recyclePost localTZA (env k) r db).posts.map Post.id :=
      fun x hx => recyclePost_ids_subset localTZA (env k) r db hr _
        (hJ x (List.mem_cons_of_mem _ hx))
    obtain ⟨F, copies, hposts, hF, hcopies⟩ := ih (k + 1) _ hJ1
    have hcopies' : ∀ c ∈ copies, ∃ src ∈ r :: rest, ∃ newId t, c = recycledCopy newId src t := by
      intro c hc
      obtain ⟨src, hsrc, h⟩ := hcopies c hc
      exact ⟨src, List.mem_cons_of_mem _ hsrc, h⟩
    have hF' : ∀ p, F p = p
        ∨ ((∃ x ∈ r :: rest, x.id = p.id)
            ∧ ∃ s, F p = { p with last_recycled := some (Stamp.sqlite s) }) := by
      intro p
      rcases hF p with h | ⟨⟨x, hx, hxid⟩, s, hs⟩
      · exact Or.inl h
      · exact Or.inr ⟨⟨x, List.mem_cons_of_mem _ hx, hxid⟩, s, hs⟩
    simp only [recycleLoop]
    rw [hposts, recyclePost_posts localTZA (env k) r db hr]
    by_cases hins : (env k).insertPost = true
    · rw [if_pos hins]
      have hfresh : F (recycledCopy (nextId (db.posts.map Post.id)) r
            (optimalTimeFor localTZA (env k) db r.user_id))
          = recycledCopy (nextId (db.posts.map Post.id)) r
              (optimalTimeFor localTZA (env k) db r.user_id) := by
        rcases hF (recycledCopy (nextId (db.posts.map Post.id)) r
            (optimalTimeFor localTZA (env k) db r.user_id)) with h | ⟨⟨x, hx, hxid⟩, -⟩
        · exact h
        · exfalso
          have h1 := lt_nextId _ _ (hJ x (List.mem_cons_of_mem _ hx))
          have h2 : x.id = nextId (db.posts.map Post.id) := hxid
          omega
      generalize (env k).sqliteNow / 1000 = sec
      by_cases hupd : (env k).updatePost = true
      · rw [if_pos hupd]
        refine ⟨fun p => F (if p.id = r.id then
            { p with last_recycled := some (Stamp.sqlite sec) } else p),
          recycledCopy (nextId (db.posts.map Post.id)) r
            (optimalTimeFor localTZA (env k) db r.user_id) :: copies, ?_, ?_, ?_⟩
        · simp [stampRecycled, List.map_map, hfresh, Function.comp_def]
        · intro p
          by_cases hp : p.id = r.id
          · right
            refine ⟨⟨r, List.mem_cons_self _ _, hp.symm⟩, ?_⟩
            show ∃ s, F (if p.id = r.id then
              { p with last_recycled := some (Stamp.sqlite sec) } else p)
                = { p with last_recycled := some (Stamp.sqlite s) }
            rw [if_pos hp]
            rcases hF ({ p with last_recycled := some (Stamp.sqlite sec) }) with
              h | ⟨-, s, hs⟩
            · exact ⟨_, h⟩
            · exact ⟨s, hs⟩
          · beta_reduce
            rw [if_neg hp]
            exact hF' p
        · intro c hc
          rcases List.mem_cons.mp hc with rfl | hc
          · exact ⟨r, List.mem_cons_self _ _, _, _, rfl⟩
          · exact hcopies' c hc
      · rw [if_neg hupd]
        refine ⟨F, recycledCopy (nextId (db.posts.map Post.id)) r
            (optimalTimeFor localTZA (env k) db r.user_id) :: copies, ?_, hF', ?_⟩
        · simp [hfresh]
        · intro c hc
          rcases List.mem_cons.mp hc with rfl | hc
          · exact ⟨r, List.mem_cons_self _ _, _, _, rfl⟩
          · exact hcopies' c hc
    · rw [if_neg hins]
      exact ⟨F, copies, rfl, hF', hcopies'⟩

theorem recycleLoop_append (localTZA : Int) (env : Nat → RecycleOutcomes) (xs ys : List Post)
    (i : Nat) (db : Database) :
    recycleLoop localTZA env i (xs ++ ys) db
      = recycleLoop localTZA env (i + xs.length) ys (recycleLoop localTZA env i xs db) := by
  induction xs generalizing i db with
  | nil => simp [recycleLoop]
  | cons x xs ih =>
    show recycleLoop localTZA env (i + 1) (xs ++ ys) (recyclePost localTZA (env i) x db)
      = recycleLoop localTZA env (i + (xs.length + 1)) ys
          (recycleLoop localTZA env (i + 1) xs (recyclePost localTZA (env i) x db))
    rw [ih, Nat.add_assoc, Nat.add_comm 1]

theorem post_index_lt (rows : List Post) (i : Nat) (r : Post) (hr : rows[i]? = some r) :
    i < rows.length := by
  by_contra hge
  rw [List.getElem?_eq_none (by omega)] at hr
  cases hr

theorem posts_split (rows : List Post) (i : Nat) (r : Post) (hr : rows[i]? = some r) :
    rows = rows.take i ++ r :: rows.drop (i + 1) := by
  have hlt := post_index_lt rows i r hr
  have hget : rows[i] = r := by
    rw [List.getElem?_eq_getElem hlt] at hr
    exact Option.some.inj hr
  conv_lhs => rw [← List.take_append_drop i rows]
  rw [List.drop_eq_getElem_cons hlt, hget]

theorem recycleUpTo_succ (localTZA : Int) (env : Nat → RecycleOutcomes) (now : Int)
    (db : Database) (i : Nat) (r : Post) (hr : (evergreenPosts now db)[i]? = some r) :
    recycleUpTo localTZA env now db (i + 1)
      = recyclePost localTZA (env i) r (recycleUpTo localTZA env now db i) := by
  have hlt := post_index_lt _ i r hr
  unfold recycleUpTo
  rw [List.take_succ, hr, recycleLoop_append]
  simp [recycleLoop, List.length_take, Nat.min_eq_left (Nat.le_of_lt hlt)]

theorem recycleEvergreenContent_split (localTZA : Int) (env : Nat → RecycleOutcomes)
    (now : Int) (db : Database) (i : Nat) (r : Post)
    (hr : (evergreenPosts now db)[i]? = some r) :
    recycleEvergreenContent localTZA env now db
      = recycleLoop localTZA env (i + 1) ((evergreenPosts now db).drop (i + 1))
          (recycleUpTo localTZA env now db (i + 1)) := by
  have hlt := post_index_lt _ i r hr
  unfold recycleEvergreenContent recycleUpTo
  conv_lhs => rw [← List.take_append_drop (i + 1) (evergreenPosts now db)]
  rw [recycleLoop_append]
  simp [List.length_take, Nat.min_eq_left (Nat.succ_le_of_lt hlt)]

theorem mem_evergreenPosts (now : Int) (db : Database) (p : Post) :
    p ∈ evergreenPosts now db ↔ p ∈ db.posts ∧ isRecyclable now p = true := by
  unfold evergreenPosts
  exact List.mem_filter

theorem evergreenPosts_ids (now : Int) (db : Database) (rows : List Post)
    (hsub : ∀ r ∈ rows, r ∈ evergreenPosts now db) :
    ∀ r ∈ rows, r.id ∈ db.posts.map Post.id :=
  fun r hr => List.mem_map_of_mem _ ((mem_evergreenPosts now db r).mp (hsub r hr)).1

theorem recycleLoop_ids_subset (localTZA : Int) (env : Nat → RecycleOutcomes)
    (rows : List Post) (k : Nat) (db : Database)
    (hJ : ∀ r ∈ rows, r.id ∈ db.posts.map Post.id) :
    ∀ i ∈ db.posts.map Post.id, i ∈ (recycleLoop localTZA env k rows db).posts.map Post.id := by
  induction rows generalizing k db with
  | nil => exact fun i hi => hi
  | cons r rest ih =>
    intro i hi
    have hr := hJ r (List.mem_cons_self _ _)
    have hsub := recyclePost_ids_subset localTZA (env k) r db hr
    exact ih (k + 1) _ (fun x hx => hsub _ (hJ x (List.mem_cons_of_mem _ hx))) i (hsub i hi)

theorem getElem?_map_append (l ys : List Post) (f : Post → Post) (j : Nat) (x : Post)
    (h : l[j]? = some x) : (l.map f ++ ys)[j]? = some (f x) := by
  have hlt := post_index_lt l j x h
  rw [List.getElem?_append_left (by simpa using hlt), List.getElem?_map, h]
  rfl

theorem optimalTimeFor_congr (localTZA : Int) (o : RecycleOutcomes) (db1 db2 : Database)
    (userId : Nat) (h : db1.user_optimal_times = db2.user_optimal_times) :
    optimalTimeFor localTZA o db1 userId = optimalTimeFor localTZA o db2 userId := by
  unfold optimalTimeFor lookupOptimalTimes
  rw [h]

/-- The evergreen sweep as a whole: the records of the store are kept in place,
changed at most in `last_recycled` and only if selected (ids being primary
keys); the records added are copies of selected records. -/
theorem recycleEvergreenContent_effect (localTZA : Int) (env : Nat → RecycleOutcomes)
    (now : Int) (db : Database) (hpk : (db.posts.map Post.id).Nodup) :
    ∃ (F : Post → Post) (copies : List Post),
      (recycleEvergreenContent localTZA env now db).posts = db.posts.map F ++ copies
        ∧ (∀ p ∈ db.posts, F p = p
            ∨ (p ∈ evergreenPosts now db
                ∧ ∃ s, F p = { p with last_recycled := some (Stamp.sqlite s) }))
        ∧ ∀ c ∈ copies, ∃ src ∈ evergreenPosts now db, ∃ newId t,
            c = recycledCopy newId src t := by
  obtain ⟨F, copies, hposts, hF, hcopies⟩ := recycleLoop_effect localTZA env
    (evergreenPosts now db) 0 db (evergreenPosts_ids now db _ (fun r hr => hr))
  refine ⟨F, copies, hposts, ?_, hcopies⟩
  intro p hp
  rcases hF p with h | ⟨⟨r, hr, hrid⟩, s, hs⟩
  · exact Or.inl h
  · right
    have hrp : r = p :=
      List.inj_on_of_nodup_map hpk ((mem_evergreenPosts now db r).mp hr).1 hp hrid
    exact ⟨hrp ▸ hr, s, hs⟩

/-! ## The evergreen sweep: what is recycled -/

/-- C13 (as stated, refuted). A published evergreen record with frequency
`none` and no last-recycled stamp (post 23 of the sample store) is selected by
`recycleEvergreenContent`: a `(Recycled)` copy is inserted for it and it is
stamped. -/
theorem recycleEvergreenContent_recycles_frequency_none :
    sampleRecycleDb.posts[3]?
        = some ⟨23, 2, "t23", "c23", some 0, some "published", true, none, true, some "none",
            none⟩
      ∧ (recycleEvergreenContent 3600000 sampleRecycleEnv sampleNow sampleRecycleDb).posts[3]?
        = some ⟨23, 2, "t23", "c23", some 0, some "published", true, none, true, some "none",
            some (Stamp.sqlite 1704715200)⟩
      ∧ (recycleEvergreenContent 3600000 sampleRecycleEnv sampleNow sampleRecycleDb).posts[7]?
        = some ⟨27, 2, "t23 (Recycled)", "c23", some 1704790800000, some "scheduled", true,
            none, true, some "none", none⟩ := by
  decide

/-- C13 (amended). A record whose recycle frequency is none of `weekly`,
`biweekly`, `monthly` (so `none` or unset) and whose `last_recycled` is set is
never recycled: it is not selected, it is unchanged after the sweep, and every
record the sweep inserts is the copy of a selected record.  A published
evergreen record whose `last_recycled` is null is selected whatever its
frequency.  Ids are primary keys. -/
theorem recycleEvergreenContent_frequency_none (localTZA : Int)
    (env : Nat → RecycleOutcomes) (now : Int) (db : Database)
    (hpk : (db.posts.map Post.id).Nodup) (j : Nat) (p : Post) (hp : db.posts[j]? = some p)
    (hw : p.recycle_frequency ≠ some "weekly") (hb : p.recycle_frequency ≠ some "biweekly")
    (hm : p.recycle_frequency ≠ some "monthly") :
    (p.last_recycled ≠ none →
        p ∉ evergreenPosts now db
          ∧ (recycleEvergreenContent localTZA env now db).posts[j]? = some p
          ∧ ∀ c ∈ (recycleEvergreenContent localTZA env now db).posts.drop db.posts.length,
              ∃ src ∈ evergreenPosts now db, ∃ newId t, c = recycledCopy newId src t)
      ∧ (p.last_recycled = none → p.is_evergreen = true → p.status = some "published" →
          p ∈ evergreenPosts now db) := by
  have hmem : p ∈ db.posts := List.getElem?_mem hp
  constructor
  · intro hlr
    obtain ⟨lr, hlr⟩ := Option.ne_none_iff_exists'.mp hlr
    have hnot : p ∉ evergreenPosts now db := by
      intro h
      have h2 := ((mem_evergreenPosts now db p).mp h).2
      simp [isRecyclable, hlr, hw, hb, hm] at h2
    obtain ⟨F, copies, hposts, hF, hcopies⟩ :=
      recycleEvergreenContent_effect localTZA env now db hpk
    refine ⟨hnot, ?_, ?_⟩
    · rw [hposts, getElem?_map_append _ _ F j p hp]
      rcases hF p hmem with h | ⟨h, -⟩
      · rw [h]
      · exact absurd h hnot
    · intro c hc
      rw [hposts, List.drop_left' (by simp)] at hc
      exact hcopies c hc
  · intro hlr hev hst
    rw [mem_evergreenPosts]
    exact ⟨hmem, by simp [isRecyclable, hlr, hev, hst]⟩

theorem recycleEvergreenContent_frequency_none_witness :
    (⟨24, 2, "t24", "c24", some 0, some "published", false, none, true, some "none",
        some (Stamp.sqlite 0)⟩ : Post) ∉ evergreenPosts sampleNow sampleRecycleDb
      ∧ (recycleEvergreenContent 3600000 sampleRecycleEnv sampleNow sampleRecycleDb).posts[4]?
        = some ⟨24, 2, "t24", "c24", some 0, some "published", false, none, true, some "none",
            some (Stamp.sqlite 0)⟩ :=
  have h := (recycleEvergreenContent_frequency_none 3600000 sampleRecycleEnv sampleNow
    sampleRecycleDb (by decide) 4
    ⟨24, 2, "t24", "c24", some 0, some "published", false, none, true, some "none",
      some (Stamp.sqlite 0)⟩ (by decide) (by decide) (by decide) (by decide)).1 (by decide)
  ⟨h.1, h.2.1⟩

/-- C14. `recycleEvergreenContent` leaves every record with `is_evergreen`
false exactly as it was, at its place in the table, and every record it inserts
is the copy of a record of the store with `is_evergreen` true.  Ids are primary
keys. -/
theorem recycleEvergreenContent_non_evergreen (localTZA : Int) (env : Nat → RecycleOutcomes)
    (now : Int) (db : Database) (hpk : (db.posts.map Post.id).Nodup) :
    (∀ (j : Nat) (p : Post), db.posts[j]? = some p → p.is_evergreen = false →
        (recycleEvergreenContent localTZA env now db).posts[j]? = some p)
      ∧ ∀ c ∈ (recycleEvergreenContent localTZA env now db).posts.drop db.posts.length,
          ∃ src ∈ db.posts, src.is_evergreen = true ∧ ∃ newId t, c = recycledCopy newId src t := by
  obtain ⟨F, copies, hposts, hF, hcopies⟩ :=
    recycleEvergreenContent_effect localTZA env now db hpk
  have hever : ∀ src ∈ evergreenPosts now db, src ∈ db.posts ∧ src.is_evergreen = true := by
    intro src hsrc
    obtain ⟨h1, h2⟩ := (mem_evergreenPosts now db src).mp hsrc
    refine ⟨h1, ?_⟩
    unfold isRecyclable at h2
    cases hev : src.is_evergreen
    · simp [hev] at h2
    · rfl
  constructor
  · intro j p hp hev
    rw [hposts, getElem?_map_append _ _ F j p hp]
    rcases hF p (List.getElem?_mem hp) with h | ⟨h, -⟩
    · rw [h]
    · have := (hever p h).2
      rw [hev] at this
      cases this
  · intro c hc
    rw [hposts, List.drop_left' (by simp)] at hc
    obtain ⟨src, hsrc, h⟩ := hcopies c hc
    exact ⟨src, (hever src hsrc).1, (hever src hsrc).2, h⟩

theorem recycleEvergreenContent_non_evergreen_witness :
    (recycleEvergreenContent 3600000 sampleRecycleEnv sampleNow sampleRecycleDb).posts[2]?
      = some ⟨22, 2, "t22", "c22", some 0, some "published", false, none, false, some "none",
          none⟩ :=
  (recycleEvergreenContent_non_evergreen 3600000 sampleRecycleEnv sampleNow sampleRecycleDb
    (by decide)).1 2
    ⟨22, 2, "t22", "c22", some 0, some "published", false, none, false, some "none", none⟩
    (by decide) rfl

theorem post_others_ne (rows : List Post) (i : Nat) (r : Post) (hr : rows[i]? = some r)
    (hn : (rows.map Post.id).Nodup) :
    (∀ x ∈ rows.take i, x.id ≠ r.id) ∧ ∀ x ∈ rows.drop (i + 1), x.id ≠ r.id := by
  rw [posts_split rows i r hr, List.map_append, List.map_cons, List.nodup_append,
    List.nodup_cons] at hn
  obtain ⟨-, ⟨hnot, -⟩, hdisj⟩ := hn
  constructor
  · intro x hx hid
    exact hdisj (List.mem_map_of_mem _ hx) (hid ▸ List.mem_cons_self _ _)
  · intro x hx hid
    exact hnot (hid ▸ List.mem_map_of_mem Post.id hx)

theorem evergreenPosts_nodup (now : Int) (db : Database) (hpk : (db.posts.map Post.id).Nodup) :
    ((evergreenPosts now db).map Post.id).Nodup :=
  hpk.sublist ((List.filter_sublist db.posts).map Post.id)

theorem recycleUpTo_ids (localTZA : Int) (env : Nat → RecycleOutcomes) (now : Int)
    (db : Database) (n : Nat) :
    ∀ r ∈ evergreenPosts now db, r.id ∈ (recycleUpTo localTZA env now db n).posts.map Post.id := by
  intro r hr
  unfold recycleUpTo
  exact recycleLoop_ids_subset localTZA env _ 0 db
    (evergreenPosts_ids now db _ (fun x hx => List.mem_of_mem_take hx)) _
    (evergreenPosts_ids now db _ (fun x hx => hx) r hr)

theorem recycleUpTo_step (localTZA : Int) (env : Nat → RecycleOutcomes) (now : Int)
    (db : Database) (i : Nat) (r : Post) (hr : (evergreenPosts now db)[i]? = some r)
    (hins : (env i).insertPost = true) (hupd : (env i).updatePost = true) :
    (recycleUpTo localTZA env now db (i + 1)).posts
      = stampRecycled r.id (Stamp.sqlite ((env i).sqliteNow / 1000))
            (recycleUpTo localTZA env now db i).posts
          ++ [recycledCopy (nextId ((recycleUpTo localTZA env now db i).posts.map Post.id)) r
                (optimalTimeFor localTZA (env i) db r.user_id)] := by
  have hJ := recycleUpTo_ids localTZA env now db i r (List.getElem?_mem hr)
  have hopt : (recycleUpTo localTZA env now db i).user_optimal_times = db.user_optimal_times :=
    (recycleLoop_frame localTZA env _ 0 db).2
  rw [recycleUpTo_succ localTZA env now db i r hr, recyclePost_posts _ _ _ _ hJ, if_pos hins,
    if_pos hupd, optimalTimeFor_congr localTZA (env i) _ db r.user_id hopt]

/-! ## The evergreen sweep: the copy and the original -/

/-- C15. For every selected record handled without a store error,
`recycleEvergreenContent` inserts exactly one new record: same owner, status
`scheduled`, title the original title followed by ` (Recycled)`, same body,
`is_evergreen` true, same recycle frequency, and scheduled timestamp the value
that `determineOptimalPostingTime` returns for that owner (printed by
`toISOString()`); the record is still there at the end of the sweep. -/
theorem recycleEvergreenContent_copy (localTZA : Int) (env : Nat → RecycleOutcomes)
    (now : Int) (db : Database) (i : Nat) (r : Post)
    (hr : (evergreenPosts now db)[i]? = some r)
    (hins : (env i).insertPost = true) (hupd : (env i).updatePost = true) :
    (recycleUpTo localTZA env now db (i + 1)).posts
        = stampRecycled r.id (Stamp.sqlite ((env i).sqliteNow / 1000))
              (recycleUpTo localTZA env now db i).posts
            ++ [recycledCopy (nextId ((recycleUpTo localTZA env now db i).posts.map Post.id)) r
                  (optimalTimeFor localTZA (env i) db r.user_id)]
      ∧ (recycleUpTo localTZA env now db (i + 1)).posts.length
          = (recycleUpTo localTZA env now db i).posts.length + 1
      ∧ recycledCopy (nextId ((recycleUpTo localTZA env now db i).posts.map Post.id)) r
            (optimalTimeFor localTZA (env i) db r.user_id)
          ∈ (recycleEvergreenContent localTZA env now db).posts
      ∧ ∀ newId : Nat,
          (recycledCopy newId r (optimalTimeFor localTZA (env i) db r.user_id)).user_id
              = r.user_id
            ∧ (recycledCopy newId r (optimalTimeFor localTZA (env i) db r.user_id)).status
              = some "scheduled"
            ∧ (recycledCopy newId r (optimalTimeFor localTZA (env i) db r.user_id)).title
              = r.title ++ " (Recycled)"
            ∧ (recycledCopy newId r (optimalTimeFor localTZA (env i) db r.user_id)).content
              = r.content
            ∧ (recycledCopy newId r (optimalTimeFor localTZA (env i) db r.user_id)).is_evergreen
              = true
            ∧ (recycledCopy newId r
                (optimalTimeFor localTZA (env i) db r.user_id)).recycle_frequency
              = r.recycle_frequency
            ∧ (recycledCopy newId r
                (optimalTimeFor localTZA (env i) db r.user_id)).scheduled_date
              = some (UTC localTZA
                  (determineOptimalPostingTime
                    (if (env i).lookupRaises = true then Lookup.raised
                      else lookupOptimalTimes db r.user_id)
                    (LocalTime localTZA (env i).dateNow))) := by
  have hstep := recycleUpTo_step localTZA env now db i r hr hins hupd
  refine ⟨hstep, ?_, ?_, fun newId => ⟨rfl, rfl, rfl, rfl, rfl, rfl, rfl⟩⟩
  · rw [hstep]
    simp [stampRecycled]
  · have hJ : ∀ x ∈ (evergreenPosts now db).drop (i + 1),
        x.id ∈ (recycleUpTo localTZA env now db (i + 1)).posts.map Post.id :=
      fun x hx => recycleUpTo_ids localTZA env now db (i + 1) x (List.mem_of_mem_drop hx)
    obtain ⟨F, copies, hposts, hF, -⟩ := recycleLoop_effect localTZA env
      ((evergreenPosts now db).drop (i + 1)) (i + 1) _ hJ
    rw [recycleEvergreenContent_split localTZA env now db i r hr, hposts]
    apply List.mem_append_left
    rw [List.mem_map]
    refine ⟨_, by rw [hstep]; exact List.mem_append_right _ (List.mem_singleton_self _), ?_⟩
    rcases hF (recycledCopy (nextId ((recycleUpTo localTZA env now db i).posts.map Post.id)) r
      (optimalTimeFor localTZA (env i) db r.user_id)) with h | ⟨⟨x, hx, hxid⟩, -⟩
    · exact h
    · exfalso
      have h1 := lt_nextId _ _
        (recycleUpTo_ids localTZA env now db i x (List.mem_of_mem_drop hx))
      have h2 : x.id = nextId ((recycleUpTo localTZA env now db i).posts.map Post.id) := hxid
      omega

theorem recycleEvergreenContent_copy_witness :
    (recycleUpTo 3600000 sampleRecycleEnv sampleNow sampleRecycleDb 1).posts.length
      = (recycleUpTo 3600000 sampleRecycleEnv sampleNow sampleRecycleDb 0).posts.length + 1 :=
  (recycleEvergreenContent_copy 3600000 sampleRecycleEnv sampleNow sampleRecycleDb 0
    ⟨20, 1, "t20", "c20", some 0, some "published", false, none, true, some "weekly",
      some (Stamp.sqlite (19722 * 86400 + 43200))⟩ (by decide) rfl rfl).2.1

/-- C16. For every selected record handled without a store error, the original
record is untouched until it is handled and, at the end of the sweep, is the
same record (id, owner, title, body, status `published`, scheduled timestamp,
engagement, evergreen flag, recycle frequency) with `last_recycled` set to the
clock of the store at the update, in whole seconds.  Ids are primary keys. -/
theorem recycleEvergreenContent_original (localTZA : Int) (env : Nat → RecycleOutcomes)
    (now : Int) (db : Database) (hpk : (db.posts.map Post.id).Nodup) (i : Nat) (r : Post)
    (hr : (evergreenPosts now db)[i]? = some r)
    (hins : (env i).insertPost = true) (hupd : (env i).updatePost = true) :
    r.status = some "published" ∧ r.is_evergreen = true
      ∧ ∀ j : Nat, db.posts[j]? = some r →
          (recycleUpTo localTZA env now db i).posts[j]? = some r
            ∧ (recycleEvergreenContent localTZA env now db).posts[j]?
              = some { r with
                  last_recycled := some (Stamp.sqlite ((env i).sqliteNow / 1000)) } := by
  have hsel := (mem_evergreenPosts now db r).mp (List.getElem?_mem hr)
  obtain ⟨hpre, hsuf⟩ := post_others_ne _ i r hr (evergreenPosts_nodup now db hpk)
  refine ⟨?_, ?_, ?_⟩
  · have h2 := hsel.2
    unfold isRecyclable at h2
    simp only [Bool.and_eq_true, decide_eq_true_eq] at h2
    exact h2.1.2
  · have h2 := hsel.2
    unfold isRecyclable at h2
    simp only [Bool.and_eq_true, decide_eq_true_eq] at h2
    exact h2.1.1
  · intro j hj
    obtain ⟨F1, c1, hposts1, hF1, -⟩ := recycleLoop_effect localTZA env
      ((evergreenPosts now db).take i) 0 db
      (evergreenPosts_ids now db _ (fun x hx => List.mem_of_mem_take hx))
    have hbefore : (recycleUpTo localTZA env now db i).posts[j]? = some r := by
      unfold recycleUpTo
      rw [hposts1, getElem?_map_append _ _ F1 j r hj]
      rcases hF1 r with h | ⟨⟨x, hx, hxid⟩, -⟩
      · rw [h]
      · exact absurd hxid (hpre x hx)
    refine ⟨hbefore, ?_⟩
    have hJ : ∀ x ∈ (evergreenPosts now db).drop (i + 1),
        x.id ∈ (recycleUpTo localTZA env now db (i + 1)).posts.map Post.id :=
      fun x hx => recycleUpTo_ids localTZA env now db (i + 1) x (List.mem_of_mem_drop hx)
    obtain ⟨F2, c2, hposts2, hF2, -⟩ := recycleLoop_effect localTZA env
      ((evergreenPosts now db).drop (i + 1)) (i + 1) _ hJ
    have hafter : (recycleUpTo localTZA env now db (i + 1)).posts[j]?
        = some { r with last_recycled := some (Stamp.sqlite ((env i).sqliteNow / 1000)) } := by
      rw [recycleUpTo_step localTZA env now db i r hr hins hupd, stampRecycled,
        getElem?_map_append _ _ _ j r hbefore]
      simp
    rw [recycleEvergreenContent_split localTZA env now db i r hr, hposts2,
      getElem?_map_append _ _ F2 j _ hafter]
    rcases hF2 { r with last_recycled := some (Stamp.sqlite ((env i).sqliteNow / 1000)) } with
      h | ⟨⟨x, hx, hxid⟩, -⟩
    · rw [h]
    · exact absurd hxid (hsuf x hx)

theorem recycleEvergreenContent_original_witness :
    (recycleEvergreenContent 3600000 sampleRecycleEnv sampleNow sampleRecycleDb).posts[0]?
      = some ⟨20, 1, "t20", "c20", some 0, some "published", false, none, true, some "weekly",
          some (Stamp.sqlite ((sampleRecycleEnv 0).sqliteNow / 1000))⟩ :=
  ((recycleEvergreenContent_original 3600000 sampleRecycleEnv sampleNow sampleRecycleDb
    (by decide) 0
    ⟨20, 1, "t20", "c20", some 0, some "published", false, none, true, some "weekly",
      some (Stamp.sqlite (19722 * 86400 + 43200))⟩ (by decide) rfl rfl).2.2 0 (by decide)).2

/-! ## Lemmas on the engagement table -/

theorem recordEngagement_mem (day hour score : Int) (acc : List Bucket)
    (hd : acc.Pairwise (fun x y => ¬ (x.day = y.day ∧ x.hour = y.hour))) :
    ∀ b ∈ recordEngagement day hour score acc,
      (b ∈ acc ∧ ¬ (b.day = day ∧ b.hour = hour))
        ∨ (∃ b0 ∈ acc, b0.day = day ∧ b0.hour = hour ∧ b = b0.add score)
        ∨ ((∀ b0 ∈ acc, ¬ (b0.day = day ∧ b0.hour = hour))
            ∧ b = (⟨day, hour, 0, 0, 0⟩ : Bucket).add score) := by
  induction acc with
  | nil =>
    intro b hb
    simp only [recordEngagement, List.mem_singleton] at hb
    exact Or.inr (Or.inr ⟨by simp, hb⟩)
  | cons a rest ih =>
    intro b hb
    rw [List.pairwise_cons] at hd
    simp only [recordEngagement] at hb
    by_cases hk : a.day = day ∧ a.hour = hour
    · rw [if_pos hk] at hb
      rcases List.mem_cons.mp hb with rfl | hb
      · exact Or.inr (Or.inl ⟨a, List.mem_cons_self _ _, hk.1, hk.2, rfl⟩)
      · left
        refine ⟨List.mem_cons_of_mem _ hb, ?_⟩
        intro hbk
        exact hd.1 b hb ⟨hk.1.trans hbk.1.symm, hk.2.trans hbk.2.symm⟩
    · rw [if_neg hk] at hb
      rcases List.mem_cons.mp hb with rfl | hb
      · exact Or.inl ⟨List.mem_cons_self _ _, hk⟩
      · rcases ih hd.2 b hb with ⟨h1, h2⟩ | ⟨b0, hb0, h1, h2, h3⟩ | ⟨h1, h2⟩
        · exact Or.inl ⟨List.mem_cons_of_mem _ h1, h2⟩
        · exact Or.inr (Or.inl ⟨b0, List.mem_cons_of_mem _ hb0, h1, h2, h3⟩)
        · refine Or.inr (Or.inr ⟨?_, h2⟩)
          intro b0 hb0
          rcases List.mem_cons.mp hb0 with rfl | hb0
          · exact hk
          · exact h1 b0 hb0

theorem recordEngagement_keys (day hour score : Int) (acc : List Bucket) :
    ∀ b ∈ recordEngagement day hour score acc,
      (b.day = day ∧ b.hour = hour) ∨ ∃ b0 ∈ acc, b0.day = b.day ∧ b0.hour = b.hour := by
  induction acc with
  | nil =>
    intro b hb
    simp only [recordEngagement, List.mem_singleton] at hb
    subst hb
    exact Or.inl ⟨rfl, rfl⟩
  | cons a rest ih =>
    intro b hb
    simp only [recordEngagement] at hb
    by_cases hk : a.day = day ∧ a.hour = hour
    · rw [if_pos hk] at hb
      rcases List.mem_cons.mp hb with rfl | hb
      · exact Or.inl hk
      · exact Or.inr ⟨b, List.mem_cons_of_mem _ hb, rfl, rfl⟩
    · rw [if_neg hk] at hb
      rcases List.mem_cons.mp hb with rfl | hb
      · exact Or.inr ⟨b, List.mem_cons_self _ _, rfl, rfl⟩
      · rcases ih b hb with h | ⟨b0, hb0, h⟩
        · exact Or.inl h
        · exact Or.inr ⟨b0, List.mem_cons_of_mem _ hb0, h⟩

theorem recordEngagement_pairwise (day hour score : Int) (acc : List Bucket)
    (hd : acc.Pairwise (fun x y => ¬ (x.day = y.day ∧ x.hour = y.hour))) :
    (recordEngagement day hour score acc).Pairwise
      (fun x y => ¬ (x.day = y.day ∧ x.hour = y.hour)) := by
  induction acc with
  | nil => simp [recordEngagement]
  | cons a rest ih =>
    rw [List.pairwise_cons] at hd
    simp only [recordEngagement]
    by_cases hk : a.day = day ∧ a.hour = hour
    · rw [if_pos hk, List.pairwise_cons]
      exact ⟨fun y hy => hd.1 y hy, hd.2⟩
    · rw [if_neg hk, List.pairwise_cons]
      refine ⟨?_, ih hd.2⟩
      intro y hy hay
      rcases recordEngagement_keys day hour score rest y hy with h | ⟨b0, hb0, h⟩
      · exact hk ⟨hay.1.trans h.1, hay.2.trans h.2⟩
      · exact hd.1 b0 hb0 ⟨hay.1.trans h.1.symm, hay.2.trans h.2.symm⟩

theorem recordEngagement_covers (day hour score : Int) (acc : List Bucket) :
    (∃ b ∈ recordEngagement day hour score acc, b.day = day ∧ b.hour = hour)
      ∧ ∀ b0 ∈ acc, ∃ b ∈ recordEngagement day hour score acc,
          b.day = b0.day ∧ b.hour = b0.hour := by
  induction acc with
  | nil => exact ⟨⟨_, List.mem_singleton_self _, rfl, rfl⟩, by simp⟩
  | cons a rest ih =>
    simp only [recordEngagement]
    by_cases hk : a.day = day ∧ a.hour = hour
    · rw [if_pos hk]
      refine ⟨⟨_, List.mem_cons_self _ _, hk⟩, ?_⟩
      intro b0 hb0
      rcases List.mem_cons.mp hb0 with rfl | hb0
      · exact ⟨_, List.mem_cons_self _ _, rfl, rfl⟩
      · exact ⟨b0, List.mem_cons_of_mem _ hb0, rfl, rfl⟩
    · rw [if_neg hk]
      obtain ⟨⟨b, hb, hbk⟩, hrest⟩ := ih
      refine ⟨⟨b, List.mem_cons_of_mem _ hb, hbk⟩, ?_⟩
      intro b0 hb0
      rcases List.mem_cons.mp hb0 with rfl | hb0
      · exact ⟨_, List.mem_cons_self _ _, rfl, rfl⟩
      · obtain ⟨b, hb, h⟩ := hrest b0 hb0
        exact ⟨b, List.mem_cons_of_mem _ hb, h⟩

theorem slotScores_append (localTZA day hour : Int) (xs ys : List Post) :
    slotScores localTZA day hour (xs ++ ys)
      = slotScores localTZA day hour xs ++ slotScores localTZA day hour ys := by
  induction xs with
  | nil => rfl
  | cons x xs ih =>
    simp only [List.cons_append, slotScores]
    split
    · split <;> simp [ih]
    · exact ih

theorem slotScores_single_hit (localTZA day hour : Int) (p : Post) (date : Int)
    (engagement : String) (hd : p.scheduled_date = some date)
    (he : truthy p.engagement = some engagement) :
    slotScores localTZA day hour [p]
      = if getDay (LocalTime localTZA date) = day ∧ getHours (LocalTime localTZA date) = hour
        then [engagementValue engagement] else [] := by
  simp only [slotScores, hd, he]

theorem slotScores_single_skip (localTZA day hour : Int) (p : Post)
    (h : p.scheduled_date = none ∨ truthy p.engagement = none) :
    slotScores localTZA day hour [p] = [] := by
  rcases h with h | h
  · simp [slotScores, h]
  · cases hd : p.scheduled_date <;> simp [slotScores, h, hd]

theorem Tallies_record (localTZA : Int) (done : List Post) (acc : List Bucket) (p : Post)
    (date : Int) (engagement : String) (hd : p.scheduled_date = some date)
    (he : truthy p.engagement = some engagement) (h : Tallies localTZA done acc) :
    Tallies localTZA (done ++ [p])
      (recordEngagement (getDay (LocalTime localTZA date)) (getHours (LocalTime localTZA date))
        (engagementValue engagement) acc) := by
  obtain ⟨hpw, hb, hc⟩ := h
  refine ⟨recordEngagement_pairwise _ _ _ acc hpw, ?_, ?_⟩
  · intro b hbmem
    rw [slotScores_append, slotScores_single_hit localTZA b.day b.hour p date engagement hd he]
    rcases recordEngagement_mem _ _ _ acc hpw b hbmem with
      ⟨h1, h2⟩ | ⟨b0, hb0, h1, h2, rfl⟩ | ⟨h1, rfl⟩
    · have hne : ¬ (getDay (LocalTime localTZA date) = b.day
          ∧ getHours (LocalTime localTZA date) = b.hour) :=
        fun hk => h2 ⟨hk.1.symm, hk.2.symm⟩
      rw [if_neg hne, List.append_nil]
      exact hb b h1
    · obtain ⟨c1, c2, c3, -⟩ := hb b0 hb0
      have hk : getDay (LocalTime localTZA date) = (b0.add (engagementValue engagement)).day
          ∧ getHours (LocalTime localTZA date) = (b0.add (engagementValue engagement)).hour :=
        ⟨h1.symm, h2.symm⟩
      rw [if_pos hk]
      have e1 : (b0.add (engagementValue engagement)).day = b0.day := rfl
      have e2 : (b0.add (engagementValue engagement)).hour = b0.hour := rfl
      have e3 : (b0.add (engagementValue engagement)).count = b0.count + 1 := rfl
      have e4 : (b0.add (engagementValue engagement)).totalEngagement
          = b0.totalEngagement + engagementValue engagement := rfl
      have e5 : (b0.add (engagementValue engagement)).averageEngagement
          = ((b0.totalEngagement + engagementValue engagement : Int) : Rat)
              / ((b0.count + 1 : Int) : Rat) := rfl
      rw [e1, e2, e3, e4, e5]
      refine ⟨by omega, ?_, ?_, rfl⟩
      · rw [c2]; simp
      · rw [c3]; simp
    · have hk : getDay (LocalTime localTZA date)
            = ((⟨getDay (LocalTime localTZA date), getHours (LocalTime localTZA date), 0, 0, 0⟩
                : Bucket).add (engagementValue engagement)).day
          ∧ getHours (LocalTime localTZA date)
            = ((⟨getDay (LocalTime localTZA date), getHours (LocalTime localTZA date), 0, 0, 0⟩
                : Bucket).add (engagementValue engagement)).hour :=
        ⟨rfl, rfl⟩
      rw [if_pos hk]
      have hnil := hc _ _ h1
      simp only [Bucket.add]
      rw [hnil]
      simp
  · intro day hour hnone
    rw [slotScores_append, slotScores_single_hit localTZA day hour p date engagement hd he]
    obtain ⟨⟨b, hbm, hbk⟩, hrest⟩ := recordEngagement_covers
      (getDay (LocalTime localTZA date)) (getHours (LocalTime localTZA date))
      (engagementValue engagement) acc
    have hne : ¬ (getDay (LocalTime localTZA date) = day
        ∧ getHours (LocalTime localTZA date) = hour) :=
      fun hk => hnone b hbm ⟨hbk.1.trans hk.1, hbk.2.trans hk.2⟩
    rw [if_neg hne, List.append_nil]
    apply hc
    intro b0 hb0 hk0
    obtain ⟨b', hb', hk'⟩ := hrest b0 hb0
    exact hnone b' hb' ⟨hk'.1.trans hk0.1, hk'.2.trans hk0.2⟩

theorem Tallies_skip (localTZA : Int) (done : List Post) (acc : List Bucket) (p : Post)
    (hskip : p.scheduled_date = none ∨ truthy p.engagement = none)
    (h : Tallies localTZA done acc) : Tallies localTZA (done ++ [p]) acc := by
  obtain ⟨hpw, hb, hc⟩ := h
  refine ⟨hpw, ?_, ?_⟩
  · intro b hbmem
    rw [slotScores_append, slotScores_single_skip localTZA b.day b.hour p hskip, List.append_nil]
    exact hb b hbmem
  · intro day hour hnone
    rw [slotScores_append, slotScores_single_skip localTZA day hour p hskip, List.append_nil]
    exact hc day hour hnone

theorem Tallies_loop (localTZA : Int) (posts done : List Post) (acc : List Bucket)
    (h : Tallies localTZA done acc) :
    Tallies localTZA (done ++ posts) (engagementByDayAndHour localTZA posts acc) := by
  induction posts generalizing done acc with
  | nil => simpa [engagementByDayAndHour] using h
  | cons p rest ih =>
    have happ : done ++ p :: rest = (done ++ [p]) ++ rest := by simp
    rw [happ]
    cases hd : p.scheduled_date with
    | none =>
      have : engagementByDayAndHour localTZA (p :: rest) acc
          = engagementByDayAndHour localTZA rest acc := by
        simp [engagementByDayAndHour, hd]
      rw [this]
      exact ih _ _ (Tallies_skip localTZA done acc p (Or.inl hd) h)
    | some date =>
      cases he : truthy p.engagement with
      | none =>
        have : engagementByDayAndHour localTZA (p :: rest) acc
            = engagementByDayAndHour localTZA rest acc := by
          simp [engagementByDayAndHour, hd, he]
        rw [this]
        exact ih _ _ (Tallies_skip localTZA done acc p (Or.inr he) h)
      | some engagement =>
        have : engagementByDayAndHour localTZA (p :: rest) acc
            = engagementByDayAndHour localTZA rest
                (recordEngagement (getDay (LocalTime localTZA date))
                  (getHours (LocalTime localTZA date)) (engagementValue engagement) acc) := by
          simp [engagementByDayAndHour, hd, he]
        rw [this]
        exact ih _ _ (Tallies_record localTZA done acc p date engagement hd he h)

theorem Tallies_final (localTZA : Int) (posts : List Post) :
    Tallies localTZA posts (engagementByDayAndHour localTZA posts []) := by
  have h := Tallies_loop localTZA posts [] [] ⟨List.Pairwise.nil, by simp, fun _ _ _ => rfl⟩
  simpa using h

theorem truthy_isSome (x : Option String) (s : String) (h : truthy x = some s) :
    x.isSome = true := by
  cases x with
  | none => simp [truthy] at h
  | some a => rfl

theorem slotScores_filter (localTZA day hour : Int) (userId : Nat) (posts : List Post) :
    slotScores localTZA day hour
        (posts.filter (fun p =>
          p.user_id = userId && p.status = some "published" && p.engagement.isSome))
      = ((posts.filter (fun p =>
          p.user_id = userId && p.status = some "published" && (truthy p.engagement).isSome
            && (match p.scheduled_date with
                | some date =>
                  decide (WeekDay (LocalTime localTZA date) = day)
                    && decide (HourFromTime (LocalTime localTZA date) = hour)
                | none => false))).map engagementScore) := by
  induction posts with
  | nil => rfl
  | cons p rest ih =>
    rw [List.filter_cons, List.filter_cons]
    by_cases hu : p.user_id = userId
    · by_cases hs : p.status = some "published"
      · rcases Option.eq_none_or_eq_some (truthy p.engagement) with he | ⟨e, he⟩
        · have hright : (decide (p.user_id = userId) && decide (p.status = some "published")
              && (truthy p.engagement).isSome
              && (match p.scheduled_date with
                  | some date =>
                    decide (WeekDay (LocalTime localTZA date) = day)
                      && decide (HourFromTime (LocalTime localTZA date) = hour)
                  | none => false)) = false := by
            simp [he]
          rw [hright]
          by_cases hsome : p.engagement.isSome = true
          · have hleft : (decide (p.user_id = userId) && decide (p.status = some "published")
                && p.engagement.isSome) = true := by
              simp [hu, hs, hsome]
            rw [hleft]
            simp only [if_true, Bool.false_eq_true, if_false]
            rcases Option.eq_none_or_eq_some p.scheduled_date with hd | ⟨date, hd⟩ <;>
              simp [slotScores, hd, he, ih]
          · have hleft : (decide (p.user_id = userId) && decide (p.status = some "published")
                && p.engagement.isSome) = false := by
              simp [hsome]
            rw [hleft]
            simpa using ih
        · have hsome := truthy_isSome _ _ he
          have hleft : (decide (p.user_id = userId) && decide (p.status = some "published")
              && p.engagement.isSome) = true := by
            simp [hu, hs, hsome]
          rw [hleft]
          simp only [if_true]
          rcases Option.eq_none_or_eq_some p.scheduled_date with hd | ⟨date, hd⟩
          · simp [slotScores, hd, he, ih]
          · by_cases hk : getDay (LocalTime localTZA date) = day
                ∧ getHours (LocalTime localTZA date) = hour
            · have hk' : WeekDay (LocalTime localTZA date) = day
                  ∧ HourFromTime (LocalTime localTZA date) = hour := hk
              simp [slotScores, hd, he, ih, hk, hk'.1, hk'.2, hu, hs, engagementScore]
            · have hk' : ¬ (WeekDay (LocalTime localTZA date) = day
                  ∧ HourFromTime (LocalTime localTZA date) = hour) := hk
              have hk2 : (decide (WeekDay (LocalTime localTZA date) = day)
                  && decide (HourFromTime (LocalTime localTZA date) = hour)) = false := by
                simpa using hk'
              simp [slotScores, hd, he, ih, hk, hk2]
      · simp [hs, ih]
    · simp [hu, ih]

theorem slotScores_qualifying (localTZA : Int) (db : Database) (userId : Nat) (day hour : Int) :
    slotScores localTZA day hour (qualifyingPosts db userId)
      = (slotPosts localTZA db userId day hour).map engagementScore :=
  slotScores_filter localTZA day hour userId db.posts

/-! ## Lemmas on the analyzer -/

theorem mem_optimalTimesOf (buckets : List Bucket) (s : Slot) (hs : s ∈ optimalTimesOf buckets) :
    ∃ b ∈ buckets, s = ⟨b.day, b.hour, b.averageEngagement⟩ := by
  unfold optimalTimesOf at hs
  obtain ⟨b, hb, rfl⟩ := List.mem_map.mp hs
  exact ⟨b, (List.perm_insertionSort engagementGE buckets).mem_iff.mp (List.mem_of_mem_take hb),
    rfl⟩

theorem analyzeUser_frame (localTZA : Int) (o : AnalysisOutcomes) (user : User)
    (db : Database) :
    (analyzeUser localTZA o user db).posts = db.posts
      ∧ (analyzeUser localTZA o user db).users = db.users := by
  unfold analyzeUser
  repeat' split
  all_goals exact ⟨rfl, rfl⟩

theorem analyzeLoop_frame (localTZA : Int) (env : Nat → AnalysisOutcomes) (users : List User)
    (k : Nat) (db : Database) :
    (analyzeLoop localTZA env k users db).posts = db.posts
      ∧ (analyzeLoop localTZA env k users db).users = db.users := by
  induction users generalizing k db with
  | nil => exact ⟨rfl, rfl⟩
  | cons u rest ih =>
    obtain ⟨h1, h2⟩ := ih (k + 1) (analyzeUser localTZA (env k) u db)
    obtain ⟨h3, h4⟩ := analyzeUser_frame localTZA (env k) u db
    exact ⟨h1.trans h3, h2.trans h4⟩

theorem computedOptimalTimes_congr (localTZA : Int) (db1 db2 : Database) (userId : Nat)
    (h : db1.posts = db2.posts) :
    computedOptimalTimes localTZA db1 userId = computedOptimalTimes localTZA db2 userId := by
  unfold computedOptimalTimes qualifyingPosts
  rw [h]

theorem analyzeUser_table (localTZA : Int) (o : AnalysisOutcomes) (user : User)
    (db : Database) :
    (analyzeUser localTZA o user db).user_optimal_times = db.user_optimal_times
      ∨ (qualifyingPosts db user.id ≠ []
          ∧ ∃ rows, db.user_optimal_times = some rows
            ∧ (analyzeUser localTZA o user db).user_optimal_times
              = some (storeOptimalTimes user.id (computedOptimalTimes localTZA db user.id) rows)) := by
  unfold analyzeUser
  split
  · split
    · exact Or.inl rfl
    · rename_i hne
      split
      · exact Or.inl rfl
      · rename_i rows hrows
        split
        · exact Or.inr ⟨by simpa using hne, rows, hrows, rfl⟩
        · exact Or.inl rfl
  · exact Or.inl rfl

theorem mem_storeOptimalTimes (userId : Nat) (optimalTimes : List Slot)
    (rows : List OptimalTimesRow) :
    ∀ row ∈ storeOptimalTimes userId optimalTimes rows,
      row ∈ rows ∨ (row.user_id = userId ∧ row.optimal_times = optimalTimes) := by
  intro row hrow
  unfold storeOptimalTimes at hrow
  split at hrow
  · obtain ⟨r0, hr0, rfl⟩ := List.mem_map.mp hrow
    by_cases h : r0.user_id = userId
    · rw [if_pos h]
      exact Or.inr ⟨h, rfl⟩
    · rw [if_neg h]
      exact Or.inl hr0
  · rcases List.mem_append.mp hrow with h | h
    · exact Or.inl h
    · rw [List.mem_singleton.mp h]
      exact Or.inr ⟨rfl, rfl⟩

/-- Every row of the table after the analysis is a row of the table before it,
or holds, for one of the users, the slot list computed for that user. -/
theorem analyzeLoop_rows (localTZA : Int) (env : Nat → AnalysisOutcomes) (users : List User)
    (k : Nat) (db : Database) (rows1 : List OptimalTimesRow)
    (h : (analyzeLoop localTZA env k users db).user_optimal_times = some rows1) :
    ∃ rows0, db.user_optimal_times = some rows0
      ∧ ∀ row ∈ rows1, row ∈ rows0
          ∨ ∃ u ∈ users, row.user_id = u.id
              ∧ row.optimal_times = computedOptimalTimes localTZA db u.id := by
  induction users generalizing k db with
  | nil => exact ⟨rows1, h, fun row hrow => Or.inl hrow⟩
  | cons u rest ih =>
    obtain ⟨rowsM, hM, hrows⟩ := ih (k + 1) (analyzeUser localTZA (env k) u db) h
    have hposts := (analyzeUser_frame localTZA (env k) u db).1
    have hlift : ∀ row ∈ rows1, row ∈ rowsM
        ∨ ∃ v ∈ u :: rest, row.user_id = v.id
            ∧ row.optimal_times = computedOptimalTimes localTZA db v.id := by
      intro row hrow
      rcases hrows row hrow with h1 | ⟨v, hv, h1, h2⟩
      · exact Or.inl h1
      · exact Or.inr ⟨v, List.mem_cons_of_mem _ hv, h1,
          h2.trans (computedOptimalTimes_congr localTZA _ db v.id hposts)⟩
    rcases analyzeUser_table localTZA (env k) u db with hsame | ⟨-, rows0, h0, hnew⟩
    · exact ⟨rowsM, hsame ▸ hM, hlift⟩
    · refine ⟨rows0, h0, ?_⟩
      intro row hrow
      rcases hlift row hrow with h1 | h1
      · rw [hnew] at hM
        rw [← Option.some.inj hM] at h1
        rcases mem_storeOptimalTimes _ _ _ row h1 with h2 | ⟨h2, h3⟩
        · exact Or.inl h2
        · exact Or.inr ⟨u, List.mem_cons_self _ _, h2, h3⟩
      · exact Or.inr h1

/-! ## The analyzer: what is written -/

/-- C17. Every slot of the list that `analyzeEngagementPatterns` computes for a
user carries as `averageEngagement` the arithmetic mean of the engagement
scores of that user's published posts with an engagement score whose scheduled
time falls on the slot's weekday and hour (there is at least one such post);
and every row of the table after the analysis is a row of the table before it
or holds, for one of the users, the list computed for that user. -/
theorem analyzeEngagementPatterns_average (localTZA : Int) (db : Database) (userId : Nat)
    (s : Slot) (hs : s ∈ computedOptimalTimes localTZA db userId) :
    slotPosts localTZA db userId s.day s.hour ≠ []
      ∧ s.averageEngagement = specMean (slotPosts localTZA db userId s.day s.hour)
      ∧ ∀ (env : Nat → AnalysisOutcomes) (rows1 : List OptimalTimesRow),
          (analyzeEngagementPatterns localTZA env db).user_optimal_times = some rows1 →
          ∃ rows0, db.user_optimal_times = some rows0
            ∧ ∀ row ∈ rows1, row ∈ rows0
                ∨ ∃ u ∈ db.users, row.user_id = u.id
                    ∧ row.optimal_times = computedOptimalTimes localTZA db u.id := by
  obtain ⟨b, hb, rfl⟩ := mem_optimalTimesOf _ s hs
  obtain ⟨-, htally, -⟩ := Tallies_final localTZA (qualifyingPosts db userId)
  obtain ⟨h1, h2, h3, h4⟩ := htally b hb
  rw [slotScores_qualifying] at h2 h3
  rw [List.length_map] at h2
  refine ⟨?_, ?_, fun env rows1 h => analyzeLoop_rows localTZA env db.users 0 db rows1 h⟩
  · intro hnil
    show False
    have hnil' : slotPosts localTZA db userId b.day b.hour = [] := hnil
    rw [hnil'] at h2
    simp at h2
    omega
  · show b.averageEngagement = specMean (slotPosts localTZA db userId b.day b.hour)
    unfold specMean
    rw [h4, h3, h2]

theorem analyzeEngagementPatterns_average_witness :
    (⟨2, 9, 15 / 2⟩ : Slot).averageEngagement = specMean (slotPosts 0 sampleAnalysisDb 1 2 9) :=
  (analyzeEngagementPatterns_average 0 sampleAnalysisDb 1 ⟨2, 9, 15 / 2⟩ (by decide!)).2.1

/-- C18. The slot list that `analyzeEngagementPatterns` computes for a user has
at most 5 entries, is ordered by non-increasing average engagement, and is the
top of the ranking of the `(weekday, hour)` groups: it is made of the first
five groups of a rearrangement of all the groups, and every group left out has
an average not greater than the average of every slot kept.  Every row of the
table after the analysis is a row of the table before it or holds such a
list. -/
theorem analyzeEngagementPatterns_top_five (localTZA : Int) (db : Database) (userId : Nat) :
    (computedOptimalTimes localTZA db userId).length ≤ 5
      ∧ List.Pairwise (fun a b : Slot => b.averageEngagement ≤ a.averageEngagement)
          (computedOptimalTimes localTZA db userId)
      ∧ (rankedBuckets (engagementByDayAndHour localTZA (qualifyingPosts db userId) [])).Perm
          (engagementByDayAndHour localTZA (qualifyingPosts db userId) [])
      ∧ computedOptimalTimes localTZA db userId
          = ((rankedBuckets
                (engagementByDayAndHour localTZA (qualifyingPosts db userId) [])).take 5).map
              (fun b => ⟨b.day, b.hour, b.averageEngagement⟩)
      ∧ (∀ g ∈ (rankedBuckets
              (engagementByDayAndHour localTZA (qualifyingPosts db userId) [])).drop 5,
          ∀ s ∈ computedOptimalTimes localTZA db userId,
            g.averageEngagement ≤ s.averageEngagement)
      ∧ ∀ (env : Nat → AnalysisOutcomes) (rows1 : List OptimalTimesRow),
          (analyzeEngagementPatterns localTZA env db).user_optimal_times = some rows1 →
          ∃ rows0, db.user_optimal_times = some rows0
            ∧ ∀ row ∈ rows1, row ∈ rows0
                ∨ ∃ u ∈ db.users, row.user_id = u.id
                    ∧ row.optimal_times = computedOptimalTimes localTZA db u.id := by
  have hsorted : List.Pairwise engagementGE
      (rankedBuckets (engagementByDayAndHour localTZA (qualifyingPosts db userId) [])) :=
    List.sorted_insertionSort engagementGE _
  refine ⟨?_, ?_, List.perm_insertionSort engagementGE _, rfl, ?_,
    fun env rows1 h => analyzeLoop_rows localTZA env db.users 0 db rows1 h⟩
  · unfold computedOptimalTimes optimalTimesOf
    rw [List.length_map, List.length_take]
    exact Nat.min_le_left _ _
  · unfold computedOptimalTimes optimalTimesOf
    rw [List.pairwise_map]
    exact hsorted.sublist (List.take_sublist 5 _)
  · intro g hg s hs
    unfold computedOptimalTimes optimalTimesOf at hs
    obtain ⟨b, hb, rfl⟩ := List.mem_map.mp hs
    rw [← List.take_append_drop 5
      (rankedBuckets (engagementByDayAndHour localTZA (qualifyingPosts db userId) [])),
      List.pairwise_append] at hsorted
    exact hsorted.2.2 b hb g hg

/-- C19. For a user without a published post that has a non-null engagement
score, `analyzeEngagementPatterns` writes nothing: the rows of that user in
table `user_optimal_times` (and the existence of the table) are after the
analysis what they were before it. -/
theorem analyzeEngagementPatterns_no_content (localTZA : Int) (env : Nat → AnalysisOutcomes)
    (db : Database) (userId : Nat) (h : qualifyingPosts db userId = []) :
    (analyzeEngagementPatterns localTZA env db).user_optimal_times.map
        (List.filter (fun row => row.user_id = userId))
      = db.user_optimal_times.map (List.filter (fun row => row.user_id = userId)) := by
  have hloop : ∀ (users : List User) (k : Nat) (db1 : Database), db1.posts = db.posts →
      (analyzeLoop localTZA env k users db1).user_optimal_times.map
          (List.filter (fun row => row.user_id = userId))
        = db1.user_optimal_times.map (List.filter (fun row => row.user_id = userId)) := by
    intro users
    induction users with
    | nil => intro k db1 _; rfl
    | cons u rest ih =>
      intro k db1 hposts
      have hposts1 := (analyzeUser_frame localTZA (env k) u db1).1
      simp only [analyzeLoop]
      rw [ih (k + 1) _ (hposts1.trans hposts)]
      rcases analyzeUser_table localTZA (env k) u db1 with hsame | ⟨hne, rows0, h0, hnew⟩
      · rw [hsame]
      · have hu : u.id ≠ userId := by
          intro hu
          apply hne
          rw [hu]
          unfold qualifyingPosts at h ⊢
          rw [hposts]
          exact h
        rw [hnew, h0]
        simp only [Option.map_some']
        congr 1
        unfold storeOptimalTimes
        split
        · rw [List.filter_map]
          have : (fun row : OptimalTimesRow => decide (row.user_id = userId))
              ∘ (fun row : OptimalTimesRow =>
                  if row.user_id = u.id then
                    { row with optimal_times := computedOptimalTimes localTZA db1 u.id }
                  else row)
              = fun row : OptimalTimesRow => decide (row.user_id = userId) := by
            funext row
            by_cases hr : row.user_id = u.id <;> simp [hr]
          rw [this]
          have hkeep : ∀ row ∈ rows0.filter (fun row => decide (row.user_id = userId)),
              (fun row : OptimalTimesRow =>
                  if row.user_id = u.id then
                    { row with optimal_times := computedOptimalTimes localTZA db1 u.id }
                  else row) row = row := by
            intro row hrow
            have hrid : row.user_id = userId := by
              simpa using (List.mem_filter.mp hrow).2
            have : ¬ row.user_id = u.id := fun hr => hu (hr.symm.trans hrid)
            simp [this]
          rw [List.map_congr_left hkeep, List.map_id']
        · rw [List.filter_append]
          have : ¬ u.id = userId := hu
          simp [this]
  exact hloop db.users 0 db rfl

theorem analyzeEngagementPatterns_no_content_witness :
    (analyzeEngagementPatterns 0 sampleAnalysisEnv sampleAnalysisDb).user_optimal_times.map
        (List.filter (fun row => row.user_id = 2))
      = sampleAnalysisDb.user_optimal_times.map (List.filter (fun row => row.user_id = 2)) :=
  analyzeEngagementPatterns_no_content 0 sampleAnalysisEnv sampleAnalysisDb 2 (by decide)

/-- C20. On a store in which table `user_optimal_times` does not exist (so
that each user has at most one slot table: none), user 1 has qualifying
content and every store statement that is issued resolves, yet after
`analyzeEngagementPatterns` the table still does not exist and nothing is
stored for user 1: the `SELECT` of line 239 raises before the
`CREATE TABLE IF NOT EXISTS` of line 252 is reached. -/
theorem analyzeEngagementPatterns_missing_table :
    qualifyingPosts { sampleAnalysisDb with user_optimal_times := none } 1 ≠ []
      ∧ (analyzeEngagementPatterns 0 sampleAnalysisEnv
          { sampleAnalysisDb with user_optimal_times := none }).user_optimal_times = none
      ∧ lookupOptimalTimes
          (analyzeEngagementPatterns 0 sampleAnalysisEnv
            { sampleAnalysisDb with user_optimal_times := none }) 1 = Lookup.raised := by
  decide

/-! ## The analyzer: the upsert on an existing table -/

theorem storeOptimalTimes_other (userId other : Nat) (optimalTimes : List Slot)
    (rows : List OptimalTimesRow) (h : userId ≠ other) :
    (storeOptimalTimes userId optimalTimes rows).filter (fun row => row.user_id = other)
      = rows.filter (fun row => row.user_id = other) := by
  unfold storeOptimalTimes
  split
  · rw [List.filter_map]
    have hcomp : (fun row : OptimalTimesRow => decide (row.user_id = other))
        ∘ (fun row : OptimalTimesRow =>
            if row.user_id = userId then { row with optimal_times := optimalTimes } else row)
        = fun row : OptimalTimesRow => decide (row.user_id = other) := by
      funext row
      by_cases hr : row.user_id = userId <;> simp [hr]
    rw [hcomp]
    have hkeep : ∀ row ∈ rows.filter (fun row => decide (row.user_id = other)),
        (fun row : OptimalTimesRow =>
            if row.user_id = userId then { row with optimal_times := optimalTimes } else row) row
          = row := by
      intro row hrow
      have hrid : row.user_id = other := by
        simpa using (List.mem_filter.mp hrow).2
      have : ¬ row.user_id = userId := fun hr => h (hr.symm.trans hrid)
      simp [this]
    rw [List.map_congr_left hkeep, List.map_id']
  · rw [List.filter_append]
    simp [h]

theorem storeOptimalTimes_self (userId : Nat) (optimalTimes : List Slot)
    (rows : List OptimalTimesRow)
    (hone : (rows.filter (fun row => row.user_id = userId)).length ≤ 1) :
    ∃ row, (storeOptimalTimes userId optimalTimes rows).filter (fun row => row.user_id = userId)
        = [row]
      ∧ row.optimal_times = optimalTimes := by
  unfold storeOptimalTimes
  split
  · rename_i hany
    rw [List.filter_map]
    have hcomp : (fun row : OptimalTimesRow => decide (row.user_id = userId))
        ∘ (fun row : OptimalTimesRow =>
            if row.user_id = userId then { row with optimal_times := optimalTimes } else row)
        = fun row : OptimalTimesRow => decide (row.user_id = userId) := by
      funext row
      by_cases hr : row.user_id = userId <;> simp [hr]
    rw [hcomp]
    obtain ⟨r0, hr0, hr0id⟩ := List.any_eq_true.mp hany
    have hmem : r0 ∈ rows.filter (fun row => decide (row.user_id = userId)) :=
      List.mem_filter.mpr ⟨hr0, hr0id⟩
    match hf : rows.filter (fun row => decide (row.user_id = userId)) with
    | [] => rw [hf] at hmem; cases hmem
    | [a] =>
      have ha : a.user_id = userId := by
        have : a ∈ rows.filter (fun row => decide (row.user_id = userId)) := by
          rw [hf]; exact List.mem_singleton_self a
        simpa using (List.mem_filter.mp this).2
      refine ⟨{ a with optimal_times := optimalTimes }, ?_, rfl⟩
      rw [hf]
      simp [ha]
    | a :: b :: l => rw [hf] at hone; simp at hone
  · rename_i hany
    have hnone : rows.filter (fun row => decide (row.user_id = userId)) = [] := by
      rw [List.filter_eq_nil_iff]
      intro row hrow hrid
      exact hany (List.any_eq_true.mpr ⟨row, hrow, hrid⟩)
    rw [List.filter_append, hnone]
    exact ⟨⟨nextId (rows.map OptimalTimesRow.id), userId, optimalTimes⟩, by simp, rfl⟩

theorem analyzeLoop_other (localTZA : Int) (env : Nat → AnalysisOutcomes) (users : List User)
    (k : Nat) (db : Database) (userId : Nat) (hne : ∀ u ∈ users, u.id ≠ userId) :
    (analyzeLoop localTZA env k users db).user_optimal_times.map
        (List.filter (fun row => row.user_id = userId))
      = db.user_optimal_times.map (List.filter (fun row => row.user_id = userId)) := by
  induction users generalizing k db with
  | nil => rfl
  | cons u rest ih =>
    simp only [analyzeLoop]
    rw [ih (k + 1) _ (fun v hv => hne v (List.mem_cons_of_mem _ hv))]
    rcases analyzeUser_table localTZA (env k) u db with hsame | ⟨-, rows0, h0, hnew⟩
    · rw [hsame]
    · rw [hnew, h0]
      simp only [Option.map_some']
      rw [storeOptimalTimes_other u.id userId _ rows0 (hne u (List.mem_cons_self _ _))]

theorem analyzeUser_write (localTZA : Int) (o : AnalysisOutcomes) (user : User)
    (db : Database) (rows : List OptimalTimesRow) (htable : db.user_optimal_times = some rows)
    (hq : qualifyingPosts db user.id ≠ []) (h1 : o.selectPosts = true)
    (h2 : o.selectExisting = true) (h3 : o.write = true) :
    (analyzeUser localTZA o user db).user_optimal_times
      = some (storeOptimalTimes user.id (computedOptimalTimes localTZA db user.id) rows) := by
  have hempty : (qualifyingPosts db user.id).isEmpty = false := by
    cases hl : qualifyingPosts db user.id with
    | nil => exact absurd hl hq
    | cons a l => rfl
  unfold analyzeUser
  simp [h1, h2, h3, hempty, htable]

/-- On a store in which table `user_optimal_times` exists and holds at most one
row for each user (user ids being a primary key), after the analysis the table
still holds at most one row for each user, and for a user with qualifying
content whose store statements resolve the row holds exactly the computed
list. -/
theorem analyzeLoop_upsert (localTZA : Int) (env : Nat → AnalysisOutcomes) (users : List User)
    (k : Nat) (db0 db : Database) (rows0 : List OptimalTimesRow)
    (hposts : db.posts = db0.posts) (htable : db.user_optimal_times = some rows0)
    (huk : (users.map User.id).Nodup)
    (hone : ∀ uid : Nat, (rows0.filter (fun row => row.user_id = uid)).length ≤ 1) :
    ∃ rows1, (analyzeLoop localTZA env k users db).user_optimal_times = some rows1
      ∧ (∀ uid : Nat, (rows1.filter (fun row => row.user_id = uid)).length ≤ 1)
      ∧ ∀ (i : Nat) (u : User), users[i]? = some u → qualifyingPosts db0 u.id ≠ [] →
          (env (k + i)).selectPosts = true → (env (k + i)).selectExisting = true →
          (env (k + i)).write = true →
          ∃ row, rows1.filter (fun row => row.user_id = u.id) = [row]
            ∧ row.optimal_times = computedOptimalTimes localTZA db0 u.id := by
  induction users generalizing k db rows0 with
  | nil => exact ⟨rows0, htable, hone, by simp⟩
  | cons u rest ih =>
    rw [List.map_cons, List.nodup_cons] at huk
    have hposts1 : (analyzeUser localTZA (env k) u db).posts = db0.posts :=
      (analyzeUser_frame localTZA (env k) u db).1.trans hposts
    have hq : qualifyingPosts db u.id = qualifyingPosts db0 u.id := by
      unfold qualifyingPosts
      rw [hposts]
    have hstep : ∃ rowsM, (analyzeUser localTZA (env k) u db).user_optimal_times = some rowsM
        ∧ (∀ uid : Nat, (rowsM.filter (fun row => row.user_id = uid)).length ≤ 1) := by
      rcases analyzeUser_table localTZA (env k) u db with hsame | ⟨-, rows, h0, hnew⟩
      · exact ⟨rows0, hsame.trans htable, hone⟩
      · have hrows : rows = rows0 := Option.some.inj (h0.symm.trans htable)
        subst hrows
        refine ⟨_, hnew, ?_⟩
        intro uid
        by_cases hu : u.id = uid
        · obtain ⟨row, hrow, -⟩ := storeOptimalTimes_self u.id
            (computedOptimalTimes localTZA db u.id) rows (hone u.id)
          rw [← hu, hrow]
          simp
        · rw [storeOptimalTimes_other u.id uid _ rows hu]
          exact hone uid
    obtain ⟨rowsM, hM, honeM⟩ := hstep
    obtain ⟨rows1, h1, hone1, hall⟩ := ih (k + 1) _ rowsM hposts1 hM huk.2 honeM
    refine ⟨rows1, h1, hone1, ?_⟩
    intro i v hv hqv e1 e2 e3
    cases i with
    | zero =>
      have hvu : u = v := by simpa using hv
      subst hvu
      have hwrite := analyzeUser_write localTZA (env k) u db rows0 htable (hq ▸ hqv)
        (by simpa using e1) (by simpa using e2) (by simpa using e3)
      have hrowsM : rowsM
          = storeOptimalTimes u.id (computedOptimalTimes localTZA db u.id) rows0 :=
        Option.some.inj (hM.symm.trans hwrite)
      obtain ⟨row, hrow, hopt⟩ := storeOptimalTimes_self u.id
        (computedOptimalTimes localTZA db u.id) rows0 (hone u.id)
      have hother := analyzeLoop_other localTZA env rest (k + 1)
        (analyzeUser localTZA (env k) u db) u.id
        (fun w hw hid => huk.1 (hid ▸ List.mem_map_of_mem User.id hw))
      rw [h1, hM] at hother
      simp only [Option.map_some', Option.some.injEq] at hother
      refine ⟨row, ?_, hopt.trans (computedOptimalTimes_congr localTZA db db0 u.id hposts)⟩
      rw [hother, hrowsM, hrow]
    | succ j =>
      have hv' : rest[j]? = some v := by simpa using hv
      have hk : k + (j + 1) = k + 1 + j := by omega
      rw [hk] at e1 e2 e3
      exact hall j v hv' hqv e1 e2 e3

theorem analyzeEngagementPatterns_upsert (localTZA : Int) (env : Nat → AnalysisOutcomes)
    (db : Database) (rows0 : List OptimalTimesRow)
    (htable : db.user_optimal_times = some rows0) (huk : (db.users.map User.id).Nodup)
    (hone : ∀ uid : Nat, (rows0.filter (fun row => row.user_id = uid)).length ≤ 1) :
    ∃ rows1, (analyzeEngagementPatterns localTZA env db).user_optimal_times = some rows1
      ∧ (∀ uid : Nat, (rows1.filter (fun row => row.user_id = uid)).length ≤ 1)
      ∧ ∀ (i : Nat) (u : User), db.users[i]? = some u → qualifyingPosts db u.id ≠ [] →
          (env i).selectPosts = true → (env i).selectExisting = true → (env i).write = true →
          ∃ row, rows1.filter (fun row => row.user_id = u.id) = [row]
            ∧ row.optimal_times = computedOptimalTimes localTZA db u.id := by
  obtain ⟨rows1, h1, h2, h3⟩ :=
    analyzeLoop_upsert localTZA env db.users 0 db db rows0 rfl htable huk hone
  refine ⟨rows1, h1, h2, ?_⟩
  intro i u hu hq e1 e2 e3
  exact h3 i u hu hq (by simpa using e1) (by simpa using e2) (by simpa using e3)

/-! ## The selector: the result lies in the future, on a slot of the table -/

theorem skipped_split (now : Int) (slots : List Slot) :
    (∀ x ∈ slots, specSkipped now x)
      ∨ ∃ pre s post, slots = pre ++ s :: post ∧ (∀ x ∈ pre, specSkipped now x)
          ∧ ¬ specSkipped now s := by
  induction slots with
  | nil => exact Or.inl (fun x hx => absurd hx (List.not_mem_nil x))
  | cons a l ih =>
    by_cases ha : specSkipped now a
    · rcases ih with hall | ⟨pre, s, post, hl, hpre, hs⟩
      · refine Or.inl (fun x hx => ?_)
        rcases List.mem_cons.1 hx with h | h
        · exact h ▸ ha
        · exact hall x h
      · refine Or.inr ⟨a :: pre, s, post, by rw [hl]; rfl, fun x hx => ?_, hs⟩
        rcases List.mem_cons.1 hx with h | h
        · exact h ▸ ha
        · exact hpre x h
    · exact Or.inr ⟨[], a, l, rfl, fun x hx => absurd hx (List.not_mem_nil x), ha⟩

theorem selector_value (now : Int) (first : Slot) (rest : List Slot)
    (hrange : ∀ x ∈ first :: rest, SlotInRange x) :
    ∃ s ∈ first :: rest, ∃ daysAhead : Int,
      determineOptimalPostingTime (Lookup.table (first :: rest)) now
          = MakeDate (Day now + daysAhead) (MakeTime s.hour 0 0 0)
        ∧ ((¬ specSkipped now s ∧ daysAhead = specDaysAhead now s)
            ∨ ((∀ x ∈ first :: rest, specSkipped now x) ∧ specDaysAhead now s = 0
                ∧ daysAhead = 7)) := by
  rcases skipped_split now (first :: rest) with hall | ⟨pre, s, post, hl, hpre, hs⟩
  · have hfr : SlotInRange first := hrange first (List.mem_cons_self _ _)
    have hfs : specSkipped now first := hall first (List.mem_cons_self _ _)
    have hfind : findFutureSlot now (first :: rest) = none := by
      have h := findFutureSlot_skip now (first :: rest) [] (fun x hx => (hrange x hx).1) hall
      simpa [findFutureSlot] using h
    refine ⟨first, List.mem_cons_self _ _, 7, ?_, Or.inr ⟨hall, hfs.1, rfl⟩⟩
    have hval : determineOptimalPostingTime (Lookup.table (first :: rest)) now
        = setHours (addDays now
            (if specDaysAhead now first = 0 then 7 else specDaysAhead now first))
            first.hour 0 0 0 := by
      simp only [determineOptimalPostingTime, hfind, tmod_seven_eq first now hfr.1]
    rw [hval, setHours_addDays, if_pos hfs.1]
  · have hmem : s ∈ first :: rest := by rw [hl]; simp
    have hsr : SlotInRange s := hrange s hmem
    have hfind : findFutureSlot now (first :: rest)
        = some (setHours (addDays now (specDaysAhead now s)) s.hour 0 0 0) := by
      rw [hl, findFutureSlot_skip now pre (s :: post)
        (fun x hx => (hrange x (by rw [hl]; exact List.mem_append_left _ hx)).1) hpre]
      exact findFutureSlot_take now s post hsr.1 hs
    refine ⟨s, hmem, specDaysAhead now s, ?_, Or.inl ⟨hs, rfl⟩⟩
    simp only [determineOptimalPostingTime, hfind]
    exact setHours_addDays now (specDaysAhead now s) s.hour

/-- C26. For every slot table whose weekdays are in 0–6 and hours in 0–23, the
empty table included, and every current time, the timestamp that
`determineOptimalPostingTime` returns is strictly later than the current time
and its date is at most 7 days after today; when the table is not empty and
every slot is skipped the date is exactly 7 days after today. -/
theorem determineOptimalPostingTime_future (now : Int) (slots : List Slot)
    (hrange : ∀ x ∈ slots, SlotInRange x) :
    now < determineOptimalPostingTime (Lookup.table slots) now
      ∧ Day now ≤ Day (determineOptimalPostingTime (Lookup.table slots) now)
      ∧ Day (determineOptimalPostingTime (Lookup.table slots) now) ≤ Day now + 7
      ∧ (slots ≠ [] → (∀ x ∈ slots, specSkipped now x) →
          Day (determineOptimalPostingTime (Lookup.table slots) now) = Day now + 7) := by
  cases slots with
  | nil =>
    have hval : determineOptimalPostingTime (Lookup.table []) now = defaultSchedule now := rfl
    rw [hval]
    refine ⟨?_, ?_, ?_, fun h => absurd rfl h⟩
    all_goals
      unfold defaultSchedule
      simp only [getDay]
      unfold WeekDay setHours addDays MakeDate MakeTime Day TimeWithinDay
        msPerDay msPerHour msPerMinute msPerSecond
      split_ifs <;> omega
  | cons first rest =>
    obtain ⟨s, hmem, d, hval, hcase⟩ := selector_value now first rest hrange
    obtain ⟨h0, h6, hh0, hh23⟩ := hrange s hmem
    have hd := specDaysAhead_range now s
    rw [hval]
    rcases hcase with ⟨hs, hd1⟩ | ⟨hall, _, hd7⟩
    · have hlater : specDaysAhead now s = 0 → HourFromTime now < s.hour := fun h0 =>
        not_le.1 (fun hle => hs ⟨h0, hle⟩)
      refine ⟨?_, ?_, ?_, fun _ hall => absurd (hall s hmem) hs⟩
      · rcases lt_or_ge 0 (specDaysAhead now s) with hpos | hzero
        · subst hd1
          unfold MakeDate MakeTime Day msPerDay msPerHour msPerMinute msPerSecond
          omega
        · have hz : specDaysAhead now s = 0 := by omega
          have hl := hlater hz
          subst hd1
          rw [hz]
          unfold HourFromTime at hl
          unfold MakeDate MakeTime Day msPerDay msPerHour msPerMinute msPerSecond at *
          omega
      · subst hd1
        unfold MakeDate MakeTime Day msPerDay msPerHour msPerMinute msPerSecond
        omega
      · subst hd1
        unfold MakeDate MakeTime Day msPerDay msPerHour msPerMinute msPerSecond
        omega
    · subst hd7
      refine ⟨?_, ?_, ?_, fun _ _ => ?_⟩
      all_goals
        unfold MakeDate MakeTime Day msPerDay msPerHour msPerMinute msPerSecond
        omega

theorem determineOptimalPostingTime_future_witness :
    MakeDate 19731 (MakeTime 10 30 0 0)
        < determineOptimalPostingTime (Lookup.table [⟨2, 9, 40⟩, ⟨2, 10, 30⟩])
            (MakeDate 19731 (MakeTime 10 30 0 0))
      ∧ Day (determineOptimalPostingTime (Lookup.table [⟨2, 9, 40⟩, ⟨2, 10, 30⟩])
            (MakeDate 19731 (MakeTime 10 30 0 0)))
          = Day (MakeDate 19731 (MakeTime 10 30 0 0)) + 7 :=
  ⟨(determineOptimalPostingTime_future (MakeDate 19731 (MakeTime 10 30 0 0))
      [⟨2, 9, 40⟩, ⟨2, 10, 30⟩] (by decide)).1,
    (determineOptimalPostingTime_future (MakeDate 19731 (MakeTime 10 30 0 0))
      [⟨2, 9, 40⟩, ⟨2, 10, 30⟩] (by decide)).2.2.2 (by decide) (by decide)⟩

/-- C27. For every non-empty slot table with weekdays in 0–6 and hours in 0–23
and every current time, the timestamp that `determineOptimalPostingTime`
returns lies `daysAhead` days after today (0 to 7) on the weekday and at the
hour of one slot of the table, with minutes, seconds and milliseconds zero:
`(today's weekday + daysAhead) mod 7` is the weekday of that slot. -/
theorem determineOptimalPostingTime_on_slot (now : Int) (first : Slot) (rest : List Slot)
    (hrange : ∀ x ∈ first :: rest, SlotInRange x) :
    ∃ s ∈ first :: rest, ∃ daysAhead : Int,
      0 ≤ daysAhead ∧ daysAhead ≤ 7
        ∧ Day (determineOptimalPostingTime (Lookup.table (first :: rest)) now)
          = Day now + daysAhead
        ∧ (WeekDay now + daysAhead) % 7 = s.day
        ∧ WeekDay (determineOptimalPostingTime (Lookup.table (first :: rest)) now) = s.day
        ∧ HourFromTime (determineOptimalPostingTime (Lookup.table (first :: rest)) now) = s.hour
        ∧ MinFromTime (determineOptimalPostingTime (Lookup.table (first :: rest)) now) = 0
        ∧ SecFromTime (determineOptimalPostingTime (Lookup.table (first :: rest)) now) = 0
        ∧ msFromTime (determineOptimalPostingTime (Lookup.table (first :: rest)) now) = 0 := by
  obtain ⟨s, hmem, d, hval, hcase⟩ := selector_value now first rest hrange
  obtain ⟨h0, h6, hh0, hh23⟩ := hrange s hmem
  have hd := specDaysAhead_range now s
  have hw := weekDay_range now
  refine ⟨s, hmem, d, ?_⟩
  rw [hval]
  have hdd : (d = specDaysAhead now s) ∨ (specDaysAhead now s = 0 ∧ d = 7) := by
    rcases hcase with ⟨_, h⟩ | ⟨_, h, h7⟩
    · exact Or.inl h
    · exact Or.inr ⟨h, h7⟩
  unfold specDaysAhead at hdd hd
  unfold WeekDay at hdd hd hw
  unfold WeekDay HourFromTime MinFromTime SecFromTime msFromTime MakeDate MakeTime Day
  unfold Day at hdd hd hw
  unfold msPerDay msPerHour msPerMinute msPerSecond at *
  refine ⟨?_, ?_, ?_, ?_, ?_, ?_, ?_, ?_, ?_⟩ <;> omega

theorem determineOptimalPostingTime_on_slot_witness :
    ∃ s ∈ [(⟨2, 9, 40⟩ : Slot), ⟨4, 10, 30⟩], ∃ daysAhead : Int,
      0 ≤ daysAhead ∧ daysAhead ≤ 7
        ∧ Day (determineOptimalPostingTime (Lookup.table [⟨2, 9, 40⟩, ⟨4, 10, 30⟩])
              (MakeDate 19731 (MakeTime 10 30 0 0)))
          = Day (MakeDate 19731 (MakeTime 10 30 0 0)) + daysAhead
        ∧ (WeekDay (MakeDate 19731 (MakeTime 10 30 0 0)) + daysAhead) % 7 = s.day
        ∧ WeekDay (determineOptimalPostingTime (Lookup.table [⟨2, 9, 40⟩, ⟨4, 10, 30⟩])
              (MakeDate 19731 (MakeTime 10 30 0 0))) = s.day
        ∧ HourFromTime (determineOptimalPostingTime (Lookup.table [⟨2, 9, 40⟩, ⟨4, 10, 30⟩])
              (MakeDate 19731 (MakeTime 10 30 0 0))) = s.hour
        ∧ MinFromTime (determineOptimalPostingTime (Lookup.table [⟨2, 9, 40⟩, ⟨4, 10, 30⟩])
              (MakeDate 19731 (MakeTime 10 30 0 0))) = 0
        ∧ SecFromTime (determineOptimalPostingTime (Lookup.table [⟨2, 9, 40⟩, ⟨4, 10, 30⟩])
              (MakeDate 19731 (MakeTime 10 30 0 0))) = 0
        ∧ msFromTime (determineOptimalPostingTime (Lookup.table [⟨2, 9, 40⟩, ⟨4, 10, 30⟩])
              (MakeDate 19731 (MakeTime 10 30 0 0))) = 0 :=
  determineOptimalPostingTime_on_slot (MakeDate 19731 (MakeTime 10 30 0 0)) ⟨2, 9, 40⟩
    [⟨4, 10, 30⟩] (by decide)

/-! ## The due-post sweep: one credential snapshot for each due record -/

theorem dueRows_same_user (now : Int) (db : Database) (huk : (db.users.map User.id).Nodup)
    (a b : DueRow) (ha : a ∈ dueRows now db) (hb : b ∈ dueRows now db)
    (hsame : a.post.user_id = b.post.user_id) :
    b.linkedin_token = a.linkedin_token ∧ b.linkedin_refresh_token = a.linkedin_refresh_token
      ∧ b.linkedin_expires_at = a.linkedin_expires_at := by
  obtain ⟨-, -, u, hu, huid, hrowa⟩ := (mem_dueRows now db a).mp ha
  obtain ⟨-, -, v, hv, hvid, hrowb⟩ := (mem_dueRows now db b).mp hb
  have huv : u = v :=
    List.inj_on_of_nodup_map huk hu hv (by rw [huid, hvid, hsame])
  subst huv
  rw [hrowa, hrowb]
  exact ⟨rfl, rfl, rfl⟩

theorem sweepUpTo_refresh_step (env : Nat → Outcomes) (now : Int) (db : Database)
    (i : Nat) (r : DueRow) (hr : (dueRows now db)[i]? = some r)
    (tok rt : String) (e : Int) (nt : RefreshResponse)
    (htok : r.linkedin_token = some tok) (hne : tok ≠ "")
    (hexp : r.linkedin_expires_at = some e) (hpast : e < (env i).dateNow)
    (hrt : r.linkedin_refresh_token = some rt) (hrne : rt ≠ "")
    (href : (env i).refreshAccessToken = some nt) (hstore : (env i).updateUsers = true) :
    (sweepUpTo env now db (i + 1)).trace
      = (sweepUpTo env now db i).trace
          ++ [Event.refreshAccessToken r.post.id rt true,
              Event.createPost r.post.id nt.access_token r.post.content (env i).createPost] := by
  have hstep := sweepUpTo_succ env now db i r hr
  have hacq := acquireToken_refreshed (env i) r (sweepUpTo env now db i) tok rt nt
    (truthy_some _ _ htok hne) (by rw [hexp]; simpa only [toNumber] using hpast)
    (truthy_some _ _ hrt hrne) href hstore
  have hproc : processPost (env i) r (sweepUpTo env now db i)
      = publishPost (env i) r nt.access_token
          { db := { (sweepUpTo env now db i).db with
              users := updateUserTokens r.post.user_id nt (env i).dateNowStore
                (sweepUpTo env now db i).db.users }
            trace := (sweepUpTo env now db i).trace
              ++ [Event.refreshAccessToken r.post.id rt true] } := by
    unfold processPost
    rw [hacq]
  rw [hstep, hproc, publishPost_trace, List.append_assoc]
  rfl

/-- C22, as the code behaves.  User 2 of `sampleBatchDb` has an expired
credential with refresh token `refB` and two due posts.  The first record
triggers a refresh that succeeds and stores `tokB2`/`refB2`; the second record
triggers the refresh operation again, with the old refresh token `refB`, and is
published with the token `tokB3` of that second refresh. -/
theorem checkScheduledPosts_second_record_refreshes_again :
    (sweepUpTo sampleBatchEnv 1000 sampleBatchDb 1).db.users
        = [⟨2, some "tokB2", some "refB2", some 3601001⟩]
      ∧ (checkScheduledPosts sampleBatchEnv 1000 sampleBatchDb).trace
        = [Event.refreshAccessToken 16 "refB" true, Event.createPost 16 "tokB2" "c16" true,
           Event.refreshAccessToken 17 "refB" true, Event.createPost 17 "tokB3" "c17" true] := by
  decide

/-- C22, amended.  The credential of each due record is the one that the
query of the sweep read, it is not read again: two due records of one user
carry the same access token, refresh token and expiry.  So when the refresh
triggered by a user's first due record succeeds, a later due record of that
user still sees the expired credential: the refresh operation is called again
for it, with the old refresh token, and when that call returns and the store
accepts the write the record is published with the access token that this
latest refresh returned. -/
theorem checkScheduledPosts_refresh_per_record (env : Nat → Outcomes) (now : Int)
    (db : Database) (huk : (db.users.map User.id).Nodup) (i j : Nat) (ri rj : DueRow)
    (hri : (dueRows now db)[i]? = some ri) (hrj : (dueRows now db)[j]? = some rj)
    (hsame : ri.post.user_id = rj.post.user_id)
    (tok rt : String) (e : Int) (nti ntj : RefreshResponse)
    (htok : ri.linkedin_token = some tok) (hne : tok ≠ "")
    (hexp : ri.linkedin_expires_at = some e) (hpast : e < (env i).dateNow)
    (hrt : ri.linkedin_refresh_token = some rt) (hrne : rt ≠ "")
    (hrefi : (env i).refreshAccessToken = some nti) (hstorei : (env i).updateUsers = true)
    (hclock : (env i).dateNow ≤ (env j).dateNow)
    (hrefj : (env j).refreshAccessToken = some ntj) (hstorej : (env j).updateUsers = true) :
    (rj.linkedin_token = some tok ∧ rj.linkedin_refresh_token = some rt
        ∧ rj.linkedin_expires_at = some e)
      ∧ (sweepUpTo env now db (i + 1)).trace
          = (sweepUpTo env now db i).trace
              ++ [Event.refreshAccessToken ri.post.id rt true,
                  Event.createPost ri.post.id nti.access_token ri.post.content
                    (env i).createPost]
      ∧ (sweepUpTo env now db (j + 1)).trace
          = (sweepUpTo env now db j).trace
              ++ [Event.refreshAccessToken rj.post.id rt true,
                  Event.createPost rj.post.id ntj.access_token rj.post.content
                    (env j).createPost] := by
  obtain ⟨h1, h2, h3⟩ := dueRows_same_user now db huk ri rj (List.getElem?_mem hri)
    (List.getElem?_mem hrj) hsame
  rw [htok] at h1
  rw [hrt] at h2
  rw [hexp] at h3
  exact ⟨⟨h1, h2, h3⟩,
    sweepUpTo_refresh_step env now db i ri hri tok rt e nti htok hne hexp hpast hrt hrne hrefi
      hstorei,
    sweepUpTo_refresh_step env now db j rj hrj tok rt e ntj h1 hne h3 (by omega) h2 hrne hrefj
      hstorej⟩

theorem checkScheduledPosts_refresh_per_record_witness :
    (sweepUpTo sampleBatchEnv 1000 sampleBatchDb 2).trace
      = (sweepUpTo sampleBatchEnv 1000 sampleBatchDb 1).trace
          ++ [Event.refreshAccessToken 17 "refB" true,
              Event.createPost 17 "tokB3" "c17" (sampleBatchEnv 1).createPost] :=
  (checkScheduledPosts_refresh_per_record sampleBatchEnv 1000 sampleBatchDb (by decide) 0 1
    ⟨⟨16, 2, "t16", "c16", some 40, some "scheduled", false, none, false, none, none⟩,
      some "tokB", some "refB", some 100⟩
    ⟨⟨17, 2, "t17", "c17", some 45, some "scheduled", false, none, false, none, none⟩,
      some "tokB", some "refB", some 100⟩
    (by decide) (by decide) rfl "tokB" "refB" 100 ⟨"tokB2", some "refB2", 3600⟩
    ⟨"tokB3", some "refB3", 3600⟩ rfl (by decide) rfl (by decide) rfl (by decide) rfl rfl
    (by decide) rfl rfl).2.2

/-! ## The due-post sweep: the status update -/

/-- C23, as the code behaves.  Post 10 of `sampleDb` is in the due list read
at time 1000; its owner then moves it back to `draft`; when the loop reaches
the record it is published on the platform and its status is set to
`published`. -/
theorem processPost_publishes_withdrawn_record :
    (dueRows 1000 sampleDb)[2]?
        = some ⟨⟨10, 1, "t10", "c10", some 50, some "scheduled", false, none, false, none, none⟩,
            some "tokA", none, some 5000⟩
      ∧ sampleWithdrawnDb.posts[0]?
        = some ⟨10, 1, "t10", "c10", some 50, some "draft", false, none, false, none, none⟩
      ∧ (processPost (sampleEnv 2)
            ⟨⟨10, 1, "t10", "c10", some 50, some "scheduled", false, none, false, none, none⟩,
              some "tokA", none, some 5000⟩
            ⟨sampleWithdrawnDb, []⟩).db.posts[0]?
        = some ⟨10, 1, "t10", "c10", some 50, some "published", false, none, false, none, none⟩
      ∧ (processPost (sampleEnv 2)
            ⟨⟨10, 1, "t10", "c10", some 50, some "scheduled", false, none, false, none, none⟩,
              some "tokA", none, some 5000⟩
            ⟨sampleWithdrawnDb, []⟩).trace
        = [Event.createPost 10 "tokA" "c10" true] := by
  decide

/-- C23, amended.  The status update of the due-post sweep is unconditional:
when the loop body handles a record of the due list with a usable credential
and `createPost` and the store write succeed, every record of the store that
has the id of the handled record ends with status `published`, whatever its
status at the moment of the update, and nothing else of the table changes. -/
theorem processPost_unconditional_update (o : Outcomes) (r : DueRow) (st : SweepState)
    (h : CredentialUsable o r) (hcreate : o.createPost = true) (hstore : o.updatePosts = true) :
    (processPost o r st).db.posts
        = st.db.posts.map
            (fun p => if p.id = r.post.id then { p with status := some "published" } else p)
      ∧ (∀ p ∈ st.db.posts, p.id = r.post.id →
          ({ p with status := some "published" } : Post) ∈ (processPost o r st).db.posts)
      ∧ ∀ q ∈ (processPost o r st).db.posts, q.id = r.post.id →
          q.status = some "published" := by
  have hposts := processPost_posts_of_success o r st h hcreate hstore
  rw [hposts]
  refine ⟨rfl, ?_, ?_⟩
  · intro p hp hid
    unfold markPublished
    exact List.mem_map.2 ⟨p, hp, by rw [if_pos hid]⟩
  · intro q hq hid
    unfold markPublished at hq
    obtain ⟨p, -, hpq⟩ := List.mem_map.1 hq
    by_cases hp : p.id = r.post.id
    · rw [if_pos hp] at hpq
      rw [← hpq]
    · rw [if_neg hp] at hpq
      rw [← hpq] at hid
      exact absurd hid hp

theorem processPost_unconditional_update_witness :
    (⟨10, 1, "t10", "c10", some 50, some "published", false, none, false, none, none⟩ : Post)
      ∈ (processPost (sampleEnv 2)
          ⟨⟨10, 1, "t10", "c10", some 50, some "scheduled", false, none, false, none, none⟩,
            some "tokA", none, some 5000⟩
          ⟨sampleWithdrawnDb, []⟩).db.posts :=
  (processPost_unconditional_update (sampleEnv 2)
    ⟨⟨10, 1, "t10", "c10", some 50, some "scheduled", false, none, false, none, none⟩,
      some "tokA", none, some 5000⟩
    ⟨sampleWithdrawnDb, []⟩ (by decide) rfl rfl).2.1
    ⟨10, 1, "t10", "c10", some 50, some "draft", false, none, false, none, none⟩
    (by decide) rfl

/-! ## The due-post sweep: the expiry test -/

/-- C25, as the code behaves.  At clock 100 the credentials of users 2 and 4
of `sampleDb` have an expiry equal to the clock.  The sweep calls no refresh
for user 2, who has a refresh token, and does not skip the record of user 4,
who has none: both records are published with the stored access token. -/
theorem checkScheduledPosts_expiry_now_is_live :
    (dueRows 1000 sampleDb)[1]?
        = some ⟨⟨11, 2, "t11", "c11", some 40, some "scheduled", false, none, false, none, none⟩,
            some "tokB", some "refB", some 100⟩
      ∧ (dueRows 1000 sampleDb)[3]?
        = some ⟨⟨14, 4, "t14", "c14", some 60, some "scheduled", false, none, false, none, none⟩,
            some "tokD", none, some 100⟩
      ∧ (sampleBoundaryEnv 1).dateNow = 100 ∧ (sampleBoundaryEnv 3).dateNow = 100
      ∧ (checkScheduledPosts sampleBoundaryEnv 1000 sampleDb).trace
        = [Event.createPost 11 "tokB" "c11" true, Event.createPost 10 "tokA" "c10" true,
           Event.createPost 14 "tokD" "c14" true, Event.createPost 15 "tokA" "c15" false]
      ∧ (checkScheduledPosts sampleBoundaryEnv 1000 sampleDb).db.users = sampleDb.users := by
  decide

/-- C25, amended.  The sweep treats a credential as expired only when its
expiry is strictly earlier than the clock (`expiresAt < Date.now()`).  For a
due record whose owner's credential has an access token and an expiry equal to
the clock, handling the record makes exactly one external call, `createPost`
with the stored access token: no refresh is attempted and the record is not
skipped, whether or not a refresh token exists; table `users` is unchanged. -/
theorem checkScheduledPosts_expiry_boundary (env : Nat → Outcomes) (now : Int) (db : Database)
    (i : Nat) (r : DueRow) (hr : (dueRows now db)[i]? = some r)
    (tok : String) (e : Int) (htok : r.linkedin_token = some tok) (hne : tok ≠ "")
    (hexp : r.linkedin_expires_at = some e) (hnow : e = (env i).dateNow) :
    (sweepUpTo env now db (i + 1)).trace
        = (sweepUpTo env now db i).trace
            ++ [Event.createPost r.post.id tok r.post.content (env i).createPost]
      ∧ (sweepUpTo env now db (i + 1)).db.users = (sweepUpTo env now db i).db.users := by
  have hstep := sweepUpTo_succ env now db i r hr
  have hacq := acquireToken_live (env i) r (sweepUpTo env now db i) tok
    (truthy_some _ _ htok hne) (by rw [hexp]; simp only [toNumber]; omega)
  have hproc : processPost (env i) r (sweepUpTo env now db i)
      = publishPost (env i) r tok (sweepUpTo env now db i) := by
    unfold processPost
    rw [hacq]
  refine ⟨?_, ?_⟩
  · rw [hstep, hproc, publishPost_trace]
  · rw [hstep, hproc, publishPost_users]

theorem checkScheduledPosts_expiry_boundary_witness :
    (sweepUpTo sampleBoundaryEnv 1000 sampleDb 2).trace
        = (sweepUpTo sampleBoundaryEnv 1000 sampleDb 1).trace
            ++ [Event.createPost 11 "tokB" "c11" (sampleBoundaryEnv 1).createPost]
      ∧ (sweepUpTo sampleBoundaryEnv 1000 sampleDb 2).db.users
        = (sweepUpTo sampleBoundaryEnv 1000 sampleDb 1).db.users :=
  checkScheduledPosts_expiry_boundary sampleBoundaryEnv 1000 sampleDb 1
    ⟨⟨11, 2, "t11", "c11", some 40, some "scheduled", false, none, false, none, none⟩,
      some "tokB", some "refB", some 100⟩
    (by decide) "tokB" 100 rfl (by decide) rfl rfl

/-! ## The due-post sweep: what it leaves alone -/

/-- C30. Whatever the store holds (ids of `posts` being a primary key) and
whatever the external calls and store writes do, `checkScheduledPosts` keeps
the number and the positions of the rows of `posts` (nothing is inserted or
deleted), changes no field of any record other than `status`, and leaves
unchanged every record that is not due: status other than `scheduled`, or no
scheduled timestamp, or a scheduled timestamp later than `now`. -/
theorem checkScheduledPosts_frame (env : Nat → Outcomes) (now : Int) (db : Database)
    (hpk : (db.posts.map Post.id).Nodup) :
    (checkScheduledPosts env now db).db.posts.length = db.posts.length
      ∧ ∀ (j : Nat) (p : Post), db.posts[j]? = some p →
          ∃ q, (checkScheduledPosts env now db).db.posts[j]? = some q
            ∧ q = { p with status := q.status }
            ∧ ((p.status ≠ some "scheduled" ∨ p.scheduled_date = none
                  ∨ ∃ d, p.scheduled_date = some d ∧ now < d) → q = p) := by
  obtain ⟨ids, evs, hposts, -, hids, -⟩ := sweep_effect env (dueRows now db) 0 ⟨db, []⟩
  unfold checkScheduledPosts
  rw [hposts]
  refine ⟨by simp, ?_⟩
  intro j p hp
  simp only [List.getElem?_map, hp, Option.map_some']
  refine ⟨_, rfl, ?_, ?_⟩
  · by_cases hmem : p.id ∈ ids <;> simp [hmem]
  · intro hnot
    have hnd : ¬ isDue now p = true := by
      intro hdue
      obtain ⟨hst, d, hd, hle⟩ := (isDue_iff now p).mp hdue
      rcases hnot with h | h | ⟨d1, hd1, hlt⟩
      · exact h hst
      · rw [hd] at h
        exact Option.noConfusion h
      · rw [hd] at hd1
        have : d = d1 := Option.some.inj hd1
        omega
    have hmem : p.id ∉ ids := by
      intro hin
      obtain ⟨⟨r, hr, hrid⟩, -⟩ := hids p.id hin
      obtain ⟨hrp, hrdue, -⟩ := (mem_dueRows now db r).mp hr
      have : r.post = p := List.inj_on_of_nodup_map hpk hrp (List.getElem?_mem hp) hrid
      rw [this] at hrdue
      exact hnd hrdue
    rw [if_neg hmem]

theorem checkScheduledPosts_frame_witness :
    (checkScheduledPosts sampleEnv 1000 sampleDb).db.posts.length = sampleDb.posts.length
      ∧ (checkScheduledPosts sampleEnv 1000 sampleDb).db.posts[3]?
        = some ⟨13, 1, "t13", "c13", some 5000, some "scheduled", false, none, false, none,
            none⟩ := by
  obtain ⟨hlen, hrows⟩ := checkScheduledPosts_frame sampleEnv 1000 sampleDb (by decide)
  obtain ⟨q, hq, -, h⟩ := hrows 3
    ⟨13, 1, "t13", "c13", some 5000, some "scheduled", false, none, false, none, none⟩
    (by decide)
  refine ⟨hlen, ?_⟩
  rw [hq, h (Or.inr (Or.inr ⟨5000, rfl, by decide⟩))]

/-! ## The analyzer: a store without table `user_optimal_times` -/

theorem analyzeUser_missing_table (localTZA : Int) (o : AnalysisOutcomes) (user : User)
    (db : Database) (h : db.user_optimal_times = none) : analyzeUser localTZA o user db = db := by
  unfold analyzeUser
  rw [h]
  split_ifs <;> rfl

theorem analyzeLoop_missing_table (localTZA : Int) (env : Nat → AnalysisOutcomes)
    (users : List User) (k : Nat) (db : Database) (h : db.user_optimal_times = none) :
    analyzeLoop localTZA env k users db = db := by
  induction users generalizing k with
  | nil => rfl
  | cons u rest ih =>
    show analyzeLoop localTZA env (k + 1) rest (analyzeUser localTZA (env k) u db) = db
    rw [analyzeUser_missing_table localTZA (env k) u db h]
    exact ih (k + 1)

/-- C21, as the code behaves.  In `sampleFreshDb` table `user_optimal_times`
does not exist and user 1 has published posts with scores, from which three
slots are computed.  Whatever the store answers and in every time zone,
`analyzeEngagementPatterns` leaves the store as it found it: the table is not
created and no slot table is stored, so the lookup of the selector still
raises. -/
theorem analyzeEngagementPatterns_never_creates_table :
    sampleFreshDb.user_optimal_times = none
      ∧ (qualifyingPosts sampleFreshDb 1).map Post.id = [30, 31, 32, 33, 34, 35]
      ∧ (computedOptimalTimes 0 sampleFreshDb 1).length = 3
      ∧ ∀ (localTZA : Int) (env : Nat → AnalysisOutcomes),
          analyzeEngagementPatterns localTZA env sampleFreshDb = sampleFreshDb
            ∧ lookupOptimalTimes (analyzeEngagementPatterns localTZA env sampleFreshDb) 1
              = Lookup.raised := by
  refine ⟨rfl, by decide, by decide!, fun localTZA env => ?_⟩
  have h : analyzeEngagementPatterns localTZA env sampleFreshDb = sampleFreshDb :=
    analyzeLoop_missing_table localTZA env sampleFreshDb.users 0 sampleFreshDb rfl
  rw [h]
  exact ⟨rfl, rfl⟩

/-! ## The analyzer: when the written table is empty -/

theorem recordEngagement_ne_nil (day hour score : Int) (acc : List Bucket) :
    recordEngagement day hour score acc ≠ [] := by
  cases acc with
  | nil => simp [recordEngagement]
  | cons b rest =>
    unfold recordEngagement
    split_ifs <;> simp

theorem engagementByDayAndHour_eq_nil (localTZA : Int) (posts : List Post) (acc : List Bucket) :
    engagementByDayAndHour localTZA posts acc = []
      ↔ acc = [] ∧ ∀ p ∈ posts, p.scheduled_date = none ∨ truthy p.engagement = none := by
  induction posts generalizing acc with
  | nil => simp [engagementByDayAndHour]
  | cons p rest ih =>
    rcases Option.eq_none_or_eq_some p.scheduled_date with hd | ⟨date, hd⟩
    · have hstep : engagementByDayAndHour localTZA (p :: rest) acc
          = engagementByDayAndHour localTZA rest acc := by
        simp only [engagementByDayAndHour, hd]
      rw [hstep, ih]
      simp [hd]
    · rcases Option.eq_none_or_eq_some (truthy p.engagement) with he | ⟨eng, he⟩
      · have hstep : engagementByDayAndHour localTZA (p :: rest) acc
            = engagementByDayAndHour localTZA rest acc := by
          simp only [engagementByDayAndHour, hd, he]
        rw [hstep, ih]
        simp [he]
      · have hstep : engagementByDayAndHour localTZA (p :: rest) acc
            = engagementByDayAndHour localTZA rest
                (recordEngagement (getDay (LocalTime localTZA date))
                  (getHours (LocalTime localTZA date)) (engagementValue eng) acc) := by
          simp only [engagementByDayAndHour, hd, he]
        rw [hstep, ih]
        constructor
        · intro h
          exact absurd h.1 (recordEngagement_ne_nil _ _ _ acc)
        · intro h
          have := h.2 p (List.mem_cons_self _ _)
          simp [hd, he] at this

theorem optimalTimesOf_eq_nil (buckets : List Bucket) :
    optimalTimesOf buckets = [] ↔ buckets = [] := by
  unfold optimalTimesOf rankedBuckets
  constructor
  · intro h
    have hlen := congrArg List.length h
    simp only [List.length_map, List.length_take, List.length_insertionSort,
      List.length_nil] at hlen
    exact List.length_eq_zero.1 (by omega)
  · intro h
    subst h
    rfl

/-- C29, as the code behaves.  The only published, scored post of user 1 of
`sampleUndatedDb` has no scheduled date, and user 1 has a stored table with one
slot.  `analyzeEngagementPatterns` replaces the stored table by the empty
list. -/
theorem analyzeEngagementPatterns_writes_empty_table :
    (qualifyingPosts sampleUndatedDb 1).map Post.id = [34]
      ∧ lookupOptimalTimes sampleUndatedDb 1 = Lookup.table [⟨1, 8, 3⟩]
      ∧ (analyzeEngagementPatterns 0 sampleAnalysisEnv sampleUndatedDb).user_optimal_times
        = some [⟨1, 1, []⟩]
      ∧ lookupOptimalTimes (analyzeEngagementPatterns 0 sampleAnalysisEnv sampleUndatedDb) 1
        = Lookup.table [] := by
  decide

/-- C29, amended.  The slot list that `analyzeEngagementPatterns` computes for
a user is empty exactly when none of the user's published posts with a non-null
engagement has both a scheduled date and a non-empty engagement text (such
posts are skipped by the grouping loop); with at least one post that has both,
the list holds at least one slot.  Every row of the slot tables after a run is
a row from before the run or holds the list computed for its user, so a user
whose published, scored posts all lack a scheduled date gets the empty list
written over the stored table. -/
theorem analyzeEngagementPatterns_empty_table (localTZA : Int) (db : Database) (userId : Nat) :
    (computedOptimalTimes localTZA db userId = []
        ↔ ∀ p ∈ qualifyingPosts db userId, p.scheduled_date = none ∨ truthy p.engagement = none)
      ∧ (computedOptimalTimes localTZA db userId ≠ []
        ↔ ∃ p ∈ qualifyingPosts db userId, p.scheduled_date ≠ none ∧ truthy p.engagement ≠ none)
      ∧ ∀ (env : Nat → AnalysisOutcomes) (rows1 : List OptimalTimesRow),
          (analyzeEngagementPatterns localTZA env db).user_optimal_times = some rows1 →
          ∃ rows0, db.user_optimal_times = some rows0
            ∧ ∀ row ∈ rows1, row ∈ rows0
                ∨ ∃ u ∈ db.users, row.user_id = u.id
                    ∧ row.optimal_times = computedOptimalTimes localTZA db u.id := by
  have hiff : computedOptimalTimes localTZA db userId = []
      ↔ ∀ p ∈ qualifyingPosts db userId,
          p.scheduled_date = none ∨ truthy p.engagement = none := by
    unfold computedOptimalTimes
    rw [optimalTimesOf_eq_nil, engagementByDayAndHour_eq_nil]
    simp
  refine ⟨hiff, ?_, ?_⟩
  · rw [Ne, hiff]
    constructor
    · intro h
      by_contra hno
      apply h
      intro p hp
      by_contra hboth
      exact hno ⟨p, hp, fun h1 => hboth (Or.inl h1), fun h2 => hboth (Or.inr h2)⟩
    · rintro ⟨p, hp, h1, h2⟩ hall
      rcases hall p hp with h | h
      · exact h1 h
      · exact h2 h
  · intro env rows1 h
    exact analyzeLoop_rows localTZA env db.users 0 db rows1 h

/-! ## The two eligibility checks of evergreen recycling -/

/-- C24. The eligibility check of the route `POST /recycle-evergreen` and the
eligibility query of `recycleEvergreenContent` differ.  In every time zone,
post 25 of `sampleRecycleDb` (published, evergreen, weekly, stamped by
`toISOString()` 7 days and 1 hour before `sampleNow`) is eligible for the route
and not for the scheduler at `sampleNow`.  In a zone 5 hours behind UTC, a
weekly record stamped by SQLite exactly 7 days before `sampleNow` is eligible
for the scheduler and not for the route. -/
theorem recycle_eligibility_differs :
    (∀ localTZA : Int, ∃ (p : Post) (now : Int),
        p ∈ routeEvergreenPosts sampleRecycleDb p.user_id
          ∧ p ∈ sampleRecycleDb.posts ∧ p.is_evergreen = true ∧ p.status = some "published"
          ∧ shouldRecycle localTZA now p = true ∧ isRecyclable now p = false)
      ∧ ∃ (localTZA : Int) (p : Post) (now : Int),
          p.is_evergreen = true ∧ p.status = some "published"
            ∧ shouldRecycle localTZA now p = false ∧ isRecyclable now p = true := by
  refine ⟨fun localTZA =>
      ⟨⟨25, 1, "t25", "c25", some 0, some "published", false, none, true, some "weekly",
          some (Stamp.iso (19723 * 86400000 + 39600000))⟩, sampleNow,
        by decide, by decide, rfl, rfl,
        by simp [shouldRecycle, Stamp.toInstant, sampleNow], by decide⟩,
    ⟨-18000000,
      ⟨40, 1, "t40", "c40", some 0, some "published", false, none, true, some "weekly",
        some (Stamp.sqlite (19723 * 86400 + 43200))⟩, sampleNow, rfl, rfl, by decide,
      by decide⟩⟩

/-! ## The evergreen sweep: a second run at the same time -/

theorem isRecyclable_just_stamped (now : Int) (q : Post)
    (h : q.last_recycled = some (Stamp.sqlite (now / 1000))) : isRecyclable now q = false := by
  unfold isRecyclable
  rw [h]
  have h7 : ¬ (now / 1000 ≤ now / 1000 - 7 * 86400) := by omega
  have h14 : ¬ (now / 1000 ≤ now / 1000 - 14 * 86400) := by omega
  have h30 : ¬ (now / 1000 ≤ now / 1000 - 30 * 86400) := by omega
  simp [Stamp.textLE, datetimeNow, h7, h14, h30]

theorem isRecyclable_scheduled (now : Int) (q : Post) (h : q.status = some "scheduled") :
    isRecyclable now q = false := by
  unfold isRecyclable
  rw [h]
  simp

/-- After a loop in which every store statement resolves and the clock of
SQLite stays within one second, each record of table `posts` is a record from
before the loop whose id was not handled, or carries the stamp of that second,
or has status `scheduled`. -/
theorem recycleLoop_settled (localTZA : Int) (env : Nat → RecycleOutcomes) (rows : List Post)
    (k : Nat) (db : Database) (sec : Int) (hJ : ∀ r ∈ rows, r.id ∈ db.posts.map Post.id)
    (hok : ∀ i, (env i).insertPost = true ∧ (env i).updatePost = true)
    (hclock : ∀ i, (env i).sqliteNow / 1000 = sec) :
    ∀ q ∈ (recycleLoop localTZA env k rows db).posts,
      (q ∈ db.posts ∧ ∀ r ∈ rows, r.id ≠ q.id)
        ∨ q.last_recycled = some (Stamp.sqlite sec) ∨ q.status = some "scheduled" := by
  induction rows generalizing k db with
  | nil =>
    intro q hq
    exact Or.inl ⟨hq, fun r hr => absurd hr (List.not_mem_nil r)⟩
  | cons r rest ih =>
    have hr : r.id ∈ db.posts.map Post.id := hJ r (List.mem_cons_self _ _)
    have hJ1 : ∀ x ∈ rest, x.id ∈ (recyclePost localTZA (env k) r db).posts.map Post.id :=
      fun x hx => recyclePost_ids_subset localTZA (env k) r db hr _
        (hJ x (List.mem_cons_of_mem _ hx))
    intro q hq
    have hq1 : q ∈ (recycleLoop localTZA env (k + 1) rest
        (recyclePost localTZA (env k) r db)).posts := hq
    rcases ih (k + 1) _ hJ1 q hq1 with ⟨hmem, hrest⟩ | h | h
    · rw [recyclePost_posts localTZA (env k) r db hr, if_pos (hok k).1, if_pos (hok k).2,
        hclock k] at hmem
      rcases List.mem_append.1 hmem with hm | hm
      · unfold stampRecycled at hm
        obtain ⟨p, hp, hpq⟩ := List.mem_map.1 hm
        by_cases hid : p.id = r.id
        · rw [if_pos hid] at hpq
          right; left
          rw [← hpq]
        · rw [if_neg hid] at hpq
          subst hpq
          left
          refine ⟨hp, fun x hx => ?_⟩
          rcases List.mem_cons.1 hx with hxr | hxr
          · rw [hxr]
            exact fun h => hid h.symm
          · exact hrest x hxr
      · right; right
        rw [List.mem_singleton.1 hm]
        rfl
    · exact Or.inr (Or.inl h)
    · exact Or.inr (Or.inr h)

/-- C28. When `recycleEvergreenContent` has run at time `now` with every store
statement resolving and the clock of SQLite still showing the second of `now`
at each stamp, no record is eligible at `now` any more: each record of table
`posts` is a record that was not eligible before, or carries
`last_recycled = now`, or has status `scheduled` (the copies).  So a second run
at the same time handles no record, inserts no copy and leaves the store as
it is, whatever the store answers. -/
theorem recycleEvergreenContent_second_run (localTZA : Int)
    (env env2 : Nat → RecycleOutcomes) (now : Int) (db : Database)
    (hok : ∀ i, (env i).insertPost = true ∧ (env i).updatePost = true)
    (hclock : ∀ i, (env i).sqliteNow / 1000 = now / 1000) :
    (∀ q ∈ (recycleEvergreenContent localTZA env now db).posts,
        (q ∈ db.posts ∧ isRecyclable now q = false)
          ∨ q.last_recycled = some (Stamp.sqlite (now / 1000))
          ∨ q.status = some "scheduled")
      ∧ evergreenPosts now (recycleEvergreenContent localTZA env now db) = []
      ∧ recycleEvergreenContent localTZA env2 now (recycleEvergreenContent localTZA env now db)
        = recycleEvergreenContent localTZA env now db := by
  have hJ : ∀ r ∈ evergreenPosts now db, r.id ∈ db.posts.map Post.id :=
    evergreenPosts_ids now db (evergreenPosts now db) (fun r hr => hr)
  have hsettled : ∀ q ∈ (recycleEvergreenContent localTZA env now db).posts,
      (q ∈ db.posts ∧ isRecyclable now q = false)
        ∨ q.last_recycled = some (Stamp.sqlite (now / 1000))
        ∨ q.status = some "scheduled" := by
    intro q hq
    rcases recycleLoop_settled localTZA env (evergreenPosts now db) 0 db (now / 1000) hJ hok
      hclock q hq with ⟨hmem, hno⟩ | h | h
    · refine Or.inl ⟨hmem, ?_⟩
      by_contra hrec
      have hsel : q ∈ evergreenPosts now db :=
        (mem_evergreenPosts now db q).2 ⟨hmem, by simpa using hrec⟩
      exact hno q hsel rfl
    · exact Or.inr (Or.inl h)
    · exact Or.inr (Or.inr h)
  have hnone : evergreenPosts now (recycleEvergreenContent localTZA env now db) = [] := by
    unfold evergreenPosts
    rw [List.filter_eq_nil_iff]
    intro q hq
    rcases hsettled q hq with ⟨-, h⟩ | h | h
    · simp [h]
    · simp [isRecyclable_just_stamped now q h]
    · simp [isRecyclable_scheduled now q h]
  refine ⟨hsettled, hnone, ?_⟩
  show recycleLoop localTZA env2 0
      (evergreenPosts now (recycleEvergreenContent localTZA env now db))
      (recycleEvergreenContent localTZA env now db) = _
  rw [hnone]
  rfl

theorem recycleEvergreenContent_second_run_witness :
    evergreenPosts sampleNow
        (recycleEvergreenContent 3600000 sampleRecycleEnv sampleNow sampleRecycleDb) = []
      ∧ recycleEvergreenContent 3600000 sampleRecycleEnv sampleNow
          (recycleEvergreenContent 3600000 sampleRecycleEnv sampleNow sampleRecycleDb)
        = recycleEvergreenContent 3600000 sampleRecycleEnv sampleNow sampleRecycleDb :=
  (recycleEvergreenContent_second_run 3600000 sampleRecycleEnv sampleRecycleEnv sampleNow
    sampleRecycleDb (fun _ => ⟨rfl, rfl⟩)
    (fun _ => show (sampleNow + 7) / 1000 = sampleNow / 1000 by decide)).2

end SchedulerService
